import Mathlib

set_option maxHeartbeats 1000000
set_option maxRecDepth 8000
set_option linter.unusedVariables false
set_option linter.unreachableTactic false
set_option linter.unnecessarySeqFocus false
set_option linter.unusedTactic false

namespace VCard

/-!
Verification of the vcard library (unfolding reader, folding transducer,
serializer and parser).  Bytes and Unicode code points are both modelled as
natural numbers; strings are lists of code points, byte streams are lists of
byte values.
-/

/-- Specification-level unfolding transform on a byte stream, following the
spec text: a carriage-return+line-feed pair or a bare line-feed followed by a
space or horizontal tab is deleted together with that one whitespace byte;
any other carriage-return+line-feed pair or bare line-feed becomes a single
line-feed; a carriage return not followed by a line-feed is passed through
verbatim. -/
def unfoldSpec : List Nat → List Nat
  | [] => []
  | 13 :: 10 :: b :: t => if b = 32 ∨ b = 9 then unfoldSpec t else 10 :: unfoldSpec (b :: t)
  | [13, 10] => [10]
  | 10 :: b :: t => if b = 32 ∨ b = 9 then unfoldSpec t else 10 :: unfoldSpec (b :: t)
  | [10] => [10]
  | b :: t => b :: unfoldSpec t

/-- State of the unfolding reader, translated from the Go struct: the
remaining bytes of the underlying reader, the current line number, the stack
of unread (pushed-back) bytes with the most recently pushed byte first (the
Go code appends to and pops from the end of its slice), and the peeked byte
if any. -/
structure UnfoldingReader where
  input : List Nat
  line : Nat
  unread : List Nat
  peeked : Option Nat
deriving DecidableEq

/-- NewUnfoldingReader returns a reader for a byte stream, starting at line 1
with no pushed-back or peeked byte. -/
def NewUnfoldingReader (input : List Nat) : UnfoldingReader :=
  { input := input, line := 1, unread := [], peeked := none }

namespace UnfoldingReader

/-- The lower-level readByte: take the peeked byte if present, else the top
of the unread stack, else the next input byte (counting lines on a line feed
read from the underlying input, as the Go readByte does). -/
def readByte (r : UnfoldingReader) : Option (Nat × UnfoldingReader) :=
  match r.peeked with
  | some b => some (b, { r with peeked := none })
  | none =>
    match r.unread with
    | b :: rest => some (b, { r with unread := rest })
    | [] =>
      match r.input with
      | [] => none
      | b :: rest =>
        some (b, { r with input := rest, line := if b = 10 then r.line + 1 else r.line })

/-- Push a byte back onto the unread stack. -/
def pushUnread (r : UnfoldingReader) (b : Nat) : UnfoldingReader :=
  { r with unread := b :: r.unread }

/-- All bytes still pending in the reader, in the order they will be
delivered by readByte. -/
def pending (r : UnfoldingReader) : List Nat :=
  r.peeked.toList ++ r.unread ++ r.input

theorem readByte_pending {r : UnfoldingReader} {b : Nat} {r' : UnfoldingReader}
    (h : r.readByte = some (b, r')) : r'.pending.length + 1 = r.pending.length := by
  rcases r with ⟨input, line, unread, peeked⟩
  cases peeked with
  | some p => simp [readByte] at h; simp [← h.2, pending]
  | none =>
    cases unread with
    | cons u us => simp [readByte] at h; simp [← h.2, pending]
    | nil =>
      cases input with
      | nil => simp [readByte] at h
      | cons i is => simp [readByte] at h; simp [← h.2, pending]

theorem pushUnread_pending (r : UnfoldingReader) (b : Nat) :
    (r.pushUnread b).pending.length = r.pending.length + 1 := by
  simp [pushUnread, pending]
  omega


theorem readByte_none_of_pending {r : UnfoldingReader} (h : r.pending = []) :
    r.readByte = none := by
  rcases r with ⟨input, line, unread, peeked⟩
  cases peeked with
  | some p => simp [pending] at h
  | none =>
    cases unread with
    | cons u us => simp [pending] at h
    | nil =>
      cases input with
      | nil => simp [readByte]
      | cons i is => simp [pending] at h

theorem readByte_some_of_pending {r : UnfoldingReader} {b : Nat} {t : List Nat}
    (h : r.pending = b :: t) :
    ∃ r', r.readByte = some (b, r') ∧ r'.pending = t ∧ r'.peeked = none := by
  rcases r with ⟨input, line, unread, peeked⟩
  cases peeked with
  | some p =>
    simp [pending] at h
    obtain ⟨hb, ht⟩ := h
    subst hb
    refine ⟨{ input := input, line := line, unread := unread, peeked := none }, ?_, ?_, rfl⟩
    · simp [readByte]
    · simpa [pending] using ht
  | none =>
    cases unread with
    | cons u us =>
      simp [pending] at h
      obtain ⟨hb, ht⟩ := h
      subst hb
      refine ⟨{ input := input, line := line, unread := us, peeked := none }, ?_, ?_, rfl⟩
      · simp [readByte]
      · simpa [pending] using ht
    | nil =>
      cases input with
      | nil => simp [pending] at h
      | cons i is =>
        simp [pending] at h
        obtain ⟨hb, ht⟩ := h
        refine ⟨UnfoldingReader.mk is (if i = 10 then line + 1 else line) [] none, ?_, ?_, rfl⟩
        · simp [readByte, hb]
        · simpa [pending] using ht

theorem pushUnread_pending_cons {r : UnfoldingReader} (hp : r.peeked = none) (b : Nat) :
    (r.pushUnread b).pending = b :: r.pending := by
  simp [pushUnread, pending, hp]

/-- ReadByte, translated from the Go method: read a byte; after a carriage
return look for a line feed, and after a (possibly synthesized) line feed
look for a continuation space or tab, unreading any byte read ahead that is
not part of a continuation sequence. -/
def ReadByte (r : UnfoldingReader) : Option (Nat × UnfoldingReader) :=
  match h1 : r.readByte with
  | none => none
  | some (b, r1) =>
    if b = 13 then
      match h2 : r1.readByte with
      | none => some (13, r1)
      | some (b2, r2) =>
        if b2 = 10 then
          match h3 : r2.readByte with
          | none => some (10, r2)
          | some (b3, r3) =>
            if b3 = 32 ∨ b3 = 9 then ReadByte r3
            else some (10, r3.pushUnread b3)
        else some (13, r2.pushUnread b2)
    else if b = 10 then
      match h2 : r1.readByte with
      | none => some (10, r1)
      | some (b2, r2) =>
        if b2 = 32 ∨ b2 = 9 then ReadByte r2
        else some (10, r2.pushUnread b2)
    else some (b, r1)
termination_by r.pending.length
decreasing_by
  · have e1 := readByte_pending h1
    have e2 := readByte_pending h2
    have e3 := readByte_pending h3
    omega
  · have e1 := readByte_pending h1
    have e2 := readByte_pending h2
    omega

theorem ReadByte_pending {r : UnfoldingReader} {b : Nat} {r' : UnfoldingReader}
    (h : r.ReadByte = some (b, r')) : r'.pending.length < r.pending.length := by
  generalize hn : r.pending.length = n
  induction n using Nat.strong_induction_on generalizing r b r' with
  | _ n ih =>
    subst hn
    rw [ReadByte] at h
    split at h
    · exact absurd h (by simp)
    · rename_i b1 r1 h1
      have e1 := readByte_pending h1
      split at h
      · split at h
        · simp at h
          obtain ⟨h, h'⟩ := h
          subst h'
          omega
        · rename_i b2 r2 h2
          have e2 := readByte_pending h2
          split at h
          · split at h
            · simp at h
              obtain ⟨h, h'⟩ := h
              subst h'
              omega
            · rename_i b3 r3 h3
              have e3 := readByte_pending h3
              split at h
              · have := ih r3.pending.length (by omega) h rfl
                omega
              · simp at h
                rw [← h.2, pushUnread_pending]
                omega
          · simp at h
            rw [← h.2, pushUnread_pending]
            omega
      · split at h
        · split at h
          · simp at h
            obtain ⟨h, h'⟩ := h
            subst h'
            omega
          · rename_i b2 r2 h2
            have e2 := readByte_pending h2
            split at h
            · have := ih r2.pending.length (by omega) h rfl
              omega
            · simp at h
              rw [← h.2, pushUnread_pending]
              omega
        · simp at h
          obtain ⟨h, h'⟩ := h
          subst h'
          omega

/-- Repeatedly call ReadByte until end of input, collecting the bytes read:
the unfolded byte stream seen by a consumer of the reader. -/
def readAll (r : UnfoldingReader) : List Nat :=
  match h : r.ReadByte with
  | none => []
  | some (b, r') => b :: readAll r'
termination_by r.pending.length
decreasing_by
  exact ReadByte_pending h

theorem ReadByte_nil {r : UnfoldingReader} (h : r.pending = []) : r.ReadByte = none := by
  rw [ReadByte]
  split
  · rfl
  · rename_i b1 r1 heq
    rw [readByte_none_of_pending h] at heq
    exact absurd heq (by simp)

theorem pushUnread_peeked (r : UnfoldingReader) (b : Nat) :
    (r.pushUnread b).peeked = r.peeked := rfl

theorem ReadByte_other {r : UnfoldingReader} {b : Nat} {t : List Nat}
    (h : r.pending = b :: t) (h13 : b ≠ 13) (h10 : b ≠ 10) :
    ∃ r', r.ReadByte = some (b, r') ∧ r'.pending = t ∧ r'.peeked = none := by
  obtain ⟨r1, hrb, hp1, hpk1⟩ := readByte_some_of_pending h
  refine ⟨r1, ?_, hp1, hpk1⟩
  rw [ReadByte]
  split
  · rename_i heq
    rw [hrb] at heq
    exact absurd heq (by simp)
  · rename_i b1 r1' heq
    rw [hrb] at heq
    simp only [Option.some.injEq, Prod.mk.injEq] at heq
    obtain ⟨hb1, hr1⟩ := heq
    subst hb1
    subst hr1
    rw [if_neg h13, if_neg h10]

theorem ReadByte_cr_eof {r : UnfoldingReader} (h : r.pending = [13]) :
    ∃ r', r.ReadByte = some (13, r') ∧ r'.pending = [] ∧ r'.peeked = none := by
  obtain ⟨r1, hrb, hp1, hpk1⟩ := readByte_some_of_pending h
  refine ⟨r1, ?_, hp1, hpk1⟩
  rw [ReadByte]
  split
  · rename_i heq
    rw [hrb] at heq
    exact absurd heq (by simp)
  · rename_i b1 r1' heq
    rw [hrb] at heq
    simp only [Option.some.injEq, Prod.mk.injEq] at heq
    obtain ⟨hb1, hr1⟩ := heq
    subst hb1
    subst hr1
    rw [if_pos rfl]
    split
    · rfl
    · rename_i b2 r2 heq2
      rw [readByte_none_of_pending hp1] at heq2
      exact absurd heq2 (by simp)

theorem ReadByte_cr_other {r : UnfoldingReader} {c : Nat} {t : List Nat}
    (h : r.pending = 13 :: c :: t) (hc : c ≠ 10) :
    ∃ r', r.ReadByte = some (13, r') ∧ r'.pending = c :: t ∧ r'.peeked = none := by
  obtain ⟨r1, hrb, hp1, hpk1⟩ := readByte_some_of_pending h
  obtain ⟨r2, hrb2, hp2, hpk2⟩ := readByte_some_of_pending hp1
  refine ⟨r2.pushUnread c, ?_, ?_, ?_⟩
  · rw [ReadByte]
    split
    · rename_i heq
      rw [hrb] at heq
      exact absurd heq (by simp)
    · rename_i b1 r1' heq
      rw [hrb] at heq
      simp only [Option.some.injEq, Prod.mk.injEq] at heq
      obtain ⟨hb1, hr1⟩ := heq
      subst hb1
      subst hr1
      rw [if_pos rfl]
      split
      · rename_i heq2
        rw [hrb2] at heq2
        exact absurd heq2 (by simp)
      · rename_i b2 r2' heq2
        rw [hrb2] at heq2
        simp only [Option.some.injEq, Prod.mk.injEq] at heq2
        obtain ⟨hb2, hr2⟩ := heq2
        subst hb2
        subst hr2
        rw [if_neg hc]
  · rw [pushUnread_pending_cons hpk2, hp2]
  · rw [pushUnread_peeked, hpk2]

theorem ReadByte_crlf_eof {r : UnfoldingReader} (h : r.pending = [13, 10]) :
    ∃ r', r.ReadByte = some (10, r') ∧ r'.pending = [] ∧ r'.peeked = none := by
  obtain ⟨r1, hrb, hp1, hpk1⟩ := readByte_some_of_pending h
  obtain ⟨r2, hrb2, hp2, hpk2⟩ := readByte_some_of_pending hp1
  refine ⟨r2, ?_, hp2, hpk2⟩
  rw [ReadByte]
  split
  · rename_i heq
    rw [hrb] at heq
    exact absurd heq (by simp)
  · rename_i b1 r1' heq
    rw [hrb] at heq
    simp only [Option.some.injEq, Prod.mk.injEq] at heq
    obtain ⟨hb1, hr1⟩ := heq
    subst hb1
    subst hr1
    rw [if_pos rfl]
    split
    · rename_i heq2
      rw [hrb2] at heq2
      exact absurd heq2 (by simp)
    · rename_i b2 r2' heq2
      rw [hrb2] at heq2
      simp only [Option.some.injEq, Prod.mk.injEq] at heq2
      obtain ⟨hb2, hr2⟩ := heq2
      subst hb2
      subst hr2
      rw [if_pos rfl]
      split
      · rfl
      · rename_i b3 r3 heq3
        rw [readByte_none_of_pending hp2] at heq3
        exact absurd heq3 (by simp)

theorem ReadByte_crlf_other {r : UnfoldingReader} {c : Nat} {t : List Nat}
    (h : r.pending = 13 :: 10 :: c :: t) (hc : ¬(c = 32 ∨ c = 9)) :
    ∃ r', r.ReadByte = some (10, r') ∧ r'.pending = c :: t ∧ r'.peeked = none := by
  obtain ⟨r1, hrb, hp1, hpk1⟩ := readByte_some_of_pending h
  obtain ⟨r2, hrb2, hp2, hpk2⟩ := readByte_some_of_pending hp1
  obtain ⟨r3, hrb3, hp3, hpk3⟩ := readByte_some_of_pending hp2
  refine ⟨r3.pushUnread c, ?_, ?_, ?_⟩
  · rw [ReadByte]
    split
    · rename_i heq
      rw [hrb] at heq
      exact absurd heq (by simp)
    · rename_i b1 r1' heq
      rw [hrb] at heq
      simp only [Option.some.injEq, Prod.mk.injEq] at heq
      obtain ⟨hb1, hr1⟩ := heq
      subst hb1
      subst hr1
      rw [if_pos rfl]
      split
      · rename_i heq2
        rw [hrb2] at heq2
        exact absurd heq2 (by simp)
      · rename_i b2 r2' heq2
        rw [hrb2] at heq2
        simp only [Option.some.injEq, Prod.mk.injEq] at heq2
        obtain ⟨hb2, hr2⟩ := heq2
        subst hb2
        subst hr2
        rw [if_pos rfl]
        split
        · rename_i heq3
          rw [hrb3] at heq3
          exact absurd heq3 (by simp)
        · rename_i b3 r3' heq3
          rw [hrb3] at heq3
          simp only [Option.some.injEq, Prod.mk.injEq] at heq3
          obtain ⟨hb3, hr3⟩ := heq3
          subst hb3
          subst hr3
          rw [if_neg hc]
  · rw [pushUnread_pending_cons hpk3, hp3]
  · rw [pushUnread_peeked, hpk3]

theorem ReadByte_crlf_ws {r : UnfoldingReader} {c : Nat} {t : List Nat}
    (h : r.pending = 13 :: 10 :: c :: t) (hc : c = 32 ∨ c = 9) :
    ∃ r' : UnfoldingReader, r.ReadByte = r'.ReadByte ∧ r'.pending = t ∧ r'.peeked = none := by
  obtain ⟨r1, hrb, hp1, hpk1⟩ := readByte_some_of_pending h
  obtain ⟨r2, hrb2, hp2, hpk2⟩ := readByte_some_of_pending hp1
  obtain ⟨r3, hrb3, hp3, hpk3⟩ := readByte_some_of_pending hp2
  refine ⟨r3, ?_, hp3, hpk3⟩
  conv_lhs => rw [ReadByte]
  split
  · rename_i heq
    rw [hrb] at heq
    exact absurd heq (by simp)
  · rename_i b1 r1' heq
    rw [hrb] at heq
    simp only [Option.some.injEq, Prod.mk.injEq] at heq
    obtain ⟨hb1, hr1⟩ := heq
    subst hb1
    subst hr1
    rw [if_pos rfl]
    split
    · rename_i heq2
      rw [hrb2] at heq2
      exact absurd heq2 (by simp)
    · rename_i b2 r2' heq2
      rw [hrb2] at heq2
      simp only [Option.some.injEq, Prod.mk.injEq] at heq2
      obtain ⟨hb2, hr2⟩ := heq2
      subst hb2
      subst hr2
      rw [if_pos rfl]
      split
      · rename_i heq3
        rw [hrb3] at heq3
        exact absurd heq3 (by simp)
      · rename_i b3 r3' heq3
        rw [hrb3] at heq3
        simp only [Option.some.injEq, Prod.mk.injEq] at heq3
        obtain ⟨hb3, hr3⟩ := heq3
        subst hb3
        subst hr3
        rw [if_pos hc]

theorem ReadByte_lf_eof {r : UnfoldingReader} (h : r.pending = [10]) :
    ∃ r', r.ReadByte = some (10, r') ∧ r'.pending = [] ∧ r'.peeked = none := by
  obtain ⟨r1, hrb, hp1, hpk1⟩ := readByte_some_of_pending h
  refine ⟨r1, ?_, hp1, hpk1⟩
  rw [ReadByte]
  split
  · rename_i heq
    rw [hrb] at heq
    exact absurd heq (by simp)
  · rename_i b1 r1' heq
    rw [hrb] at heq
    simp only [Option.some.injEq, Prod.mk.injEq] at heq
    obtain ⟨hb1, hr1⟩ := heq
    subst hb1
    subst hr1
    rw [if_neg (by norm_num), if_pos rfl]
    split
    · rfl
    · rename_i b2 r2 heq2
      rw [readByte_none_of_pending hp1] at heq2
      exact absurd heq2 (by simp)

theorem ReadByte_lf_other {r : UnfoldingReader} {c : Nat} {t : List Nat}
    (h : r.pending = 10 :: c :: t) (hc : ¬(c = 32 ∨ c = 9)) :
    ∃ r', r.ReadByte = some (10, r') ∧ r'.pending = c :: t ∧ r'.peeked = none := by
  obtain ⟨r1, hrb, hp1, hpk1⟩ := readByte_some_of_pending h
  obtain ⟨r2, hrb2, hp2, hpk2⟩ := readByte_some_of_pending hp1
  refine ⟨r2.pushUnread c, ?_, ?_, ?_⟩
  · rw [ReadByte]
    split
    · rename_i heq
      rw [hrb] at heq
      exact absurd heq (by simp)
    · rename_i b1 r1' heq
      rw [hrb] at heq
      simp only [Option.some.injEq, Prod.mk.injEq] at heq
      obtain ⟨hb1, hr1⟩ := heq
      subst hb1
      subst hr1
      rw [if_neg (by norm_num), if_pos rfl]
      split
      · rename_i heq2
        rw [hrb2] at heq2
        exact absurd heq2 (by simp)
      · rename_i b2 r2' heq2
        rw [hrb2] at heq2
        simp only [Option.some.injEq, Prod.mk.injEq] at heq2
        obtain ⟨hb2, hr2⟩ := heq2
        subst hb2
        subst hr2
        rw [if_neg hc]
  · rw [pushUnread_pending_cons hpk2, hp2]
  · rw [pushUnread_peeked, hpk2]

theorem ReadByte_lf_ws {r : UnfoldingReader} {c : Nat} {t : List Nat}
    (h : r.pending = 10 :: c :: t) (hc : c = 32 ∨ c = 9) :
    ∃ r' : UnfoldingReader, r.ReadByte = r'.ReadByte ∧ r'.pending = t ∧ r'.peeked = none := by
  obtain ⟨r1, hrb, hp1, hpk1⟩ := readByte_some_of_pending h
  obtain ⟨r2, hrb2, hp2, hpk2⟩ := readByte_some_of_pending hp1
  refine ⟨r2, ?_, hp2, hpk2⟩
  conv_lhs => rw [ReadByte]
  split
  · rename_i heq
    rw [hrb] at heq
    exact absurd heq (by simp)
  · rename_i b1 r1' heq
    rw [hrb] at heq
    simp only [Option.some.injEq, Prod.mk.injEq] at heq
    obtain ⟨hb1, hr1⟩ := heq
    subst hb1
    subst hr1
    rw [if_neg (by norm_num), if_pos rfl]
    split
    · rename_i heq2
      rw [hrb2] at heq2
      exact absurd heq2 (by simp)
    · rename_i b2 r2' heq2
      rw [hrb2] at heq2
      simp only [Option.some.injEq, Prod.mk.injEq] at heq2
      obtain ⟨hb2, hr2⟩ := heq2
      subst hb2
      subst hr2
      rw [if_pos hc]

theorem readAll_none {r : UnfoldingReader} (h : r.ReadByte = none) : readAll r = [] := by
  rw [readAll]
  split
  · rfl
  · rename_i b r' heq
    rw [h] at heq
    exact absurd heq (by simp)

theorem readAll_some {r : UnfoldingReader} {b : Nat} {r' : UnfoldingReader}
    (h : r.ReadByte = some (b, r')) : readAll r = b :: readAll r' := by
  rw [readAll]
  split
  · rename_i heq
    rw [h] at heq
    exact absurd heq (by simp)
  · rename_i b1 r1 heq
    rw [h] at heq
    simp only [Option.some.injEq, Prod.mk.injEq] at heq
    obtain ⟨hb1, hr1⟩ := heq
    subst hb1
    subst hr1
    rfl

theorem readAll_congr {r r2 : UnfoldingReader} (h : r.ReadByte = r2.ReadByte) :
    readAll r = readAll r2 := by
  rcases heq : r2.ReadByte with _ | ⟨b, r'⟩
  · rw [readAll_none (h.trans heq), readAll_none heq]
  · rw [readAll_some (h.trans heq), readAll_some heq]

end UnfoldingReader

theorem unfoldSpec_nil : unfoldSpec [] = [] := rfl

theorem unfoldSpec_crlf_cons (c : Nat) (t : List Nat) :
    unfoldSpec (13 :: 10 :: c :: t) =
      if c = 32 ∨ c = 9 then unfoldSpec t else 10 :: unfoldSpec (c :: t) := by
  rfl

theorem unfoldSpec_lf_cons (c : Nat) (t : List Nat) :
    unfoldSpec (10 :: c :: t) =
      if c = 32 ∨ c = 9 then unfoldSpec t else 10 :: unfoldSpec (c :: t) := by
  rfl

theorem unfoldSpec_cr_cons {c : Nat} (t : List Nat) (hc : c ≠ 10) :
    unfoldSpec (13 :: c :: t) = 13 :: unfoldSpec (c :: t) := by
  rw [unfoldSpec.eq_def]
  split
  all_goals simp_all

theorem unfoldSpec_cons_other {b : Nat} (t : List Nat) (h13 : b ≠ 13) (h10 : b ≠ 10) :
    unfoldSpec (b :: t) = b :: unfoldSpec t := by
  rw [unfoldSpec.eq_def]
  split
  all_goals simp_all

namespace UnfoldingReader

/-- The stream of bytes delivered by repeated ReadByte calls equals the
specification-level unfolding of the pending byte stream. -/
theorem readAll_eq_unfoldSpec (r : UnfoldingReader) : readAll r = unfoldSpec r.pending := by
  generalize hn : r.pending.length = n
  induction n using Nat.strong_induction_on generalizing r with
  | _ n ih =>
    subst hn
    rcases hp : r.pending with _ | ⟨b, t⟩
    · rw [readAll_none (ReadByte_nil hp), unfoldSpec_nil]
    · have hlen : r.pending.length = t.length + 1 := by rw [hp]; rfl
      by_cases b13 : b = 13
      · subst b13
        rcases t with _ | ⟨c, t'⟩
        · obtain ⟨r', hR, hp', _⟩ := ReadByte_cr_eof hp
          rw [readAll_some hR, ih r'.pending.length (by simp [hp', hlen] <;> omega) r' rfl, hp']
          rfl
        · by_cases c10 : c = 10
          · subst c10
            rcases t' with _ | ⟨d, t''⟩
            · obtain ⟨r', hR, hp', _⟩ := ReadByte_crlf_eof hp
              rw [readAll_some hR, ih r'.pending.length (by simp [hp', hlen] <;> omega) r' rfl, hp']
              rfl
            · by_cases hws : d = 32 ∨ d = 9
              · obtain ⟨r', hR, hp', _⟩ := ReadByte_crlf_ws hp hws
                rw [readAll_congr hR, ih r'.pending.length (by simp [hp', hlen] <;> omega) r' rfl, hp',
                  unfoldSpec_crlf_cons, if_pos hws]
              · obtain ⟨r', hR, hp', _⟩ := ReadByte_crlf_other hp hws
                rw [readAll_some hR, ih r'.pending.length (by simp [hp', hlen] <;> omega) r' rfl, hp',
                  unfoldSpec_crlf_cons, if_neg hws]
          · obtain ⟨r', hR, hp', _⟩ := ReadByte_cr_other hp c10
            rw [readAll_some hR, ih r'.pending.length (by simp [hp', hlen] <;> omega) r' rfl, hp',
              unfoldSpec_cr_cons _ c10]
      · by_cases b10 : b = 10
        · subst b10
          rcases t with _ | ⟨c, t'⟩
          · obtain ⟨r', hR, hp', _⟩ := ReadByte_lf_eof hp
            rw [readAll_some hR, ih r'.pending.length (by simp [hp', hlen] <;> omega) r' rfl, hp']
            rfl
          · by_cases hws : c = 32 ∨ c = 9
            · obtain ⟨r', hR, hp', _⟩ := ReadByte_lf_ws hp hws
              rw [readAll_congr hR, ih r'.pending.length (by simp [hp', hlen] <;> omega) r' rfl, hp',
                unfoldSpec_lf_cons, if_pos hws]
            · obtain ⟨r', hR, hp', _⟩ := ReadByte_lf_other hp hws
              rw [readAll_some hR, ih r'.pending.length (by simp [hp', hlen] <;> omega) r' rfl, hp',
                unfoldSpec_lf_cons, if_neg hws]
        · obtain ⟨r', hR, hp', _⟩ := ReadByte_other hp b13 b10
          rw [readAll_some hR, ih r'.pending.length (by simp [hp', hlen] <;> omega) r' rfl, hp',
            unfoldSpec_cons_other _ b13 b10]

end UnfoldingReader

/-- C1: for every finite input byte stream, the sequence of bytes produced by
repeatedly calling UnfoldingReader.ReadByte until end-of-input equals the
input stream with every carriage-return+line-feed or bare line-feed followed
by a space or horizontal tab deleted together with that whitespace byte,
every other carriage-return+line-feed or bare line-feed replaced by a single
line-feed, and every carriage return not followed by a line-feed passed
through verbatim; no speculatively read byte is lost at end-of-input. -/
theorem c1_unfolding_reader_stream (input : List Nat) :
    UnfoldingReader.readAll (NewUnfoldingReader input) = unfoldSpec input := by
  rw [UnfoldingReader.readAll_eq_unfoldSpec]
  simp [NewUnfoldingReader, UnfoldingReader.pending]

/-- UTF-8 encoding of a single code point (Go utf8.EncodeRune / WriteRune on
valid code points; strings obtained from Go range loops contain only valid
code points, on which this agrees with the Go library). -/
def utf8EncodeChar (r : Nat) : List Nat :=
  if r < 128 then [r]
  else if r < 2048 then [192 + r / 64, 128 + r % 64]
  else if r < 65536 then [224 + r / 4096, 128 + r / 64 % 64, 128 + r % 64]
  else [240 + r / 262144, 128 + r / 4096 % 64, 128 + r / 64 % 64, 128 + r % 64]

/-- UTF-8 encoding of a string of code points as a byte stream. -/
def utf8Encode (s : List Nat) : List Nat := s.flatMap utf8EncodeChar

/-- Encoded byte length of one code point (Go utf8.RuneLen on valid code
points). -/
def runeLen (r : Nat) : Nat := (utf8EncodeChar r).length

/-- Byte length of a string of code points, as counted by the Go string
builder holding the current line in Fold. -/
def byteLen (s : List Nat) : Nat := (utf8Encode s).length

theorem utf8Encode_nil : utf8Encode [] = [] := rfl

theorem utf8Encode_cons (c : Nat) (t : List Nat) :
    utf8Encode (c :: t) = utf8EncodeChar c ++ utf8Encode t := rfl

theorem utf8Encode_append (s t : List Nat) :
    utf8Encode (s ++ t) = utf8Encode s ++ utf8Encode t := by
  simp [utf8Encode]

theorem utf8EncodeChar_small {r : Nat} (h : r < 128) : utf8EncodeChar r = [r] := by
  simp [utf8EncodeChar, h]

theorem utf8EncodeChar_large {r : Nat} (h : 128 ≤ r) :
    ∃ hd tl, utf8EncodeChar r = hd :: tl ∧ 128 ≤ hd ∧ ∀ b ∈ tl, 128 ≤ b := by
  rw [utf8EncodeChar, if_neg (by omega)]
  by_cases h2 : r < 2048
  · rw [if_pos h2]
    exact ⟨_, _, rfl, by omega, by intro b hb; simp at hb; omega⟩
  · rw [if_neg h2]
    by_cases h3 : r < 65536
    · rw [if_pos h3]
      exact ⟨_, _, rfl, by omega, by intro b hb; simp at hb; rcases hb with h | h <;> omega⟩
    · rw [if_neg h3]
      exact ⟨_, _, rfl, by omega, by intro b hb; simp at hb; rcases hb with h | h | h <;> omega⟩

theorem runeLen_pos (r : Nat) : 1 ≤ runeLen r := by
  rw [runeLen, utf8EncodeChar]
  split
  · simp
  · split
    · simp
    · split <;> simp

theorem runeLen_le_four (r : Nat) : runeLen r ≤ 4 := by
  rw [runeLen, utf8EncodeChar]
  split
  · simp
  · split
    · simp
    · split <;> simp

theorem byteLen_nil : byteLen [] = 0 := rfl

theorem byteLen_append (s t : List Nat) : byteLen (s ++ t) = byteLen s + byteLen t := by
  simp [byteLen, utf8Encode_append]

theorem byteLen_cons (c : Nat) (t : List Nat) :
    byteLen (c :: t) = runeLen c + byteLen t := by
  simp [byteLen, utf8Encode_cons, runeLen]

/-- The worker loop of Fold, translated from the Go function body: the first
argument of the recursion is the remaining input, then the builder holding
the current physical line and the lastCR flag.  Emissions to the output
builder are concatenated in front of the recursive call.  The final
non-recursive cases flush the pending carriage return and the last line,
exactly as the code after the Go loop does. -/
def foldLoop (width : Int) : List Nat → List Nat → Bool → List Nat
  | [], line, false => line
  | [], line, true =>
    if (byteLen line : Int) + 1 > width - 2 then line ++ [13, 10, 32, 13] else line ++ [13]
  | r :: rest, line, lastCR =>
    let e1 : List Nat :=
      if lastCR = true ∧ r ≠ 10 ∧ (byteLen line : Int) + 1 > width - 2 then line ++ [13, 10]
      else []
    let l1 : List Nat :=
      if lastCR = true ∧ r ≠ 10 then
        (if (byteLen line : Int) + 1 > width - 2 then [32, 13] else line ++ [13])
      else line
    if lastCR = true ∧ r = 10 then line ++ [13, 10] ++ foldLoop width rest [] false
    else if r = 13 then e1 ++ foldLoop width rest l1 true
    else if r = 10 then e1 ++ l1 ++ [13, 10] ++ foldLoop width rest [] false
    else if (byteLen l1 : Int) + (runeLen r : Int) > width - 2 then
      e1 ++ l1 ++ [13, 10] ++ foldLoop width rest [32, r] false
    else e1 ++ foldLoop width rest (l1 ++ [r]) false

/-- Fold, translated from the Go function: folds a string so that no line
exceeds the given width in bytes and normalizes line endings to
carriage-return+line-feed, starting from an empty line builder. -/
def Fold (s : List Nat) (width : Int) : List Nat := foldLoop width s [] false

theorem foldLoop_nil_false (w : Int) (line : List Nat) :
    foldLoop w [] line false = line := rfl

theorem foldLoop_nil_true (w : Int) (line : List Nat) :
    foldLoop w [] line true =
      if (byteLen line : Int) + 1 > w - 2 then line ++ [13, 10, 32, 13] else line ++ [13] := rfl

theorem foldLoop_lf (w : Int) (rest line : List Nat) (c : Bool) :
    foldLoop w (10 :: rest) line c = line ++ [13, 10] ++ foldLoop w rest [] false := by
  cases c with
  | true => simp [foldLoop]
  | false => simp [foldLoop]

theorem foldLoop_cr_false (w : Int) (rest line : List Nat) :
    foldLoop w (13 :: rest) line false = foldLoop w rest line true := by
  simp [foldLoop]

theorem foldLoop_cr_true_fits (w : Int) (rest line : List Nat)
    (h : ¬((byteLen line : Int) + 1 > w - 2)) :
    foldLoop w (13 :: rest) line true = foldLoop w rest (line ++ [13]) true := by
  simp [foldLoop, h]

theorem foldLoop_cr_true_over (w : Int) (rest line : List Nat)
    (h : (byteLen line : Int) + 1 > w - 2) :
    foldLoop w (13 :: rest) line true = line ++ [13, 10] ++ foldLoop w rest [32, 13] true := by
  simp [foldLoop, h]

theorem foldLoop_other_false_fits (w : Int) (r : Nat) (rest line : List Nat)
    (h13 : r ≠ 13) (h10 : r ≠ 10)
    (h : ¬((byteLen line : Int) + (runeLen r : Int) > w - 2)) :
    foldLoop w (r :: rest) line false = foldLoop w rest (line ++ [r]) false := by
  simp [foldLoop, h13, h10, h]

theorem foldLoop_other_false_over (w : Int) (r : Nat) (rest line : List Nat)
    (h13 : r ≠ 13) (h10 : r ≠ 10)
    (h : (byteLen line : Int) + (runeLen r : Int) > w - 2) :
    foldLoop w (r :: rest) line false =
      line ++ [13, 10] ++ foldLoop w rest [32, r] false := by
  simp [foldLoop, h13, h10, h]

theorem foldLoop_other_true_fits_fits (w : Int) (r : Nat) (rest line : List Nat)
    (h13 : r ≠ 13) (h10 : r ≠ 10)
    (hcr : ¬((byteLen line : Int) + 1 > w - 2))
    (h : ¬((byteLen (line ++ [13]) : Int) + (runeLen r : Int) > w - 2)) :
    foldLoop w (r :: rest) line true = foldLoop w rest (line ++ [13, r]) false := by
  simp [foldLoop, h13, h10, hcr, h]

theorem foldLoop_other_true_fits_over (w : Int) (r : Nat) (rest line : List Nat)
    (h13 : r ≠ 13) (h10 : r ≠ 10)
    (hcr : ¬((byteLen line : Int) + 1 > w - 2))
    (h : (byteLen (line ++ [13]) : Int) + (runeLen r : Int) > w - 2) :
    foldLoop w (r :: rest) line true =
      line ++ [13] ++ [13, 10] ++ foldLoop w rest [32, r] false := by
  simp [foldLoop, h13, h10, hcr, h]

theorem foldLoop_other_true_over_fits (w : Int) (r : Nat) (rest line : List Nat)
    (h13 : r ≠ 13) (h10 : r ≠ 10)
    (hcr : (byteLen line : Int) + 1 > w - 2)
    (h : ¬((byteLen ([32, 13] : List Nat) : Int) + (runeLen r : Int) > w - 2)) :
    foldLoop w (r :: rest) line true =
      line ++ [13, 10] ++ foldLoop w rest ([32, 13] ++ [r]) false := by
  simp [foldLoop, h13, h10, hcr, h]

theorem foldLoop_other_true_over_over (w : Int) (r : Nat) (rest line : List Nat)
    (h13 : r ≠ 13) (h10 : r ≠ 10)
    (hcr : (byteLen line : Int) + 1 > w - 2)
    (h : (byteLen ([32, 13] : List Nat) : Int) + (runeLen r : Int) > w - 2) :
    foldLoop w (r :: rest) line true =
      line ++ [13, 10] ++ [32, 13] ++ [13, 10] ++ foldLoop w rest [32, r] false := by
  simp [foldLoop, h13, h10, hcr, h]

/-- Normalization of line terminators at the code-point level: each
carriage-return+line-feed pair becomes a single line feed; everything else,
including a lone carriage return, is kept. -/
def normalizeNewlines : List Nat → List Nat
  | 13 :: 10 :: t => 10 :: normalizeNewlines t
  | r :: t => r :: normalizeNewlines t
  | [] => []

theorem normalizeNewlines_nil : normalizeNewlines [] = [] := rfl

theorem normalizeNewlines_crlf (t : List Nat) :
    normalizeNewlines (13 :: 10 :: t) = 10 :: normalizeNewlines t := rfl

theorem normalizeNewlines_cons_ne13 {r : Nat} (t : List Nat) (h : r ≠ 13) :
    normalizeNewlines (r :: t) = r :: normalizeNewlines t := by
  rw [normalizeNewlines.eq_def]
  split
  all_goals simp_all

theorem normalizeNewlines_cr_cons {c : Nat} (t : List Nat) (h : c ≠ 10) :
    normalizeNewlines (13 :: c :: t) = 13 :: normalizeNewlines (c :: t) := by
  rw [normalizeNewlines.eq_def]
  split
  all_goals simp_all

theorem normalizeNewlines_cr_nil : normalizeNewlines [13] = [13] := rfl

/-- Whether no line feed in the string is immediately followed by a space or
horizontal tab, that is, no logical line of the string begins with folding
whitespace. -/
def noWSAfterLF : List Nat → Bool
  | 10 :: c :: t => if c = 32 ∨ c = 9 then false else noWSAfterLF (c :: t)
  | _ :: t => noWSAfterLF t
  | [] => true

theorem noWSAfterLF_lf_cons (c : Nat) (t : List Nat) :
    noWSAfterLF (10 :: c :: t) =
      if c = 32 ∨ c = 9 then false else noWSAfterLF (c :: t) := rfl

theorem noWSAfterLF_cons_ne {r : Nat} (t : List Nat) (h : r ≠ 10) :
    noWSAfterLF (r :: t) = noWSAfterLF t := by
  rw [noWSAfterLF.eq_def]
  split
  all_goals simp_all

theorem noWSAfterLF_nil : noWSAfterLF [] = true := rfl

theorem noWSAfterLF_singleton (r : Nat) : noWSAfterLF [r] = true := by
  rw [noWSAfterLF.eq_def]
  split
  all_goals simp_all [noWSAfterLF_nil]

theorem unfoldSpec_append_no10 {l bs : List Nat} (h10 : ∀ b ∈ l, b ≠ 10)
    (hbs : bs = [] ∨ ∃ c cs, bs = c :: cs ∧ c ≠ 10) :
    unfoldSpec (l ++ bs) = l ++ unfoldSpec bs := by
  induction l with
  | nil => simp
  | cons a l' ih =>
    have ha := h10 a (by simp)
    have ih' := ih (fun b hb => h10 b (by simp [hb]))
    by_cases h13 : a = 13
    · subst h13
      rcases l' with _ | ⟨b, l''⟩
      · rcases hbs with rfl | ⟨c, cs, rfl, hc⟩
        · rfl
        · show unfoldSpec (13 :: c :: cs) = 13 :: unfoldSpec (c :: cs)
          rw [unfoldSpec_cr_cons _ hc]
      · have hb := h10 b (by simp)
        rw [List.cons_append, List.cons_append, unfoldSpec_cr_cons _ hb,
          ← List.cons_append, ih']
        rfl
    · rw [List.cons_append, unfoldSpec_cons_other _ h13 ha, ih']
      rfl

theorem foldLoop_prefix (w : Int) :
    ∀ (s line : List Nat) (c : Bool), ∃ t, foldLoop w s line c = line ++ t := by
  intro s
  induction s with
  | nil =>
    intro line c
    cases c with
    | false => exact ⟨[], by simp [foldLoop_nil_false]⟩
    | true =>
      rw [foldLoop_nil_true]
      by_cases h : (byteLen line : Int) + 1 > w - 2
      · exact ⟨[13, 10, 32, 13], by rw [if_pos h]⟩
      · exact ⟨[13], by rw [if_neg h]⟩
  | cons r rest ih =>
    intro line c
    by_cases h10 : r = 10
    · subst h10
      exact ⟨[13, 10] ++ foldLoop w rest [] false, by rw [foldLoop_lf]; simp⟩
    by_cases h13 : r = 13
    · subst h13
      cases c with
      | false =>
        rw [foldLoop_cr_false]
        exact ih line true
      | true =>
        by_cases hcr : (byteLen line : Int) + 1 > w - 2
        · exact ⟨[13, 10] ++ foldLoop w rest [32, 13] true, by
            rw [foldLoop_cr_true_over _ _ _ hcr]; simp⟩
        · obtain ⟨t, ht⟩ := ih (line ++ [13]) true
          exact ⟨[13] ++ t, by rw [foldLoop_cr_true_fits _ _ _ hcr, ht]; simp⟩
    cases c with
    | false =>
      by_cases hov : (byteLen line : Int) + (runeLen r : Int) > w - 2
      · exact ⟨[13, 10] ++ foldLoop w rest [32, r] false, by
          rw [foldLoop_other_false_over _ _ _ _ h13 h10 hov]; simp⟩
      · obtain ⟨t, ht⟩ := ih (line ++ [r]) false
        exact ⟨[r] ++ t, by rw [foldLoop_other_false_fits _ _ _ _ h13 h10 hov, ht]; simp⟩
    | true =>
      by_cases hcr : (byteLen line : Int) + 1 > w - 2
      · by_cases hov : (byteLen ([32, 13] : List Nat) : Int) + (runeLen r : Int) > w - 2
        · exact ⟨[13, 10] ++ [32, 13] ++ [13, 10] ++ foldLoop w rest [32, r] false, by
            rw [foldLoop_other_true_over_over _ _ _ _ h13 h10 hcr hov]; simp⟩
        · exact ⟨[13, 10] ++ foldLoop w rest ([32, 13] ++ [r]) false, by
            rw [foldLoop_other_true_over_fits _ _ _ _ h13 h10 hcr hov]; simp⟩
      · by_cases hov : (byteLen (line ++ [13]) : Int) + (runeLen r : Int) > w - 2
        · exact ⟨[13] ++ [13, 10] ++ foldLoop w rest [32, r] false, by
            rw [foldLoop_other_true_fits_over _ _ _ _ h13 h10 hcr hov]; simp⟩
        · obtain ⟨t, ht⟩ := ih (line ++ [13, r]) false
          exact ⟨[13, r] ++ t, by rw [foldLoop_other_true_fits_fits _ _ _ _ h13 h10 hcr hov, ht]; simp⟩

theorem foldLoop_head_cr {w : Int} (hw : 7 ≤ w) (s : List Nat) :
    ∃ t, foldLoop w s [] true = 13 :: t := by
  cases s with
  | nil =>
    rw [foldLoop_nil_true, if_neg (by simp [byteLen_nil]; omega)]
    exact ⟨[], rfl⟩
  | cons r rest =>
    by_cases h10 : r = 10
    · subst h10
      rw [foldLoop_lf]
      exact ⟨10 :: foldLoop w rest [] false, by simp⟩
    by_cases h13 : r = 13
    · subst h13
      rw [foldLoop_cr_true_fits _ _ _ (by simp [byteLen_nil]; omega)]
      obtain ⟨t, ht⟩ := foldLoop_prefix w rest [13] true
      exact ⟨t, by simpa using ht⟩
    · rw [foldLoop_other_true_fits_fits _ _ _ _ h13 h10 (by simp [byteLen_nil]; omega)
        (by
          have h4 := runeLen_le_four r
          have h1 : runeLen 13 = 1 := rfl
          simp [byteLen_cons, byteLen_nil]
          omega)]
      obtain ⟨t, ht⟩ := foldLoop_prefix w rest [13, r] false
      exact ⟨r :: t, by simpa using ht⟩

theorem foldLoop_head_false {w : Int} (hw : 7 ≤ w) (r : Nat) (rest : List Nat)
    (hr : ¬(r = 32 ∨ r = 9)) :
    ∃ h t, foldLoop w (r :: rest) [] false = h :: t ∧ ¬(h = 32 ∨ h = 9) := by
  by_cases h10 : r = 10
  · subst h10
    rw [foldLoop_lf]
    exact ⟨13, 10 :: foldLoop w rest [] false, by simp, by norm_num⟩
  by_cases h13 : r = 13
  · subst h13
    rw [foldLoop_cr_false]
    obtain ⟨t, ht⟩ := foldLoop_head_cr hw rest
    exact ⟨13, t, ht, by norm_num⟩
  · rw [foldLoop_other_false_fits _ _ _ _ h13 h10
      (by have := runeLen_le_four r; simp [byteLen_nil]; omega)]
    obtain ⟨t, ht⟩ := foldLoop_prefix w rest [r] false
    exact ⟨r, t, by simpa using ht, hr⟩

theorem norm10 (t : List Nat) : normalizeNewlines (10 :: t) = 10 :: normalizeNewlines t :=
  normalizeNewlines_cons_ne13 t (by norm_num)

theorem unfoldSpec_foldLoop {w : Int} (hw : 7 ≤ w) :
    ∀ (s line : List Nat) (c : Bool), noWSAfterLF s = true → (∀ b ∈ line, b ≠ 10) →
      unfoldSpec (foldLoop w s line c) =
        line ++ normalizeNewlines ((if c then [13] else []) ++ s) := by
  intro s
  induction s with
  | nil =>
    intro line c hs hno
    cases c with
    | false =>
      rw [foldLoop_nil_false]
      simpa using @unfoldSpec_append_no10 line [] hno (Or.inl rfl)
    | true =>
      rw [foldLoop_nil_true]
      by_cases hcr : (byteLen line : Int) + 1 > w - 2
      · rw [if_pos hcr, unfoldSpec_append_no10 hno (Or.inr ⟨13, [10, 32, 13], rfl, by norm_num⟩)]
        have h1 : unfoldSpec [13, 10, 32, 13] = [13] := by decide
        simp [h1, normalizeNewlines_cr_nil]
      · rw [if_neg hcr, unfoldSpec_append_no10 hno (Or.inr ⟨13, [], rfl, by norm_num⟩)]
        have h1 : unfoldSpec [13] = [13] := by decide
        simp [h1, normalizeNewlines_cr_nil]
  | cons r rest ih =>
    intro line c hs hno
    by_cases h10r : r = 10
    · subst h10r
      rw [foldLoop_lf, List.append_assoc]
      cases rest with
      | nil =>
        rw [foldLoop_nil_false]
        simp only [List.append_nil]
        rw [unfoldSpec_append_no10 hno (Or.inr ⟨13, _, rfl, by norm_num⟩)]
        have h1 : unfoldSpec [13, 10] = [10] := by decide
        cases c with
        | false => simp [h1, norm10, normalizeNewlines_nil]
        | true => simp [h1, normalizeNewlines_crlf, normalizeNewlines_nil]
      | cons r' rest' =>
        have hs' : ¬(r' = 32 ∨ r' = 9) ∧ noWSAfterLF (r' :: rest') = true := by
          rw [noWSAfterLF_lf_cons] at hs
          by_cases hws : r' = 32 ∨ r' = 9
          · rw [if_pos hws] at hs
            exact absurd hs (by simp)
          · rw [if_neg hws] at hs
            exact ⟨hws, hs⟩
        obtain ⟨h, t, hT, hh⟩ := foldLoop_head_false hw r' rest' hs'.1
        rw [hT]
        simp only [List.append_assoc, List.cons_append, List.nil_append]
        rw [unfoldSpec_append_no10 hno (Or.inr ⟨13, _, rfl, by norm_num⟩)]
        rw [unfoldSpec_crlf_cons, if_neg hh, ← hT, ih [] false hs'.2 (by simp)]
        cases c with
        | false => simp [norm10]
        | true => simp [normalizeNewlines_crlf]
    · have hs2 : noWSAfterLF rest = true := by
        rw [noWSAfterLF_cons_ne _ h10r] at hs
        exact hs
      by_cases h13r : r = 13
      · subst h13r
        cases c with
        | false =>
          rw [foldLoop_cr_false, ih line true hs2 hno]
          simp
        | true =>
          by_cases hcr : (byteLen line : Int) + 1 > w - 2
          · rw [foldLoop_cr_true_over _ _ _ hcr, List.append_assoc]
            obtain ⟨t, hT⟩ := foldLoop_prefix w rest [32, 13] true
            rw [hT]
            simp only [List.append_assoc, List.cons_append, List.nil_append]
            rw [unfoldSpec_append_no10 hno (Or.inr ⟨13, _, rfl, by norm_num⟩)]
            rw [unfoldSpec_crlf_cons, if_pos (by norm_num)]
            have hIH := ih [32, 13] true hs2 (by norm_num)
            rw [hT] at hIH
            simp only [List.cons_append, List.nil_append,
              unfoldSpec_cons_other _ (by norm_num : (32:Nat) ≠ 13) (by norm_num : (32:Nat) ≠ 10)]
              at hIH
            rw [List.cons.injEq] at hIH
            rw [hIH.2]
            simp [normalizeNewlines_cr_cons _ (by norm_num : (13:Nat) ≠ 10)]
          · rw [foldLoop_cr_true_fits _ _ _ hcr,
              ih (line ++ [13]) true hs2 (by
                intro b hb
                rcases List.mem_append.mp hb with hb | hb
                · exact hno b hb
                · simp at hb
                  omega)]
            simp [normalizeNewlines_cr_cons _ (by norm_num : (13:Nat) ≠ 10)]
      · cases c with
        | false =>
          by_cases hov : (byteLen line : Int) + (runeLen r : Int) > w - 2
          · rw [foldLoop_other_false_over _ _ _ _ h13r h10r hov, List.append_assoc]
            obtain ⟨t, hT⟩ := foldLoop_prefix w rest [32, r] false
            rw [hT]
            simp only [List.append_assoc, List.cons_append, List.nil_append]
            rw [unfoldSpec_append_no10 hno (Or.inr ⟨13, _, rfl, by norm_num⟩)]
            rw [unfoldSpec_crlf_cons, if_pos (by norm_num)]
            have hIH := ih [32, r] false hs2 (by
              intro b hb
              simp at hb
              rcases hb with hb | hb
              · omega
              · omega)
            rw [hT] at hIH
            simp only [List.cons_append, List.nil_append,
              unfoldSpec_cons_other _ (by norm_num : (32:Nat) ≠ 13) (by norm_num : (32:Nat) ≠ 10)]
              at hIH
            rw [List.cons.injEq] at hIH
            rw [hIH.2]
            simp [normalizeNewlines_cons_ne13 _ h13r]
          · rw [foldLoop_other_false_fits _ _ _ _ h13r h10r hov,
              ih (line ++ [r]) false hs2 (by
                intro b hb
                rcases List.mem_append.mp hb with hb | hb
                · exact hno b hb
                · simp at hb
                  subst hb
                  exact h10r)]
            simp [normalizeNewlines_cons_ne13 _ h13r]
        | true =>
          by_cases hcr : (byteLen line : Int) + 1 > w - 2
          · by_cases hov : (byteLen ([32, 13] : List Nat) : Int) + (runeLen r : Int) > w - 2
            · rw [foldLoop_other_true_over_over _ _ _ _ h13r h10r hcr hov]
              obtain ⟨t, hT⟩ := foldLoop_prefix w rest [32, r] false
              rw [hT]
              simp only [List.append_assoc, List.cons_append, List.nil_append]
              rw [unfoldSpec_append_no10 hno (Or.inr ⟨13, _, rfl, by norm_num⟩)]
              rw [unfoldSpec_crlf_cons, if_pos (by norm_num)]
              rw [unfoldSpec_cr_cons _ (by norm_num : (13:Nat) ≠ 10)]
              rw [unfoldSpec_crlf_cons, if_pos (by norm_num)]
              have hIH := ih [32, r] false hs2 (by
                intro b hb
                simp at hb
                rcases hb with hb | hb <;> omega)
              rw [hT] at hIH
              simp only [List.cons_append, List.nil_append,
                unfoldSpec_cons_other _ (by norm_num : (32:Nat) ≠ 13)
                  (by norm_num : (32:Nat) ≠ 10)] at hIH
              rw [List.cons.injEq] at hIH
              rw [hIH.2]
              simp [normalizeNewlines_cr_cons _ h10r, normalizeNewlines_cons_ne13 _ h13r]
            · rw [foldLoop_other_true_over_fits _ _ _ _ h13r h10r hcr hov]
              obtain ⟨t, hT⟩ := foldLoop_prefix w rest ([32, 13] ++ [r]) false
              rw [hT]
              simp only [List.append_assoc, List.cons_append, List.nil_append]
              rw [unfoldSpec_append_no10 hno (Or.inr ⟨13, _, rfl, by norm_num⟩)]
              rw [unfoldSpec_crlf_cons, if_pos (by norm_num)]
              rw [unfoldSpec_cr_cons _ h10r]
              have hIH := ih ([32, 13] ++ [r]) false hs2 (by
                intro b hb
                simp at hb
                rcases hb with hb | hb | hb <;> omega)
              rw [hT] at hIH
              simp only [List.cons_append, List.nil_append,
                unfoldSpec_cons_other _ (by norm_num : (32:Nat) ≠ 13)
                  (by norm_num : (32:Nat) ≠ 10),
                unfoldSpec_cr_cons _ h10r] at hIH
              rw [List.cons.injEq] at hIH
              rw [List.cons.injEq] at hIH
              rw [hIH.2.2]
              simp [normalizeNewlines_cr_cons _ h10r, normalizeNewlines_cons_ne13 _ h13r]
          · by_cases hov : (byteLen (line ++ [13]) : Int) + (runeLen r : Int) > w - 2
            · rw [foldLoop_other_true_fits_over _ _ _ _ h13r h10r hcr hov]
              obtain ⟨t, hT⟩ := foldLoop_prefix w rest [32, r] false
              rw [hT]
              simp only [List.append_assoc, List.cons_append, List.nil_append]
              rw [unfoldSpec_append_no10 hno (Or.inr ⟨13, _, rfl, by norm_num⟩)]
              rw [unfoldSpec_cr_cons _ (by norm_num : (13:Nat) ≠ 10)]
              rw [unfoldSpec_crlf_cons, if_pos (by norm_num)]
              have hIH := ih [32, r] false hs2 (by
                intro b hb
                simp at hb
                rcases hb with hb | hb <;> omega)
              rw [hT] at hIH
              simp only [List.cons_append, List.nil_append,
                unfoldSpec_cons_other _ (by norm_num : (32:Nat) ≠ 13)
                  (by norm_num : (32:Nat) ≠ 10)] at hIH
              rw [List.cons.injEq] at hIH
              rw [hIH.2]
              simp [normalizeNewlines_cr_cons _ h10r, normalizeNewlines_cons_ne13 _ h13r]
            · rw [foldLoop_other_true_fits_fits _ _ _ _ h13r h10r hcr hov,
                ih (line ++ [13, r]) false hs2 (by
                  intro b hb
                  rcases List.mem_append.mp hb with hb | hb
                  · exact hno b hb
                  · simp at hb
                    rcases hb with hb | hb
                    · omega
                    · subst hb
                      exact h10r)]
              simp [normalizeNewlines_cr_cons _ h10r, normalizeNewlines_cons_ne13 _ h13r]

theorem unfoldSpec_append_hi {l bs : List Nat} (hl : ∀ b ∈ l, 128 ≤ b) :
    unfoldSpec (l ++ bs) = l ++ unfoldSpec bs := by
  induction l with
  | nil => simp
  | cons a l' ih =>
    have ha := hl a (by simp)
    rw [List.cons_append, unfoldSpec_cons_other _ (by omega) (by omega),
      ih (fun b hb => hl b (by simp [hb]))]
    rfl

theorem utf8EncodeChar_ne_nil (r : Nat) : utf8EncodeChar r ≠ [] := by
  rw [utf8EncodeChar]
  split
  · simp
  · split
    · simp
    · split <;> simp

theorem utf8Encode_cons_ne_nil (d : Nat) (t : List Nat) : utf8Encode (d :: t) ≠ [] := by
  rw [utf8Encode_cons]
  intro h
  simp at h
  exact utf8EncodeChar_ne_nil d h.1

theorem unfoldSpec_utf8Encode (t : List Nat) :
    unfoldSpec (utf8Encode t) = utf8Encode (unfoldSpec t) := by
  generalize hn : t.length = n
  induction n using Nat.strong_induction_on generalizing t with
  | _ n ih =>
    subst hn
    rcases t with _ | ⟨c, t'⟩
    · rfl
    by_cases hc : c < 128
    · by_cases hc13 : c = 13
      · subst hc13
        rw [utf8Encode_cons, utf8EncodeChar_small (by norm_num), List.cons_append,
          List.nil_append]
        rcases t' with _ | ⟨d, t''⟩
        · simp [utf8Encode_nil, unfoldSpec_nil]
          decide
        by_cases hd10 : d = 10
        · subst hd10
          rw [utf8Encode_cons, utf8EncodeChar_small (by norm_num), List.cons_append,
            List.nil_append]
          rcases t'' with _ | ⟨e, t3⟩
          · simp [utf8Encode_nil]
            decide
          by_cases he : e < 128
          · rw [utf8Encode_cons, utf8EncodeChar_small he, List.cons_append, List.nil_append]
            by_cases hws : e = 32 ∨ e = 9
            · rw [unfoldSpec_crlf_cons, if_pos hws,
                ih t3.length (by simp only [List.length_cons]; omega) t3 rfl,
                unfoldSpec_crlf_cons, if_pos hws]
            · rw [unfoldSpec_crlf_cons, if_neg hws]
              have hih := ih (e :: t3).length (by simp only [List.length_cons]; omega)
                (e :: t3) rfl
              rw [utf8Encode_cons, utf8EncodeChar_small he, List.cons_append,
                List.nil_append] at hih
              rw [hih, unfoldSpec_crlf_cons, if_neg hws, utf8Encode_cons,
                utf8EncodeChar_small (by norm_num)]
              rfl
          · obtain ⟨hd, tl, henc, hhd, htl⟩ := utf8EncodeChar_large (show 128 ≤ e by omega)
            rw [utf8Encode_cons, henc, List.cons_append]
            rw [unfoldSpec_crlf_cons, if_neg (show ¬(hd = 32 ∨ hd = 9) by omega)]
            have hih := ih (e :: t3).length (by simp only [List.length_cons]; omega)
              (e :: t3) rfl
            rw [utf8Encode_cons, henc, List.cons_append] at hih
            rw [hih, unfoldSpec_crlf_cons, if_neg (show ¬(e = 32 ∨ e = 9) by omega),
              utf8Encode_cons, utf8EncodeChar_small (by norm_num)]
            rfl
        · rcases hhead : utf8Encode (d :: t'') with _ | ⟨hd, tl⟩
          · exact absurd hhead (utf8Encode_cons_ne_nil d t'')
          have hhd10 : hd ≠ 10 := by
            by_cases h : d < 128
            · rw [utf8Encode_cons, utf8EncodeChar_small h, List.cons_append] at hhead
              simp at hhead
              omega
            · obtain ⟨a, b, he, ha, _⟩ := utf8EncodeChar_large (show 128 ≤ d by omega)
              rw [utf8Encode_cons, he, List.cons_append] at hhead
              simp at hhead
              omega
          rw [unfoldSpec_cr_cons _ hhd10, ← hhead,
            ih (d :: t'').length (by simp only [List.length_cons]; omega) (d :: t'') rfl,
            unfoldSpec_cr_cons _ hd10, utf8Encode_cons,
            utf8EncodeChar_small (by norm_num)]
          rfl
      · by_cases hc10 : c = 10
        · subst hc10
          rw [utf8Encode_cons, utf8EncodeChar_small (by norm_num), List.cons_append,
            List.nil_append]
          rcases t' with _ | ⟨d, t''⟩
          · simp [utf8Encode_nil]
            decide
          by_cases hdlt : d < 128
          · rw [utf8Encode_cons, utf8EncodeChar_small hdlt, List.cons_append,
              List.nil_append]
            by_cases hws : d = 32 ∨ d = 9
            · rw [unfoldSpec_lf_cons, if_pos hws,
                ih t''.length (by simp only [List.length_cons]; omega) t'' rfl,
                unfoldSpec_lf_cons, if_pos hws]
            · rw [unfoldSpec_lf_cons, if_neg hws]
              have hih := ih (d :: t'').length (by simp only [List.length_cons]; omega)
                (d :: t'') rfl
              rw [utf8Encode_cons, utf8EncodeChar_small hdlt, List.cons_append,
                List.nil_append] at hih
              rw [hih, unfoldSpec_lf_cons, if_neg hws, utf8Encode_cons,
                utf8EncodeChar_small (by norm_num)]
              rfl
          · obtain ⟨hd, tl, henc, hhd, htl⟩ := utf8EncodeChar_large (show 128 ≤ d by omega)
            rw [utf8Encode_cons, henc, List.cons_append]
            rw [unfoldSpec_lf_cons, if_neg (show ¬(hd = 32 ∨ hd = 9) by omega)]
            have hih := ih (d :: t'').length (by simp only [List.length_cons]; omega)
              (d :: t'') rfl
            rw [utf8Encode_cons, henc, List.cons_append] at hih
            rw [hih, unfoldSpec_lf_cons, if_neg (show ¬(d = 32 ∨ d = 9) by omega),
              utf8Encode_cons, utf8EncodeChar_small (by norm_num)]
            rfl
        · rw [utf8Encode_cons, utf8EncodeChar_small hc, List.cons_append, List.nil_append,
            unfoldSpec_cons_other _ hc13 hc10,
            ih t'.length (by simp only [List.length_cons]; omega) t' rfl,
            unfoldSpec_cons_other _ hc13 hc10, utf8Encode_cons, utf8EncodeChar_small hc]
          rfl
    · obtain ⟨hd, tl, henc, hhd, htl⟩ := utf8EncodeChar_large (show 128 ≤ c by omega)
      have hall : ∀ b ∈ utf8EncodeChar c, 128 ≤ b := by
        intro b hb
        rw [henc] at hb
        rcases List.mem_cons.mp hb with rfl | hb
        · exact hhd
        · exact htl b hb
      rw [utf8Encode_cons, unfoldSpec_append_hi hall,
        ih t'.length (by simp only [List.length_cons]; omega) t' rfl,
        unfoldSpec_cons_other _ (by omega) (by omega), utf8Encode_cons]

/-- Consuming a sequence of non-line-feed code points that fits in the width
budget only accumulates them into the line builder, emitting nothing. -/
theorem foldLoop_accum {w : Int} : ∀ (l acc : List Nat) (c : Bool),
    (∀ b ∈ l, b ≠ 10) → (∀ b ∈ acc, b ≠ 10) →
    (byteLen acc : Int) + (if c then 1 else 0) + (byteLen l : Int) ≤ w - 2 →
    foldLoop w l acc c = acc ++ (if c then [13] else []) ++ l := by
  intro l
  induction l with
  | nil =>
    intro acc c h10 hacc hlen
    cases c with
    | false => simp [foldLoop_nil_false]
    | true =>
      rw [foldLoop_nil_true, if_neg (by simp [byteLen_nil] at hlen ⊢; omega)]
      simp
  | cons r l' ih =>
    intro acc c h10 hacc hlen
    have hr10 : r ≠ 10 := h10 r (by simp)
    have hlen' : (byteLen acc : Int) + (if c then 1 else 0) + (runeLen r : Int)
        + (byteLen l' : Int) ≤ w - 2 := by
      rw [byteLen_cons] at hlen
      push_cast at hlen ⊢
      omega
    have hrpos := runeLen_pos r
    have h13len : runeLen 13 = 1 := rfl
    by_cases hr13 : r = 13
    · subst hr13
      cases c with
      | false =>
        rw [foldLoop_cr_false, ih acc true (fun b hb => h10 b (by simp [hb])) hacc
          (by simp at hlen' ⊢; omega)]
        simp
      | true =>
        rw [foldLoop_cr_true_fits _ _ _ (by simp at hlen' ⊢; omega),
          ih (acc ++ [13]) true (fun b hb => h10 b (by simp [hb]))
            (by
              intro b hb
              rcases List.mem_append.mp hb with hb | hb
              · exact hacc b hb
              · simp at hb
                omega)
            (by simp [byteLen_append, byteLen_cons, byteLen_nil] at hlen' ⊢; omega)]
        simp
    · cases c with
      | false =>
        rw [foldLoop_other_false_fits _ _ _ _ hr13 hr10 (by simp at hlen' ⊢; omega),
          ih (acc ++ [r]) false (fun b hb => h10 b (by simp [hb]))
            (by
              intro b hb
              rcases List.mem_append.mp hb with hb | hb
              · exact hacc b hb
              · simp at hb
                subst hb
                exact hr10)
            (by simp [byteLen_append, byteLen_cons, byteLen_nil] at hlen' ⊢; omega)]
        simp
      | true =>
        rw [foldLoop_other_true_fits_fits _ _ _ _ hr13 hr10
            (by simp at hlen' ⊢; omega)
            (by simp [byteLen_append, byteLen_cons, byteLen_nil] at hlen' ⊢; omega),
          ih (acc ++ [13, r]) false (fun b hb => h10 b (by simp [hb]))
            (by
              intro b hb
              rcases List.mem_append.mp hb with hb | hb
              · exact hacc b hb
              · simp at hb
                rcases hb with hb | hb
                · omega
                · subst hb
                  exact hr10)
            (by simp [byteLen_append, byteLen_cons, byteLen_nil] at hlen' ⊢; omega)]
        simp

/-- Re-folding a line that fits in the width budget followed by a terminator
reproduces the line and terminator and continues on the remaining stream. -/
theorem foldLoop_refold_line {w : Int} : ∀ (l out acc : List Nat) (c : Bool),
    (∀ b ∈ l, b ≠ 10) → (∀ b ∈ acc, b ≠ 10) →
    (byteLen acc : Int) + (if c then 1 else 0) + (byteLen l : Int) ≤ w - 2 →
    foldLoop w (l ++ 13 :: 10 :: out) acc c =
      acc ++ (if c then [13] else []) ++ l ++ 13 :: 10 :: foldLoop w out [] false := by
  intro l
  induction l with
  | nil =>
    intro out acc c h10 hacc hlen
    cases c with
    | false =>
      rw [List.nil_append, foldLoop_cr_false, foldLoop_lf]
      simp
    | true =>
      rw [List.nil_append, foldLoop_cr_true_fits _ _ _
          (by simp [byteLen_nil] at hlen ⊢; omega), foldLoop_lf]
      simp
  | cons r l' ih =>
    intro out acc c h10 hacc hlen
    have hr10 : r ≠ 10 := h10 r (by simp)
    have hlen' : (byteLen acc : Int) + (if c then 1 else 0) + (runeLen r : Int)
        + (byteLen l' : Int) ≤ w - 2 := by
      rw [byteLen_cons] at hlen
      push_cast at hlen ⊢
      omega
    have hrpos := runeLen_pos r
    have h13len : runeLen 13 = 1 := rfl
    by_cases hr13 : r = 13
    · subst hr13
      cases c with
      | false =>
        rw [List.cons_append, foldLoop_cr_false, ih out acc true
          (fun b hb => h10 b (by simp [hb])) hacc (by simp at hlen' ⊢; omega)]
        simp
      | true =>
        rw [List.cons_append, foldLoop_cr_true_fits _ _ _ (by simp at hlen' ⊢; omega),
          ih out (acc ++ [13]) true (fun b hb => h10 b (by simp [hb]))
            (by
              intro b hb
              rcases List.mem_append.mp hb with hb | hb
              · exact hacc b hb
              · simp at hb
                omega)
            (by simp [byteLen_append, byteLen_cons, byteLen_nil] at hlen' ⊢; omega)]
        simp
    · cases c with
      | false =>
        rw [List.cons_append,
          foldLoop_other_false_fits _ _ _ _ hr13 hr10 (by simp at hlen' ⊢; omega),
          ih out (acc ++ [r]) false (fun b hb => h10 b (by simp [hb]))
            (by
              intro b hb
              rcases List.mem_append.mp hb with hb | hb
              · exact hacc b hb
              · simp at hb
                subst hb
                exact hr10)
            (by simp [byteLen_append, byteLen_cons, byteLen_nil] at hlen' ⊢; omega)]
        simp
      | true =>
        rw [List.cons_append,
          foldLoop_other_true_fits_fits _ _ _ _ hr13 hr10
            (by simp at hlen' ⊢; omega)
            (by simp [byteLen_append, byteLen_cons, byteLen_nil] at hlen' ⊢; omega),
          ih out (acc ++ [13, r]) false (fun b hb => h10 b (by simp [hb]))
            (by
              intro b hb
              rcases List.mem_append.mp hb with hb | hb
              · exact hacc b hb
              · simp at hb
                rcases hb with hb | hb
                · omega
                · subst hb
                  exact hr10)
            (by simp [byteLen_append, byteLen_cons, byteLen_nil] at hlen' ⊢; omega)]
        simp

/-- Re-folding the output of the fold loop reproduces it unchanged, provided
the pending line fits in the width budget. -/
theorem fold_refold {w : Int} (hw : 7 ≤ w) : ∀ (s line : List Nat) (c : Bool),
    (∀ b ∈ line, b ≠ 10) → (byteLen line : Int) ≤ w - 2 →
    foldLoop w (foldLoop w s line c) [] false = foldLoop w s line c := by
  intro s
  induction s with
  | nil =>
    intro line c hno hlen
    cases c with
    | false =>
      rw [foldLoop_nil_false]
      simpa using foldLoop_accum line [] false hno (by simp) (by simp [byteLen_nil]; omega)
    | true =>
      rw [foldLoop_nil_true]
      by_cases hcr : (byteLen line : Int) + 1 > w - 2
      · rw [if_pos hcr]
        have := foldLoop_refold_line (w := w) line [32, 13] [] false hno (by simp)
          (by simp [byteLen_nil]; omega)
        simp at this
        have h2 : foldLoop w [32, 13] [] false = [32, 13] := by
          simpa using foldLoop_accum [32, 13] [] false (by norm_num) (by simp)
            (by simp [byteLen_nil, byteLen_cons, show runeLen 32 = 1 from rfl, show runeLen 13 = 1 from rfl]; omega)
        rw [show line ++ [13, 10, 32, 13] = line ++ 13 :: 10 :: [32, 13] by simp] at *
        rw [this, h2]
      · rw [if_neg hcr]
        simpa using foldLoop_accum (line ++ [13]) [] false
          (by
            intro b hb
            rcases List.mem_append.mp hb with hb | hb
            · exact hno b hb
            · simp at hb
              omega)
          (by simp)
          (by simp [byteLen_append, byteLen_cons, byteLen_nil, show runeLen 13 = 1 from rfl]; omega)
  | cons r rest ih =>
    intro line c hno hlen
    by_cases hr10 : r = 10
    · subst hr10
      rw [foldLoop_lf]
      have hrl := foldLoop_refold_line (w := w) line (foldLoop w rest [] false) [] false hno
        (by simp) (by simp [byteLen_nil]; omega)
      simp at hrl
      rw [show line ++ [13, 10] ++ foldLoop w rest [] false
          = line ++ 13 :: 10 :: foldLoop w rest [] false by simp, hrl,
        ih [] false (by simp) (by simp [byteLen_nil]; omega)]
    by_cases hr13 : r = 13
    · subst hr13
      cases c with
      | false =>
        rw [foldLoop_cr_false]
        exact ih line true hno hlen
      | true =>
        by_cases hcr : (byteLen line : Int) + 1 > w - 2
        · rw [foldLoop_cr_true_over _ _ _ hcr]
          have hrl := foldLoop_refold_line (w := w) line (foldLoop w rest [32, 13] true)
            [] false hno (by simp) (by simp [byteLen_nil]; omega)
          simp at hrl
          rw [show line ++ [13, 10] ++ foldLoop w rest [32, 13] true
              = line ++ 13 :: 10 :: foldLoop w rest [32, 13] true by simp, hrl,
            ih [32, 13] true (by norm_num)
              (by simp [byteLen_cons, byteLen_nil, show runeLen 32 = 1 from rfl, show runeLen 13 = 1 from rfl]; omega)]
        · rw [foldLoop_cr_true_fits _ _ _ hcr]
          exact ih (line ++ [13]) true
            (by
              intro b hb
              rcases List.mem_append.mp hb with hb | hb
              · exact hno b hb
              · simp at hb
                omega)
            (by simp [byteLen_append, byteLen_cons, byteLen_nil,
                show runeLen 13 = 1 from rfl]; omega)
    · have hrlen4 := runeLen_le_four r
      have hrpos := runeLen_pos r
      cases c with
      | false =>
        by_cases hov : (byteLen line : Int) + (runeLen r : Int) > w - 2
        · rw [foldLoop_other_false_over _ _ _ _ hr13 hr10 hov]
          have hrl := foldLoop_refold_line (w := w) line (foldLoop w rest [32, r] false)
            [] false hno (by simp) (by simp [byteLen_nil]; omega)
          simp at hrl
          rw [show line ++ [13, 10] ++ foldLoop w rest [32, r] false
              = line ++ 13 :: 10 :: foldLoop w rest [32, r] false by simp, hrl,
            ih [32, r] false
              (by
                intro b hb
                simp at hb
                rcases hb with hb | hb
                · omega
                · subst hb
                  exact hr10)
              (by simp [byteLen_cons, byteLen_nil, show runeLen 32 = 1 from rfl]; omega)]
        · rw [foldLoop_other_false_fits _ _ _ _ hr13 hr10 hov]
          exact ih (line ++ [r]) false
            (by
              intro b hb
              rcases List.mem_append.mp hb with hb | hb
              · exact hno b hb
              · simp at hb
                subst hb
                exact hr10)
            (by simp [byteLen_append, byteLen_cons, byteLen_nil]; omega)
      | true =>
        by_cases hcr : (byteLen line : Int) + 1 > w - 2
        · by_cases hov : (byteLen ([32, 13] : List Nat) : Int) + (runeLen r : Int) > w - 2
          · rw [foldLoop_other_true_over_over _ _ _ _ hr13 hr10 hcr hov]
            have hrl := foldLoop_refold_line (w := w) line
              ([32, 13] ++ [13, 10] ++ foldLoop w rest [32, r] false) [] false hno
              (by simp) (by simp [byteLen_nil]; omega)
            simp at hrl
            have hrl2 := foldLoop_refold_line (w := w) [32, 13]
              (foldLoop w rest [32, r] false) [] false (by norm_num) (by simp)
              (by simp [byteLen_cons, byteLen_nil, show runeLen 32 = 1 from rfl, show runeLen 13 = 1 from rfl]; omega)
            simp at hrl2
            simp only [List.append_assoc, List.cons_append, List.nil_append]
            rw [hrl, hrl2,
              ih [32, r] false
                (by
                  intro b hb
                  simp at hb
                  rcases hb with hb | hb
                  · omega
                  · subst hb
                    exact hr10)
                (by simp [byteLen_cons, byteLen_nil, show runeLen 32 = 1 from rfl]; omega)]
          · rw [foldLoop_other_true_over_fits _ _ _ _ hr13 hr10 hcr hov]
            have hrl := foldLoop_refold_line (w := w) line
              (foldLoop w rest ([32, 13] ++ [r]) false) [] false hno
              (by simp) (by simp [byteLen_nil]; omega)
            simp at hrl
            simp only [List.append_assoc, List.cons_append, List.nil_append] at hrl ⊢
            rw [hrl,
              ih [32, 13, r] false
                (by
                  intro b hb
                  simp at hb
                  rcases hb with hb | hb | hb
                  · omega
                  · omega
                  · subst hb
                    exact hr10)
                (by
                  simp only [byteLen_cons, byteLen_nil, byteLen_append,
                    show runeLen 32 = 1 from rfl, show runeLen 13 = 1 from rfl] at hov ⊢
                  push_cast at hov ⊢
                  omega)]
        · by_cases hov : (byteLen (line ++ [13]) : Int) + (runeLen r : Int) > w - 2
          · rw [foldLoop_other_true_fits_over _ _ _ _ hr13 hr10 hcr hov]
            have hrl := foldLoop_refold_line (w := w) (line ++ [13])
              (foldLoop w rest [32, r] false) [] false
              (by
                intro b hb
                rcases List.mem_append.mp hb with hb | hb
                · exact hno b hb
                · simp at hb
                  omega)
              (by simp)
              (by simp [byteLen_nil, byteLen_append, byteLen_cons,
                  show runeLen 13 = 1 from rfl]; omega)
            simp at hrl
            simp only [List.append_assoc, List.cons_append, List.nil_append] at hrl ⊢
            rw [hrl,
              ih [32, r] false
                (by
                  intro b hb
                  simp at hb
                  rcases hb with hb | hb
                  · omega
                  · subst hb
                    exact hr10)
                (by simp [byteLen_cons, byteLen_nil, show runeLen 32 = 1 from rfl]; omega)]
          · rw [foldLoop_other_true_fits_fits _ _ _ _ hr13 hr10 hcr hov]
            exact ih (line ++ [13, r]) false
              (by
                intro b hb
                rcases List.mem_append.mp hb with hb | hb
                · exact hno b hb
                · simp at hb
                  rcases hb with hb | hb
                  · omega
                  · subst hb
                    exact hr10)
              (by
                simp only [byteLen_append, byteLen_cons, byteLen_nil,
                  show runeLen 13 = 1 from rfl] at hov ⊢
                push_cast at hov ⊢
                omega)

/-- C2: for every string (sequence of code points) in which no logical line
begins with a space or horizontal tab and every fold width of at least 7,
reading the folded, UTF-8 encoded string back through an UnfoldingReader
reproduces the string byte for byte, with line terminators normalized to a
single line feed. -/
theorem c2_fold_unfold_roundtrip (s : List Nat) (w : Int) (hw : 7 ≤ w)
    (hs : noWSAfterLF s = true) :
    UnfoldingReader.readAll (NewUnfoldingReader (utf8Encode (Fold s w))) =
      utf8Encode (normalizeNewlines s) := by
  rw [UnfoldingReader.readAll_eq_unfoldSpec,
    show (NewUnfoldingReader (utf8Encode (Fold s w))).pending = utf8Encode (Fold s w) from by
      simp [NewUnfoldingReader, UnfoldingReader.pending],
    unfoldSpec_utf8Encode, Fold, unfoldSpec_foldLoop hw s [] false hs (by simp)]
  simp

theorem c2_fold_unfold_roundtrip_witness :
    (7 : Int) ≤ 10 ∧ noWSAfterLF [104, 105, 10, 121, 111] = true ∧
      UnfoldingReader.readAll
          (NewUnfoldingReader (utf8Encode (Fold [104, 105, 10, 121, 111] 10))) =
        utf8Encode (normalizeNewlines [104, 105, 10, 121, 111]) :=
  ⟨by norm_num, by decide, c2_fold_unfold_roundtrip _ _ (by norm_num) (by decide)⟩

/-- C8 counterexample: folding is not idempotent at every width; at width 3
the string "ab" folds to "a"+CRLF+" b", and folding that output again splits
it further, so the claim fails as stated. -/
theorem c8_idempotence_counterexample :
    ¬ Fold (Fold [97, 98] 3) 3 = Fold [97, 98] 3 := by decide

/-- C8 amended: folding is idempotent at any width of at least 7: folding
already-folded text at the same width reproduces the same output. -/
theorem c8_fold_idempotent_amended (s : List Nat) (w : Int) (hw : 7 ≤ w) :
    Fold (Fold s w) w = Fold s w :=
  fold_refold hw s [] false (by simp) (by simp [byteLen_nil]; omega)

theorem c8_fold_idempotent_amended_witness :
    (7 : Int) ≤ 10 ∧ Fold (Fold [97, 98] 10) 10 = Fold [97, 98] 10 :=
  ⟨by norm_num, c8_fold_idempotent_amended [97, 98] 10 (by norm_num)⟩

/-- Split a byte stream at each carriage-return+line-feed terminator,
yielding the physical lines with terminators removed. -/
def splitCRLF : List Nat → List (List Nat)
  | 13 :: 10 :: t => [] :: splitCRLF t
  | b :: t =>
    match splitCRLF t with
    | h :: r => (b :: h) :: r
    | [] => [[b]]
  | [] => [[]]

theorem splitCRLF_nil : splitCRLF [] = [[]] := rfl

theorem splitCRLF_crlf (t : List Nat) : splitCRLF (13 :: 10 :: t) = [] :: splitCRLF t := rfl

theorem splitCRLF_cons {a : Nat} {t : List Nat}
    (h : ¬(a = 13 ∧ ∃ t', t = 10 :: t')) :
    splitCRLF (a :: t) =
      match splitCRLF t with
      | h :: r => (a :: h) :: r
      | [] => [[a]] := by
  rw [splitCRLF.eq_def]
  split
  · rename_i heq
    simp at heq
    exact absurd ⟨heq.1, ⟨_, heq.2⟩⟩ h
  · rename_i b' t' heq
    simp at heq
    rw [heq.1, heq.2]
  · rename_i heq
    simp at heq

theorem splitCRLF_ne_nil (l : List Nat) : splitCRLF l ≠ [] := by
  induction l with
  | nil => simp [splitCRLF_nil]
  | cons a t ih =>
    by_cases h : a = 13 ∧ ∃ t', t = 10 :: t'
    · obtain ⟨rfl, t', rfl⟩ := h
      simp [splitCRLF_crlf]
    · rw [splitCRLF_cons h]
      rcases hs : splitCRLF t with _ | ⟨x, xs⟩
      · simp
      · simp

theorem splitCRLF_no10 {l : List Nat} (h : ∀ b ∈ l, b ≠ 10) : splitCRLF l = [l] := by
  induction l with
  | nil => rfl
  | cons a t ih =>
    have : ¬(a = 13 ∧ ∃ t', t = 10 :: t') := by
      rintro ⟨rfl, t', rfl⟩
      exact h 10 (by simp) rfl
    rw [splitCRLF_cons this, ih (fun b hb => h b (by simp [hb]))]

theorem splitCRLF_append {l bs : List Nat} (h : ∀ b ∈ l, b ≠ 10) :
    splitCRLF (l ++ 13 :: 10 :: bs) = l :: splitCRLF bs := by
  induction l with
  | nil => simp [splitCRLF_crlf]
  | cons a t ih =>
    have hnot : ¬(a = 13 ∧ ∃ t', t ++ 13 :: 10 :: bs = 10 :: t') := by
      rintro ⟨rfl, t', ht'⟩
      rcases t with _ | ⟨x, xs⟩
      · simp at ht'
      · simp at ht'
        exact h x (by simp [ht'.1]) ht'.1
    rw [List.cons_append, splitCRLF_cons hnot, ih (fun b hb => h b (by simp [hb]))]

theorem splitCRLF_prepend {l bs : List Nat} (h : ∀ b ∈ l, b ≠ 13 ∧ b ≠ 10) :
    splitCRLF (l ++ bs) =
      match splitCRLF bs with
      | hd :: r => (l ++ hd) :: r
      | [] => [l] := by
  induction l with
  | nil =>
    rcases hs : splitCRLF bs with _ | ⟨x, xs⟩
    · exact absurd hs (splitCRLF_ne_nil bs)
    · simp [hs]
  | cons a t ih =>
    have ha := h a (by simp)
    have hnot : ¬(a = 13 ∧ ∃ t', t ++ bs = 10 :: t') := by
      rintro ⟨rfl, _⟩
      exact ha.1 rfl
    rw [List.cons_append, splitCRLF_cons hnot, ih (fun b hb => h b (by simp [hb]))]
    rcases hs : splitCRLF bs with _ | ⟨x, xs⟩
    · exact absurd hs (splitCRLF_ne_nil bs)
    · simp [hs]

theorem splitCRLF_utf8Encode (t : List Nat) :
    splitCRLF (utf8Encode t) = (splitCRLF t).map utf8Encode := by
  generalize hn : t.length = n
  induction n using Nat.strong_induction_on generalizing t with
  | _ n ih =>
    subst hn
    rcases t with _ | ⟨c, t'⟩
    · simp [utf8Encode_nil, splitCRLF_nil]
    by_cases hcrlf : c = 13 ∧ ∃ t'', t' = 10 :: t''
    · obtain ⟨rfl, t'', rfl⟩ := hcrlf
      rw [utf8Encode_cons, utf8Encode_cons, utf8EncodeChar_small (by norm_num),
        utf8EncodeChar_small (by norm_num)]
      simp only [List.cons_append, List.nil_append]
      rw [splitCRLF_crlf, splitCRLF_crlf,
        ih t''.length (by simp only [List.length_cons]; omega) t'' rfl]
      simp [utf8Encode_nil]
    · rcases hsp : splitCRLF t' with _ | ⟨h', r'⟩
      · exact absurd hsp (splitCRLF_ne_nil t')
      have hih : splitCRLF (utf8Encode t') = utf8Encode h' :: r'.map utf8Encode := by
        rw [ih t'.length (by simp only [List.length_cons]; omega) t' rfl, hsp]
        simp
      by_cases hc : c < 128
      · have hbyte : ¬(c = 13 ∧ ∃ u, utf8Encode t' = 10 :: u) := by
          rintro ⟨rfl, u, hu⟩
          apply hcrlf
          refine ⟨rfl, ?_⟩
          rcases t' with _ | ⟨d, t''⟩
          · simp [utf8Encode_nil] at hu
          by_cases hd : d < 128
          · rw [utf8Encode_cons, utf8EncodeChar_small hd, List.cons_append] at hu
            simp at hu
            exact ⟨t'', by rw [hu.1]⟩
          · obtain ⟨a, b, he, ha, _⟩ := utf8EncodeChar_large (show 128 ≤ d by omega)
            rw [utf8Encode_cons, he, List.cons_append] at hu
            simp at hu
            omega
        rw [utf8Encode_cons, utf8EncodeChar_small hc]
        simp only [List.cons_append, List.nil_append]
        rw [splitCRLF_cons hbyte, hih, splitCRLF_cons hcrlf, hsp]
        simp [utf8Encode_cons, utf8EncodeChar_small hc]
      · have hall : ∀ b ∈ utf8EncodeChar c, b ≠ 13 ∧ b ≠ 10 := by
          obtain ⟨hd, tl, henc, hhd, htl⟩ := utf8EncodeChar_large (show 128 ≤ c by omega)
          intro b hb
          rw [henc] at hb
          rcases List.mem_cons.mp hb with rfl | hb
          · omega
          · have := htl b hb
            omega
        rw [utf8Encode_cons, splitCRLF_prepend hall, hih,
          splitCRLF_cons (by
            rintro ⟨rfl, _⟩
            omega), hsp]
        simp [utf8Encode_cons]

theorem foldLoop_lines {w : Int} (hw : 7 ≤ w) :
    ∀ (s line : List Nat) (c : Bool), (∀ b ∈ line, b ≠ 10) →
      (byteLen line : Int) ≤ w - 2 →
      ∀ seg ∈ splitCRLF (foldLoop w s line c), (byteLen seg : Int) ≤ w - 2 := by
  have h32 : runeLen 32 = 1 := rfl
  have h13 : runeLen 13 = 1 := rfl
  intro s
  induction s with
  | nil =>
    intro line c hno hlen seg hseg
    cases c with
    | false =>
      rw [foldLoop_nil_false, splitCRLF_no10 hno] at hseg
      simp at hseg
      subst hseg
      exact hlen
    | true =>
      rw [foldLoop_nil_true] at hseg
      by_cases hcr : (byteLen line : Int) + 1 > w - 2
      · rw [if_pos hcr,
          show line ++ [13, 10, 32, 13] = line ++ 13 :: 10 :: [32, 13] from by simp,
          splitCRLF_append hno, splitCRLF_no10 (by norm_num)] at hseg
        simp at hseg
        rcases hseg with rfl | rfl
        · exact hlen
        · simp [byteLen_cons, byteLen_nil, h32, h13]
          omega
      · rw [if_neg hcr, splitCRLF_no10 (by
            intro b hb
            rcases List.mem_append.mp hb with hb | hb
            · exact hno b hb
            · simp at hb
              omega)] at hseg
        simp at hseg
        subst hseg
        simp [byteLen_append, byteLen_cons, byteLen_nil, h13] at hcr ⊢
        push_cast at hcr ⊢
        omega
  | cons r rest ih =>
    intro line c hno hlen seg hseg
    by_cases hr10 : r = 10
    · subst hr10
      rw [foldLoop_lf, List.append_assoc] at hseg
      rw [show ([13, 10] : List Nat) ++ foldLoop w rest [] false
          = 13 :: 10 :: foldLoop w rest [] false from by simp, splitCRLF_append hno] at hseg
      simp at hseg
      rcases hseg with rfl | hseg
      · exact hlen
      · exact ih [] false (by simp) (by simp [byteLen_nil]; omega) seg hseg
    by_cases hr13 : r = 13
    · subst hr13
      cases c with
      | false =>
        rw [foldLoop_cr_false] at hseg
        exact ih line true hno hlen seg hseg
      | true =>
        by_cases hcr : (byteLen line : Int) + 1 > w - 2
        · rw [foldLoop_cr_true_over _ _ _ hcr, List.append_assoc,
            show ([13, 10] : List Nat) ++ foldLoop w rest [32, 13] true
              = 13 :: 10 :: foldLoop w rest [32, 13] true from by simp,
            splitCRLF_append hno] at hseg
          simp at hseg
          rcases hseg with rfl | hseg
          · exact hlen
          · exact ih [32, 13] true (by norm_num)
              (by simp [byteLen_cons, byteLen_nil, h32, h13]; omega) seg hseg
        · rw [foldLoop_cr_true_fits _ _ _ hcr] at hseg
          exact ih (line ++ [13]) true
            (by
              intro b hb
              rcases List.mem_append.mp hb with hb | hb
              · exact hno b hb
              · simp at hb
                omega)
            (by
              simp [byteLen_append, byteLen_cons, byteLen_nil, h13] at hcr ⊢
              push_cast at hcr ⊢
              omega)
            seg hseg
    · have hr4 := runeLen_le_four r
      have hr1 := runeLen_pos r
      cases c with
      | false =>
        by_cases hov : (byteLen line : Int) + (runeLen r : Int) > w - 2
        · rw [foldLoop_other_false_over _ _ _ _ hr13 hr10 hov, List.append_assoc,
            show ([13, 10] : List Nat) ++ foldLoop w rest [32, r] false
              = 13 :: 10 :: foldLoop w rest [32, r] false from by simp,
            splitCRLF_append hno] at hseg
          simp at hseg
          rcases hseg with rfl | hseg
          · exact hlen
          · exact ih [32, r] false
              (by
                intro b hb
                simp at hb
                rcases hb with hb | hb
                · omega
                · subst hb
                  exact hr10)
              (by simp [byteLen_cons, byteLen_nil, h32]; omega) seg hseg
        · rw [foldLoop_other_false_fits _ _ _ _ hr13 hr10 hov] at hseg
          exact ih (line ++ [r]) false
            (by
              intro b hb
              rcases List.mem_append.mp hb with hb | hb
              · exact hno b hb
              · simp at hb
                subst hb
                exact hr10)
            (by
              simp [byteLen_append, byteLen_cons, byteLen_nil] at hov ⊢
              push_cast at hov ⊢
              omega)
            seg hseg
      | true =>
        by_cases hcr : (byteLen line : Int) + 1 > w - 2
        · by_cases hov : (byteLen ([32, 13] : List Nat) : Int) + (runeLen r : Int) > w - 2
          · rw [foldLoop_other_true_over_over _ _ _ _ hr13 hr10 hcr hov] at hseg
            rw [show line ++ [13, 10] ++ [32, 13] ++ [13, 10] ++ foldLoop w rest [32, r] false
                = line ++ 13 :: 10 :: ([32, 13] ++ 13 :: 10 :: foldLoop w rest [32, r] false)
                from by simp, splitCRLF_append hno, splitCRLF_append (by norm_num)] at hseg
            simp at hseg
            rcases hseg with rfl | hseg
            · exact hlen
            rcases hseg with rfl | hseg
            · simp [byteLen_cons, byteLen_nil, h32, h13]
              omega
            · exact ih [32, r] false
                (by
                  intro b hb
                  simp at hb
                  rcases hb with hb | hb
                  · omega
                  · subst hb
                    exact hr10)
                (by simp [byteLen_cons, byteLen_nil, h32]; omega) seg hseg
          · rw [foldLoop_other_true_over_fits _ _ _ _ hr13 hr10 hcr hov] at hseg
            rw [show line ++ [13, 10] ++ foldLoop w rest ([32, 13] ++ [r]) false
                = line ++ 13 :: 10 :: foldLoop w rest ([32, 13] ++ [r]) false
                from by simp, splitCRLF_append hno] at hseg
            simp at hseg
            rcases hseg with rfl | hseg
            · exact hlen
            · exact ih ([32, 13] ++ [r]) false
                (by
                  intro b hb
                  simp at hb
                  rcases hb with hb | hb | hb
                  · omega
                  · omega
                  · subst hb
                    exact hr10)
                (by
                  simp [byteLen_append, byteLen_cons, byteLen_nil, h32, h13] at hov ⊢
                  push_cast at hov ⊢
                  omega)
                seg hseg
        · by_cases hov : (byteLen (line ++ [13]) : Int) + (runeLen r : Int) > w - 2
          · rw [foldLoop_other_true_fits_over _ _ _ _ hr13 hr10 hcr hov] at hseg
            rw [show line ++ [13] ++ [13, 10] ++ foldLoop w rest [32, r] false
                = (line ++ [13]) ++ 13 :: 10 :: foldLoop w rest [32, r] false
                from by simp,
              splitCRLF_append (by
                intro b hb
                rcases List.mem_append.mp hb with hb | hb
                · exact hno b hb
                · simp at hb
                  omega)] at hseg
            simp at hseg
            rcases hseg with rfl | hseg
            · simp [byteLen_append, byteLen_cons, byteLen_nil, h13] at hcr ⊢
              push_cast at hcr ⊢
              omega
            · exact ih [32, r] false
                (by
                  intro b hb
                  simp at hb
                  rcases hb with hb | hb
                  · omega
                  · subst hb
                    exact hr10)
                (by simp [byteLen_cons, byteLen_nil, h32]; omega) seg hseg
          · rw [foldLoop_other_true_fits_fits _ _ _ _ hr13 hr10 hcr hov] at hseg
            exact ih (line ++ [13, r]) false
              (by
                intro b hb
                rcases List.mem_append.mp hb with hb | hb
                · exact hno b hb
                · simp at hb
                  rcases hb with hb | hb
                  · omega
                  · subst hb
                    exact hr10)
              (by
                simp [byteLen_append, byteLen_cons, byteLen_nil, h13] at hov ⊢
                push_cast at hov ⊢
                omega)
              seg hseg

/-- Go fmt %c of a rune value: the code point itself when it is a valid
Unicode scalar value, otherwise the replacement character U+FFFD (as %c
renders rune(-1) and other invalid runes). -/
def fmtChar (r : Int) : List Nat :=
  if (0 ≤ r ∧ r < 55296) ∨ (57344 ≤ r ∧ r ≤ 1114111) then [r.toNat] else [65533]

/-- The loop of writeValue, translated from the Go function: last is the
previously ranged code point, initially rune(-1); on each step the previous
code point is emitted, escaped unless it is a backslash immediately followed
by a semicolon; after the loop the final code point is emitted the same way. -/
def writeValueGo : Int → List Nat → List Nat
  | last, [] =>
    if last = 92 then [92, 92]
    else if last = 44 then [92, 44]
    else if last = 10 then [92, 110]
    else fmtChar last
  | last, r :: rest =>
    (if last = -1 then []
     else if last = 92 ∧ (r : Int) ≠ 59 then [92, 92]
     else if last = 44 then [92, 44]
     else if last = 10 then [92, 110]
     else fmtChar last) ++ writeValueGo (r : Int) rest

/-- writeValue, translated from the Go function: escape a property value,
starting with last = rune(-1). -/
def writeValue (value : List Nat) : List Nat := writeValueGo (-1) value

/-- writeValues, translated from the Go function: the escaped values joined
by commas. -/
def writeValues (values : List (List Nat)) : List Nat :=
  match values with
  | [] => []
  | v :: rest => writeValue v ++ rest.flatMap (fun u => [44] ++ writeValue u)

/-- One parameter value as rendered by writeParam: double-quoted when it
contains a semicolon or colon. -/
def writeParamValue (v : List Nat) : List Nat :=
  if v.contains 59 ∨ v.contains 58 then [34] ++ v ++ [34] else v

/-- writeParam, translated from the Go function: the key, an equals sign and
the comma-joined parameter values. -/
def writeParam (key : List Nat) (values : List (List Nat)) : List Nat :=
  key ++ [61] ++
    (match values with
     | [] => []
     | v :: rest => writeParamValue v ++ rest.flatMap (fun u => [44] ++ writeParamValue u))

/-- Property, translated from the Go struct; the parameter map is modelled
as an association list (Go map iteration order is unspecified; the model
fixes insertion order). -/
structure Property where
  group : List Nat
  params : List (List Nat × List (List Nat))
  values : List (List Nat)
deriving DecidableEq

/-- Card, translated from the Go struct: property name to the occurrences of
that property, the Go map again modelled as an association list. -/
structure Card where
  m : List (List Nat × List Property)
deriving DecidableEq

/-- Lookup in the association list modelling a Go map (missing key yields
the empty slice, as the Go map read does). -/
def assocGet (m : List (List Nat × List Property)) (name : List Nat) : List Property :=
  match m with
  | [] => []
  | kv :: rest => if kv.1 = name then kv.2 else assocGet rest name

/-- The property name VERSION. -/
def strVERSION : List Nat := [86, 69, 82, 83, 73, 79, 78]

/-- One serialized property line of UnfoldedString: group prefix with a dot
when the group length exceeds one (as the Go code literally tests), name,
parameters each preceded by a semicolon, colon, comma-joined escaped values
and a newline. -/
def propLine (name : List Nat) (p : Property) : List Nat :=
  (if p.group.length > 1 then p.group ++ [46] else []) ++ name ++
    p.params.flatMap (fun kv => [59] ++ writeParam kv.1 kv.2) ++ [58] ++
    writeValues p.values ++ [10]

/-- UnfoldedString, translated from the Go method: BEGIN line, the VERSION
property first when present, every other property line, END line. -/
def UnfoldedString (c : Card) : List Nat :=
  [66, 69, 71, 73, 78, 58, 86, 67, 65, 82, 68, 10] ++
    (match assocGet c.m strVERSION with
     | [] => []
     | v0 :: _ => strVERSION ++ [58] ++ writeValues v0.values ++ [10]) ++
    c.m.flatMap (fun kv =>
      if kv.1 = strVERSION then [] else kv.2.flatMap (fun p => propLine kv.1 p)) ++
    [69, 78, 68, 58, 86, 67, 65, 82, 68, 10]

/-- Card.String, translated from the Go method: the unfolded text folded at
width 77. -/
def CardString (c : Card) : List Nat := Fold (UnfoldedString c) 77

/-- C6 (documenting a code bug): serialization emits the group prefix only
when the group name is longer than one character, because the Go code tests
len(prop.group) > 1 instead of non-emptiness: a property with the non-empty
group "A" is serialized without any group prefix, while group "AB" gets its
prefix; the claim (and the spec, "group prefix ... if the group name is
present") requires the prefix for every non-empty group. -/
theorem c6_single_char_group_dropped :
    propLine [80, 82, 79, 80] ⟨[65], [], [[118]]⟩ = [80, 82, 79, 80, 58, 118, 10] ∧
    propLine [80, 82, 79, 80] ⟨[65, 66], [], [[118]]⟩ =
      [65, 66, 46, 80, 82, 79, 80, 58, 118, 10] ∧
    UnfoldedString ⟨[([80, 82, 79, 80], [⟨[65], [], [[118]]⟩])]⟩ =
      [66, 69, 71, 73, 78, 58, 86, 67, 65, 82, 68, 10] ++
        [80, 82, 79, 80, 58, 118, 10] ++ [69, 78, 68, 58, 86, 67, 65, 82, 68, 10] := by
  refine ⟨by decide, by decide, by decide⟩

/-- C7: at any width of at least 7, every physical line of the folded
output (every maximal run between carriage-return+line-feed terminators)
is at most width minus 2 bytes long and is the encoding of a whole sequence
of code points, so no multi-byte character is split; in particular
Card.String folds at width 77, so its content lines are at most 75 bytes. -/
theorem c7_fold_width (s : List Nat) (w : Int) (hw : 7 ≤ w) :
    (∀ seg ∈ splitCRLF (utf8Encode (Fold s w)),
        (seg.length : Int) ≤ w - 2 ∧ ∃ rs, seg = utf8Encode rs) ∧
    ∀ card : Card, ∀ seg ∈ splitCRLF (utf8Encode (CardString card)),
        seg.length ≤ 75 ∧ ∃ rs, seg = utf8Encode rs := by
  constructor
  · intro seg hseg
    rw [splitCRLF_utf8Encode] at hseg
    obtain ⟨rs, hrs, rfl⟩ := List.mem_map.mp hseg
    refine ⟨?_, rs, rfl⟩
    have h := foldLoop_lines hw s [] false (by simp) (by simp [byteLen_nil]; omega) rs hrs
    simpa [byteLen] using h
  · intro card seg hseg
    rw [CardString] at hseg
    rw [splitCRLF_utf8Encode] at hseg
    obtain ⟨rs, hrs, rfl⟩ := List.mem_map.mp hseg
    refine ⟨?_, rs, rfl⟩
    have h := foldLoop_lines (by norm_num : (7 : Int) ≤ 77) (UnfoldedString card) [] false
      (by simp) (by simp [byteLen_nil]) rs hrs
    rw [byteLen] at h
    omega

theorem c7_fold_width_witness :
    (7 : Int) ≤ 7 ∧
      ((∀ seg ∈ splitCRLF (utf8Encode (Fold [97] 7)),
          (seg.length : Int) ≤ 7 - 2 ∧ ∃ rs, seg = utf8Encode rs) ∧
        ∀ card : Card, ∀ seg ∈ splitCRLF (utf8Encode (CardString card)),
          seg.length ≤ 75 ∧ ∃ rs, seg = utf8Encode rs) :=
  ⟨by norm_num, c7_fold_width [97] 7 (by norm_num)⟩

namespace UnfoldingReader

/-- PeekByte, translated from the Go method: read a byte and buffer it for
the next ReadByte. -/
def PeekByte (r : UnfoldingReader) : Option (Nat × UnfoldingReader) :=
  match r.ReadByte with
  | none => none
  | some (b, r') => some (b, { r' with peeked := some b })

theorem readByte_peeked {r : UnfoldingReader} {b : Nat} {r' : UnfoldingReader}
    (h : r.readByte = some (b, r')) : r'.peeked = none := by
  rcases r with ⟨input, line, unread, peeked⟩
  cases peeked with
  | some p =>
    simp [readByte] at h
    rw [← h.2]
  | none =>
    cases unread with
    | cons u us =>
      simp [readByte] at h
      rw [← h.2]
    | nil =>
      cases input with
      | nil => simp [readByte] at h
      | cons i is =>
        simp [readByte] at h
        rw [← h.2]

theorem ReadByte_peeked {r : UnfoldingReader} {b : Nat} {r' : UnfoldingReader}
    (h : r.ReadByte = some (b, r')) : r'.peeked = none := by
  generalize hn : r.pending.length = n
  induction n using Nat.strong_induction_on generalizing r b r' with
  | _ n ih =>
    subst hn
    rw [ReadByte] at h
    split at h
    · exact absurd h (by simp)
    · rename_i b1 r1 h1
      have e1 := readByte_pending h1
      split at h
      · split at h
        · simp at h
          rw [← h.2]
          exact readByte_peeked h1
        · rename_i b2 r2 h2
          have e2 := readByte_pending h2
          split at h
          · split at h
            · simp at h
              rw [← h.2]
              exact readByte_peeked h2
            · rename_i b3 r3 h3
              have e3 := readByte_pending h3
              split at h
              · exact ih r3.pending.length (by omega) h rfl
              · simp at h
                rw [← h.2, pushUnread_peeked]
                exact readByte_peeked h3
          · simp at h
            rw [← h.2, pushUnread_peeked]
            exact readByte_peeked h2
      · split at h
        · split at h
          · simp at h
            rw [← h.2]
            exact readByte_peeked h1
          · rename_i b2 r2 h2
            have e2 := readByte_pending h2
            split at h
            · exact ih r2.pending.length (by omega) h rfl
            · simp at h
              rw [← h.2, pushUnread_peeked]
              exact readByte_peeked h2
        · simp at h
          rw [← h.2]
          exact readByte_peeked h1

theorem PeekByte_pending_le {r : UnfoldingReader} {b : Nat} {r' : UnfoldingReader}
    (h : r.PeekByte = some (b, r')) : r'.pending.length ≤ r.pending.length := by
  rw [PeekByte] at h
  split at h
  · exact absurd h (by simp)
  · rename_i b1 r1 h1
    have hlt := ReadByte_pending h1
    have hpk := ReadByte_peeked h1
    simp at h
    rw [← h.2]
    simp [pending, hpk] at hlt ⊢
    omega

theorem PeekByte_pending {r : UnfoldingReader} {b : Nat} {r' : UnfoldingReader}
    (h : r.PeekByte = some (b, r')) : ∃ r1, r.ReadByte = some (b, r1) ∧
      r' = { r1 with peeked := some b } := by
  rw [PeekByte] at h
  split at h
  · exact absurd h (by simp)
  · rename_i b1 r1 h1
    simp at h
    obtain ⟨hb, hr⟩ := h
    subst hb
    exact ⟨r1, h1, hr.symm⟩

end UnfoldingReader

/-- Parse errors: an end-of-input condition standing for io.EOF, or a
line-numbered ParseError. -/
inductive PErr where
  | eof : PErr
  | perr (line : Nat) (msg : String) : PErr
deriving DecidableEq

/-- Upper-casing of ASCII letters in a string (strings.ToUpper restricted to
the ASCII range used by the parser). -/
def toUpperRunes (s : List Nat) : List Nat :=
  s.map (fun b => if 97 ≤ b ∧ b ≤ 122 then b - 32 else b)

/-- Whether a byte may appear in a name (A-Z, 0-9, a-z or a hyphen). -/
def isNameByte (b : Nat) : Bool :=
  (65 ≤ b ∧ b ≤ 90) ∨ (48 ≤ b ∧ b ≤ 57) ∨ b = 45 ∨ (97 ≤ b ∧ b ≤ 122)

/-- isValueChar, translated from the Go function: horizontal tab or any byte
at least space other than a comma. -/
def isValueChar (b : Nat) : Bool := b = 9 ∨ (32 ≤ b ∧ b ≠ 44)

/-- isQuoteSafeChar, translated from the Go function. -/
def isQuoteSafeChar (b : Nat) : Bool := b = 32 ∨ b = 9 ∨ b = 33 ∨ 34 < b

/-- isSafeChar, translated from the Go function. -/
def isSafeChar (b : Nat) : Bool :=
  b = 32 ∨ b = 9 ∨ b = 33 ∨ (34 < b ∧ b ≠ 59 ∧ b ≠ 58 ∧ b ≠ 44)

/-- The property names BEGIN and END and the value VCARD, as code points. -/
def strBEGIN : List Nat := [66, 69, 71, 73, 78]

def strEND : List Nat := [69, 78, 68]

def strVCARD : List Nat := [86, 67, 65, 82, 68]

/-- demandByte, translated from the Go method: read a byte, converting an
end-of-input condition into a line-numbered ParseError whose message is the
text of io.EOF. -/
def demandByte (r : UnfoldingReader) : (Except PErr Nat) × UnfoldingReader :=
  match r.ReadByte with
  | none => (.error (.perr r.line "EOF"), r)
  | some (b, r') => (.ok b, r')

theorem demandByte_le (r : UnfoldingReader) :
    (demandByte r).2.pending.length ≤ r.pending.length := by
  rw [demandByte]
  split
  · simp
  · rename_i b r' h
    have := UnfoldingReader.ReadByte_pending h
    simp
    omega

/-- The loop of parseName, translated from the Go method: peek a byte; on a
name character consume it (upper-casing lower-case letters); any error exits
with that error; a non-name byte stops the scan, yielding the accumulated
name or, when it is empty, a line-numbered error with the given message. -/
def parseNameLoop (missing : String) (bs : List Nat) (line : Nat) (r : UnfoldingReader) :
    (Except PErr (List Nat)) × UnfoldingReader :=
  match h1 : r.PeekByte with
  | none => (.error .eof, r)
  | some (b, r1) =>
    if isNameByte b then
      match h2 : r1.ReadByte with
      | none => (.error .eof, r1)
      | some (_, r2) =>
        parseNameLoop missing (bs ++ [if 97 ≤ b ∧ b ≤ 122 then b - 32 else b]) r2.line r2
    else
      if bs = [] then (.error (.perr line missing), r1)
      else (.ok bs, r1)
termination_by r.pending.length
decreasing_by
  have e1 := UnfoldingReader.PeekByte_pending_le h1
  have e2 := UnfoldingReader.ReadByte_pending h2
  omega

/-- parseName, translated from the Go method, starting with an empty
accumulator and the current line. -/
def parseName (missing : String) (r : UnfoldingReader) :
    (Except PErr (List Nat)) × UnfoldingReader :=
  parseNameLoop missing [] r.line r

theorem parseNameLoop_le (missing : String) :
    ∀ (bs : List Nat) (line : Nat) (r : UnfoldingReader),
      (parseNameLoop missing bs line r).2.pending.length ≤ r.pending.length := by
  intro bs line r
  generalize hn : r.pending.length = n
  induction n using Nat.strong_induction_on generalizing bs line r with
  | _ n ih =>
    subst hn
    rw [parseNameLoop]
    split
    · simp
    · rename_i b r1 h1
      have e1 := UnfoldingReader.PeekByte_pending_le h1
      split
      · split
        · simp
          omega
        · rename_i b' r2 h2
          have e2 := UnfoldingReader.ReadByte_pending h2
          have := ih r2.pending.length (by omega)
            (bs ++ [if 97 ≤ b ∧ b ≤ 122 then b - 32 else b]) r2.line r2 rfl
          omega
      · split
        · simp
          omega
        · simp
          omega

theorem parseName_le (missing : String) (r : UnfoldingReader) :
    (parseName missing r).2.pending.length ≤ r.pending.length :=
  parseNameLoop_le missing [] r.line r

theorem parseNameLoop_ok_lt (missing : String) :
    ∀ (line : Nat) (r : UnfoldingReader) (nm : List Nat) (r' : UnfoldingReader),
      parseNameLoop missing [] line r = (.ok nm, r') →
      r'.pending.length < r.pending.length := by
  intro line r nm r' h
  rw [parseNameLoop] at h
  split at h
  · exact absurd h (by simp)
  · rename_i b r1 h1
    have e1 := UnfoldingReader.PeekByte_pending_le h1
    split at h
    · split at h
      · exact absurd h (by simp)
      · rename_i b' r2 h2
        have e2 := UnfoldingReader.ReadByte_pending h2
        have e3 := parseNameLoop_le missing
          ([] ++ [if 97 ≤ b ∧ b ≤ 122 then b - 32 else b]) r2.line r2
        rw [h] at e3
        simp at e3
        omega
    · rw [if_pos rfl] at h
      exact absurd h (by simp)

theorem parseName_ok_lt (missing : String) (r : UnfoldingReader) {nm : List Nat}
    {r' : UnfoldingReader} (h : parseName missing r = (.ok nm, r')) :
    r'.pending.length < r.pending.length :=
  parseNameLoop_ok_lt missing r.line r nm r' h

/-- The loop of parsePropertyValue, translated from the Go method: peek; a
non-value byte ends the value; a backslash reads the escaped byte, accepting
comma, backslash, colon (kept as themselves), n (decoded to a line feed) and
semicolon (kept as the two-byte sequence backslash semicolon) and rejecting
everything else with a line-numbered cannot-be-escaped error; end of input
ends the value. -/
def parsePropertyValueLoop (bs : List Nat) (r : UnfoldingReader) :
    (Except PErr (List Nat)) × UnfoldingReader :=
  match h1 : r.PeekByte with
  | none => (.ok bs, r)
  | some (b, r1) =>
    if isValueChar b then
      match h2 : r1.ReadByte with
      | none => (.error .eof, r1)
      | some (_, r2) =>
        if b = 92 then
          match h3 : r2.ReadByte with
          | none => (.error (.perr r2.line "EOF"), r2)
          | some (b2, r3) =>
            if b2 = 44 ∨ b2 = 92 ∨ b2 = 58 then parsePropertyValueLoop (bs ++ [b2]) r3
            else if b2 = 110 then parsePropertyValueLoop (bs ++ [10]) r3
            else if b2 = 59 then parsePropertyValueLoop (bs ++ [92, 59]) r3
            else (.error (.perr r2.line "cannot be escaped"), r3)
        else parsePropertyValueLoop (bs ++ [b]) r2
    else (.ok bs, r1)
termination_by r.pending.length
decreasing_by
  · have e1 := UnfoldingReader.PeekByte_pending_le h1
    have e2 := UnfoldingReader.ReadByte_pending h2
    have e3 := UnfoldingReader.ReadByte_pending h3
    omega
  · have e1 := UnfoldingReader.PeekByte_pending_le h1
    have e2 := UnfoldingReader.ReadByte_pending h2
    have e3 := UnfoldingReader.ReadByte_pending h3
    omega
  · have e1 := UnfoldingReader.PeekByte_pending_le h1
    have e2 := UnfoldingReader.ReadByte_pending h2
    have e3 := UnfoldingReader.ReadByte_pending h3
    omega
  · have e1 := UnfoldingReader.PeekByte_pending_le h1
    have e2 := UnfoldingReader.ReadByte_pending h2
    omega

/-- parsePropertyValue, translated from the Go method. -/
def parsePropertyValue (r : UnfoldingReader) : (Except PErr (List Nat)) × UnfoldingReader :=
  parsePropertyValueLoop [] r

theorem parsePropertyValueLoop_le :
    ∀ (bs : List Nat) (r : UnfoldingReader),
      (parsePropertyValueLoop bs r).2.pending.length ≤ r.pending.length := by
  intro bs r
  generalize hn : r.pending.length = n
  induction n using Nat.strong_induction_on generalizing bs r with
  | _ n ih =>
    subst hn
    rw [parsePropertyValueLoop]
    split
    · simp
    · rename_i b r1 h1
      have e1 := UnfoldingReader.PeekByte_pending_le h1
      split
      · split
        · simp
          omega
        · rename_i b' r2 h2
          have e2 := UnfoldingReader.ReadByte_pending h2
          split
          · split
            · simp
              omega
            · rename_i b2 r3 h3
              have e3 := UnfoldingReader.ReadByte_pending h3
              split
              · have := ih r3.pending.length (by omega) (bs ++ [b2]) r3 rfl
                omega
              · split
                · have := ih r3.pending.length (by omega) (bs ++ [10]) r3 rfl
                  omega
                · split
                  · have := ih r3.pending.length (by omega) (bs ++ [92, 59]) r3 rfl
                    omega
                  · simp
                    omega
          · have := ih r2.pending.length (by omega) (bs ++ [b]) r2 rfl
            omega
      · simp
        omega

theorem parsePropertyValue_le (r : UnfoldingReader) :
    (parsePropertyValue r).2.pending.length ≤ r.pending.length :=
  parsePropertyValueLoop_le [] r

/-- The loop of parsePropertyValues, translated from the Go method. In the
Go loop the statement b, err := p.r.PeekByte() shadows the err governing
the loop, so an error from a parsePropertyValue call made inside the loop
never leaves it: the empty value the failing call returns is appended on
the next pass and the peek decides what happens. The translation makes the
current value an explicit argument and discards the error of the inner
parsePropertyValue calls accordingly. -/
def parsePropertyValuesLoop (values : List (List Nat)) (v : List Nat)
    (r : UnfoldingReader) :
    (Except PErr (List (List Nat))) × UnfoldingReader :=
  match h2 : r.PeekByte with
  | none => (.ok (values ++ [v]), r)
  | some (b, r2) =>
    if b ≠ 44 then (.ok (values ++ [v]), r2)
    else
      match h3 : r2.ReadByte with
      | none => (.error .eof, r2)
      | some (_, r3) =>
        match h4 : parsePropertyValue r3 with
        | (.ok v2, r4) => parsePropertyValuesLoop (values ++ [v]) v2 r4
        | (.error _, r4) => parsePropertyValuesLoop (values ++ [v]) [] r4
termination_by r.pending.length
decreasing_by
  all_goals
    have e2 := UnfoldingReader.PeekByte_pending_le h2
    have e3 := UnfoldingReader.ReadByte_pending h3
    have e4 : r4.pending.length ≤ r3.pending.length := by
      have := parsePropertyValue_le r3
      rw [h4] at this
      exact this
    omega

/-- parsePropertyValues, translated from the Go method: the first
parsePropertyValue call is made before the loop and its error is the one
the method can return. -/
def parsePropertyValues (r : UnfoldingReader) :
    (Except PErr (List (List Nat))) × UnfoldingReader :=
  match parsePropertyValue r with
  | (.error e, r') => (.error e, r')
  | (.ok v, r1) => parsePropertyValuesLoop [] v r1

theorem parsePropertyValuesLoop_le :
    ∀ (values : List (List Nat)) (v : List Nat) (r : UnfoldingReader),
      (parsePropertyValuesLoop values v r).2.pending.length ≤ r.pending.length := by
  intro values v r
  generalize hn : r.pending.length = n
  induction n using Nat.strong_induction_on generalizing values v r with
  | _ n ih =>
    subst hn
    rw [parsePropertyValuesLoop]
    split
    · simp
    · rename_i b r2 h2
      have e2 := UnfoldingReader.PeekByte_pending_le h2
      split
      · simp
        omega
      · split
        · simp
          omega
        · rename_i b' r3 h3
          have e3 := UnfoldingReader.ReadByte_pending h3
          split
          · rename_i v2 r4 h4
            have e4 : r4.pending.length ≤ r3.pending.length := by
              have := parsePropertyValue_le r3
              rw [h4] at this
              exact this
            have := ih r4.pending.length (by omega) (values ++ [v]) v2 r4 rfl
            omega
          · rename_i e r4 h4
            have e4 : r4.pending.length ≤ r3.pending.length := by
              have := parsePropertyValue_le r3
              rw [h4] at this
              exact this
            have := ih r4.pending.length (by omega) (values ++ [v]) [] r4 rfl
            omega

theorem parsePropertyValues_le (r : UnfoldingReader) :
    (parsePropertyValues r).2.pending.length ≤ r.pending.length := by
  rw [parsePropertyValues]
  split
  · rename_i e r' h1
    have := parsePropertyValue_le r
    rw [h1] at this
    simpa using this
  · rename_i v r1 h1
    have e1 : r1.pending.length ≤ r.pending.length := by
      have := parsePropertyValue_le r
      rw [h1] at this
      exact this
    have := parsePropertyValuesLoop_le [] v r1
    omega

/-- The loop of parseQuotedParameterValue, translated from the Go method:
read until the closing quote, rejecting bytes that are not quote-safe and
reporting an unterminated quoted value at end of input; the line argument
is the line recorded before the read, as in the Go code. -/
def parseQuotedParameterValueLoop (bs : List Nat) (line : Nat) (r : UnfoldingReader) :
    (Except PErr (List Nat)) × UnfoldingReader :=
  match h1 : r.ReadByte with
  | none => (.error (.perr line "unexpected end of quoted parameter value"), r)
  | some (b, r1) =>
    if b = 34 then (.ok bs, r1)
    else if isQuoteSafeChar b then parseQuotedParameterValueLoop (bs ++ [b]) r1.line r1
    else (.error (.perr line "unexpected byte in quoted parameter value"), r1)
termination_by r.pending.length
decreasing_by
  exact UnfoldingReader.ReadByte_pending h1

/-- parseQuotedParameterValue, translated from the Go method. -/
def parseQuotedParameterValue (r : UnfoldingReader) :
    (Except PErr (List Nat)) × UnfoldingReader :=
  parseQuotedParameterValueLoop [] r.line r

theorem parseQuotedParameterValueLoop_le :
    ∀ (bs : List Nat) (line : Nat) (r : UnfoldingReader),
      (parseQuotedParameterValueLoop bs line r).2.pending.length ≤ r.pending.length := by
  intro bs line r
  generalize hn : r.pending.length = n
  induction n using Nat.strong_induction_on generalizing bs line r with
  | _ n ih =>
    subst hn
    rw [parseQuotedParameterValueLoop]
    split
    · simp
    · rename_i b r1 h1
      have e1 := UnfoldingReader.ReadByte_pending h1
      split
      · simp
        omega
      · split
        · have := ih r1.pending.length (by omega) (bs ++ [b]) r1.line r1 rfl
          omega
        · simp
          omega

/-- The loop of parseUnquotedParameterValue, translated from the Go method:
peek and consume safe bytes; the Go method returns both the accumulated
bytes and the final peek error, so the result is a pair of the bytes and an
optional error rather than an Except. -/
def parseUnquotedParameterValueLoop (bs : List Nat) (r : UnfoldingReader) :
    (List Nat × Option PErr) × UnfoldingReader :=
  match h1 : r.PeekByte with
  | none => ((bs, some .eof), r)
  | some (b, r1) =>
    if isSafeChar b then
      match h2 : r1.ReadByte with
      | none => ((bs, some .eof), r1)
      | some (_, r2) => parseUnquotedParameterValueLoop (bs ++ [b]) r2
    else ((bs, none), r1)
termination_by r.pending.length
decreasing_by
  have e1 := UnfoldingReader.PeekByte_pending_le h1
  have e2 := UnfoldingReader.ReadByte_pending h2
  omega

/-- parseUnquotedParameterValue, translated from the Go method. -/
def parseUnquotedParameterValue (r : UnfoldingReader) :
    (List Nat × Option PErr) × UnfoldingReader :=
  parseUnquotedParameterValueLoop [] r

theorem parseUnquotedParameterValueLoop_le :
    ∀ (bs : List Nat) (r : UnfoldingReader),
      (parseUnquotedParameterValueLoop bs r).2.pending.length ≤ r.pending.length := by
  intro bs r
  generalize hn : r.pending.length = n
  induction n using Nat.strong_induction_on generalizing bs r with
  | _ n ih =>
    subst hn
    rw [parseUnquotedParameterValueLoop]
    split
    · simp
    · rename_i b r1 h1
      have e1 := UnfoldingReader.PeekByte_pending_le h1
      split
      · split
        · simp
          omega
        · rename_i b' r2 h2
          have e2 := UnfoldingReader.ReadByte_pending h2
          have := ih r2.pending.length (by omega) (bs ++ [b]) r2 rfl
          omega
      · simp
        omega

/-- parseParameterValue, translated from the Go method: end of input yields
an empty value with no error; a double quote starts a quoted value (whose
error, if any, is returned with an empty value); anything else an unquoted
value, whose bytes are returned together with any trailing error. -/
def parseParameterValue (r : UnfoldingReader) :
    (List Nat × Option PErr) × UnfoldingReader :=
  match r.PeekByte with
  | none => (([], none), r)
  | some (b, r1) =>
    if b = 34 then
      match r1.ReadByte with
      | none => (([], some .eof), r1)
      | some (_, r2) =>
        match parseQuotedParameterValue r2 with
        | (.ok v, r3) => ((v, none), r3)
        | (.error e, r3) => (([], some e), r3)
    else parseUnquotedParameterValue r1

theorem parseParameterValue_le (r : UnfoldingReader) :
    (parseParameterValue r).2.pending.length ≤ r.pending.length := by
  rw [parseParameterValue]
  split
  · simp
  · rename_i b r1 h1
    have e1 := UnfoldingReader.PeekByte_pending_le h1
    split
    · split
      · simp
        omega
      · rename_i b' r2 h2
        have e2 := UnfoldingReader.ReadByte_pending h2
        have e3 : (parseQuotedParameterValue r2).2.pending.length ≤ r2.pending.length :=
          parseQuotedParameterValueLoop_le [] r2.line r2
        split
        all_goals rename_i h4
        all_goals rw [h4] at e3
        all_goals simp at e3 ⊢
        all_goals omega
    · have e3 : (parseUnquotedParameterValue r1).2.pending.length ≤ r1.pending.length :=
        parseUnquotedParameterValueLoop_le [] r1
      omega

/-- The loop over the comma-separated values of one parameter, translated
from the body of parseParameter. As in parsePropertyValues, the statement
b, err := p.r.PeekByte() in the Go loop shadows the governing err, so the
error of a parseParameterValue call made inside the loop is dropped and the
value it returned alongside the error is appended on the next pass. -/
def parseParameterValsLoop (key : List Nat) (values : List (List Nat))
    (v : List Nat) (r : UnfoldingReader) :
    (Except PErr (List Nat × List (List Nat))) × UnfoldingReader :=
  match h2 : r.PeekByte with
  | none => (.ok (key, values ++ [v]), r)
  | some (b, r2) =>
    if b ≠ 44 then (.ok (key, values ++ [v]), r2)
    else
      match h3 : r2.ReadByte with
      | none => (.error .eof, r2)
      | some (_, r3) =>
        match h4 : parseParameterValue r3 with
        | ((v2, _), r4) => parseParameterValsLoop key (values ++ [v]) v2 r4
termination_by r.pending.length
decreasing_by
  have e2 := UnfoldingReader.PeekByte_pending_le h2
  have e3 := UnfoldingReader.ReadByte_pending h3
  have e4 : r4.pending.length ≤ r3.pending.length := by
    have := parseParameterValue_le r3
    rw [h4] at this
    exact this
  omega

theorem parseParameterValsLoop_le :
    ∀ (key : List Nat) (values : List (List Nat)) (v : List Nat)
      (r : UnfoldingReader),
      (parseParameterValsLoop key values v r).2.pending.length ≤ r.pending.length := by
  intro key values v r
  generalize hn : r.pending.length = n
  induction n using Nat.strong_induction_on generalizing values v r with
  | _ n ih =>
    subst hn
    rw [parseParameterValsLoop]
    split
    · simp
    · rename_i b r2 h2
      have e2 := UnfoldingReader.PeekByte_pending_le h2
      split
      · simp
        omega
      · split
        · simp
          omega
        · rename_i b' r3 h3
          have e3 := UnfoldingReader.ReadByte_pending h3
          split
          rename_i v2 e r4 h4
          have e4 : r4.pending.length ≤ r3.pending.length := by
            have := parseParameterValue_le r3
            rw [h4] at this
            exact this
          have := ih r4.pending.length (by omega) (values ++ [v]) v2 r4 rfl
          omega

/-- parseParameter, translated from the Go method: a name (upper-cased once
more, as in the Go code), the equals sign, then the comma-separated values;
only the first parseParameterValue call can make the method fail. -/
def parseParameter (r : UnfoldingReader) :
    (Except PErr (List Nat × List (List Nat))) × UnfoldingReader :=
  match parseName "expected parameter name" r with
  | (.error e, r') => (.error e, r')
  | (.ok key, r1) =>
    match r1.ReadByte with
    | none => (.error (.perr r1.line "EOF"), r1)
    | some (b, r2) =>
      if b ≠ 61 then (.error (.perr r1.line "expected equals sign after parameter name"), r2)
      else
        match parseParameterValue r2 with
        | ((_, some e), r3) => (.error e, r3)
        | ((v, none), r3) => parseParameterValsLoop (toUpperRunes key) [] v r3

theorem parseParameter_le (r : UnfoldingReader) :
    (parseParameter r).2.pending.length ≤ r.pending.length := by
  rw [parseParameter]
  split
  · rename_i e r' h1
    have := parseName_le "expected parameter name" r
    rw [h1] at this
    simpa using this
  · rename_i key r1 h1
    have e1 : r1.pending.length ≤ r.pending.length := by
      have := parseName_le "expected parameter name" r
      rw [h1] at this
      exact this
    split
    · simp
      omega
    · rename_i b r2 h2
      have e2 := UnfoldingReader.ReadByte_pending h2
      split
      · simp
        omega
      · split
        all_goals rename_i h4
        · rename_i e r3
          have e4 : r3.pending.length ≤ r2.pending.length := by
            have := parseParameterValue_le r2
            rw [h4] at this
            exact this
          simp
          omega
        · rename_i v r3
          have e4 : r3.pending.length ≤ r2.pending.length := by
            have := parseParameterValue_le r2
            rw [h4] at this
            exact this
          have := parseParameterValsLoop_le (toUpperRunes key) [] v r3
          omega

/-- Merging a parsed parameter into the parameter association list: the Go
code appends the new values to any existing entry of the key in the
parameter map. -/
def addParam (params : List (List Nat × List (List Nat))) (key : List Nat)
    (values : List (List Nat)) : List (List Nat × List (List Nat)) :=
  match params with
  | [] => [(key, values)]
  | kv :: rest =>
    if kv.1 = key then (kv.1, kv.2 ++ values) :: rest else kv :: addParam rest key values

/-- The loop of parseParameters, translated from the Go method. Once more
the b, err := p.r.PeekByte() statement in the Go loop shadows the governing
err, so an error of a parseParameter call made inside the loop is dropped
and the empty key with no values that the failing call returned is merged
into the map on the next pass. -/
def parseParametersLoop (params : List (List Nat × List (List Nat)))
    (key : List Nat) (values : List (List Nat)) (r : UnfoldingReader) :
    (Except PErr (List (List Nat × List (List Nat)))) × UnfoldingReader :=
  match h2 : (addParam params key values, r.PeekByte) with
  | (params2, none) => (.ok params2, r)
  | (params2, some (b, r2)) =>
    if b ≠ 59 then (.ok params2, r2)
    else
      match h3 : r2.ReadByte with
      | none => (.error .eof, r2)
      | some (_, r3) =>
        match h4 : parseParameter r3 with
        | (.ok (k2, v2), r4) => parseParametersLoop params2 k2 v2 r4
        | (.error _, r4) => parseParametersLoop params2 [] [] r4
termination_by r.pending.length
decreasing_by
  all_goals
    have e2 : r2.pending.length ≤ r.pending.length := by
      have h5 : r.PeekByte = some (b, r2) := congrArg Prod.snd h2
      exact UnfoldingReader.PeekByte_pending_le h5
    have e3 := UnfoldingReader.ReadByte_pending h3
    have e4 : r4.pending.length ≤ r3.pending.length := by
      have := parseParameter_le r3
      rw [h4] at this
      exact this
    omega

/-- parseParameters, translated from the Go method: only the first
parseParameter call can make the method fail. -/
def parseParameters (r : UnfoldingReader) :
    (Except PErr (List (List Nat × List (List Nat)))) × UnfoldingReader :=
  match parseParameter r with
  | (.error e, r') => (.error e, r')
  | (.ok (k, v), r1) => parseParametersLoop [] k v r1

theorem parseParametersLoop_le :
    ∀ (params : List (List Nat × List (List Nat))) (key : List Nat)
      (values : List (List Nat)) (r : UnfoldingReader),
      (parseParametersLoop params key values r).2.pending.length ≤ r.pending.length := by
  intro params key values r
  generalize hn : r.pending.length = n
  induction n using Nat.strong_induction_on generalizing params key values r with
  | _ n ih =>
    subst hn
    rw [parseParametersLoop]
    split
    · simp
    · rename_i params2 b r2 h2
      have e2 : r2.pending.length ≤ r.pending.length := by
        have h5 : r.PeekByte = some (b, r2) := congrArg Prod.snd h2
        exact UnfoldingReader.PeekByte_pending_le h5
      split
      · simp
        omega
      · split
        · simp
          omega
        · rename_i b' r3 h3
          have e3 := UnfoldingReader.ReadByte_pending h3
          split
          · rename_i k2 v2 r4 h4
            have e4 : r4.pending.length ≤ r3.pending.length := by
              have := parseParameter_le r3
              rw [h4] at this
              exact this
            have := ih r4.pending.length (by omega) params2 k2 v2 r4 rfl
            omega
          · rename_i e r4 h4
            have e4 : r4.pending.length ≤ r3.pending.length := by
              have := parseParameter_le r3
              rw [h4] at this
              exact this
            have := ih r4.pending.length (by omega) params2 [] [] r4 rfl
            omega

theorem parseParameters_le (r : UnfoldingReader) :
    (parseParameters r).2.pending.length ≤ r.pending.length := by
  rw [parseParameters]
  split
  · rename_i e r' h1
    have := parseParameter_le r
    rw [h1] at this
    simpa using this
  · rename_i k v r1 h1
    have e1 : r1.pending.length ≤ r.pending.length := by
      have := parseParameter_le r
      rw [h1] at this
      exact this
    have := parseParametersLoop_le [] k v r1
    omega

/-- The tail of parseProperty from the colon check on: verify the byte
before the values is a colon (the error carries the line recorded before
that byte was read), parse the comma-separated values, and demand a line
feed or end of input after them. -/
def parsePropertyColon (name group : List Nat)
    (params : List (List Nat × List (List Nat))) (line : Nat) (b : Nat)
    (r : UnfoldingReader) :
    (Except PErr (List Nat × Property)) × UnfoldingReader :=
  if b ≠ 58 then (.error (.perr line "expected colon"), r)
  else
    match parsePropertyValues r with
    | (.error e, r1) => (.error e, r1)
    | (.ok values, r1) =>
      match r1.ReadByte with
      | none => (.ok (name, ⟨group, params, values⟩), r1)
      | some (b2, r2) =>
        if b2 ≠ 10 then
          (.error (.perr r1.line "unexpected character after property value"), r2)
        else (.ok (name, ⟨group, params, values⟩), r2)

theorem parsePropertyColon_le (name group : List Nat)
    (params : List (List Nat × List (List Nat))) (line : Nat) (b : Nat)
    (r : UnfoldingReader) :
    (parsePropertyColon name group params line b r).2.pending.length ≤
      r.pending.length := by
  rw [parsePropertyColon]
  split
  · simp
  · split
    · rename_i e r1 h1
      have := parsePropertyValues_le r
      rw [h1] at this
      simpa using this
    · rename_i values r1 h1
      have e1 : r1.pending.length ≤ r.pending.length := by
        have := parsePropertyValues_le r
        rw [h1] at this
        exact this
      split
      · simp
        omega
      · rename_i b2 r2 h2
        have e2 := UnfoldingReader.ReadByte_pending h2
        split
        · simp
          omega
        · simp
          omega

/-- The middle of parseProperty, after the property name, its group and the
byte following them are known. If that byte is a semicolon the parameters
are parsed. In the Go code the statement params, err := p.parseParameters()
inside this branch shadows the governing err, so when the demandByte call
that follows the parameters fails at end of input its error is dropped, the
byte stays zero and the colon check reports expected colon instead. -/
def parsePropertyParams (name group : List Nat) (line : Nat) (b : Nat)
    (r : UnfoldingReader) :
    (Except PErr (List Nat × Property)) × UnfoldingReader :=
  if b = 59 then
    match parseParameters r with
    | (.error e, r1) => (.error e, r1)
    | (.ok params, r1) =>
      match demandByte r1 with
      | (.error _, r2) => (.error (.perr r1.line "expected colon"), r2)
      | (.ok b2, r2) => parsePropertyColon name group params r1.line b2 r2
  else parsePropertyColon name group [] line b r

theorem parsePropertyParams_le (name group : List Nat) (line : Nat) (b : Nat)
    (r : UnfoldingReader) :
    (parsePropertyParams name group line b r).2.pending.length ≤
      r.pending.length := by
  rw [parsePropertyParams]
  split
  · split
    · rename_i e r1 h1
      have := parseParameters_le r
      rw [h1] at this
      simpa using this
    · rename_i params r1 h1
      have e1 : r1.pending.length ≤ r.pending.length := by
        have := parseParameters_le r
        rw [h1] at this
        exact this
      have e2 := demandByte_le r1
      split
      all_goals rename_i h2
      all_goals rw [h2] at e2
      · simp at e2 ⊢
        omega
      · rename_i b2 r2
        have := parsePropertyColon_le name group params r1.line b2 r2
        simp at e2
        omega
  · exact parsePropertyColon_le name group [] line b r

/-- parseProperty, translated from the Go method: a name, then either a dot
introducing the real property name after a group, a semicolon introducing
parameters, or the colon before the values. -/
def parseProperty (r : UnfoldingReader) :
    (Except PErr (List Nat × Property)) × UnfoldingReader :=
  match parseName "expected property name" r with
  | (.error e, r') => (.error e, r')
  | (.ok nm, r1) =>
    match demandByte r1 with
    | (.error e, r2) => (.error e, r2)
    | (.ok b, r2) =>
      if b = 46 then
        match parseName "expected property name" r2 with
        | (.error e, r3) => (.error e, r3)
        | (.ok nm2, r3) =>
          match demandByte r3 with
          | (.error e, r4) => (.error e, r4)
          | (.ok b2, r4) => parsePropertyParams nm2 nm r3.line b2 r4
      else parsePropertyParams nm [] r1.line b r2

theorem parseProperty_le (r : UnfoldingReader) :
    (parseProperty r).2.pending.length ≤ r.pending.length := by
  rw [parseProperty]
  split
  · rename_i e r' h1
    have := parseName_le "expected property name" r
    rw [h1] at this
    simpa using this
  · rename_i nm r1 h1
    have e1 : r1.pending.length ≤ r.pending.length := by
      have := parseName_le "expected property name" r
      rw [h1] at this
      exact this
    have e2 := demandByte_le r1
    split
    all_goals rename_i h2
    all_goals rw [h2] at e2
    · simp at e2 ⊢
      omega
    · rename_i b r2
      simp at e2
      split
      · split
        · rename_i e r3 h3
          have := parseName_le "expected property name" r2
          rw [h3] at this
          simp at this ⊢
          omega
        · rename_i nm2 r3 h3
          have e3 : r3.pending.length ≤ r2.pending.length := by
            have := parseName_le "expected property name" r2
            rw [h3] at this
            exact this
          have e4 := demandByte_le r3
          split
          all_goals rename_i h4
          all_goals rw [h4] at e4
          · simp at e4 ⊢
            omega
          · rename_i b2 r4
            have := parsePropertyParams_le nm2 nm r3.line b2 r4
            simp at e4
            omega
      · have := parsePropertyParams_le nm [] r1.line b r2
        omega

theorem parseProperty_ok_lt (r : UnfoldingReader) {name : List Nat}
    {prop : Property} {r' : UnfoldingReader}
    (h : parseProperty r = (.ok (name, prop), r')) :
    r'.pending.length < r.pending.length := by
  rw [parseProperty] at h
  split at h
  · exact absurd h (by simp)
  · rename_i nm r1 h1
    have e1 : r1.pending.length < r.pending.length := parseName_ok_lt _ r h1
    split at h
    · exact absurd h (by simp)
    · rename_i b r2 h2
      have e2 := demandByte_le r1
      rw [h2] at e2
      simp at e2
      split at h
      · split at h
        · exact absurd h (by simp)
        · rename_i nm2 r3 h3
          have e3 : r3.pending.length ≤ r2.pending.length := by
            have := parseName_le "expected property name" r2
            rw [h3] at this
            exact this
          split at h
          · exact absurd h (by simp)
          · rename_i b2 r4 h4
            have e4 := demandByte_le r3
            rw [h4] at e4
            simp at e4
            have := parsePropertyParams_le nm2 nm r3.line b2 r4
            rw [h] at this
            simp at this
            omega
      · have := parsePropertyParams_le nm [] r1.line b r2
        rw [h] at this
        simp at this
        omega

/-- Whether a property (already known to be named BEGIN or END) marks a
card boundary: no group, no parameters and the single value VCARD up to
case. The Go code compares strings.ToUpper of the value with the literal
VCARD; since no byte outside ASCII can become one of those five letters
under upper-casing, the ASCII-only upper-casing is equivalent here. -/
def isVCardMarkerProp (prop : Property) : Bool :=
  decide (prop.group = []) && decide (prop.params = []) &&
    match prop.values with
    | [v] => decide (toUpperRunes v = strVCARD)
    | _ => false

/-- Appending a property occurrence to the card map, as the Go code does
with card.m[name] = append(card.m[name], prop). -/
def assocAppend (m : List (List Nat × List Property)) (name : List Nat)
    (prop : Property) : List (List Nat × List Property) :=
  match m with
  | [] => [(name, [prop])]
  | kv :: rest =>
    if kv.1 = name then (kv.1, kv.2 ++ [prop]) :: rest
    else kv :: assocAppend rest name prop

/-- The loop of Next, translated from the Go method: parse properties into
the card until the END marker; a malformed END tag is reported with the
line recorded before the property was parsed, and end of input before the
END marker becomes an unexpected-end error at the current line. -/
def NextLoop (card : Card) (r : UnfoldingReader) :
    (Except PErr Card) × UnfoldingReader :=
  match h1 : parseProperty r with
  | (.error .eof, r1) =>
    (.error (.perr r1.line "unexpected end of input before ending card"), r1)
  | (.error e, r1) => (.error e, r1)
  | (.ok (name, prop), r1) =>
    if name = strEND then
      if isVCardMarkerProp prop then (.ok card, r1)
      else (.error (.perr r.line "malformed end tag"), r1)
    else NextLoop ⟨assocAppend card.m name prop⟩ r1
termination_by r.pending.length
decreasing_by
  exact parseProperty_ok_lt r h1

theorem NextLoop_le :
    ∀ (card : Card) (r : UnfoldingReader),
      (NextLoop card r).2.pending.length ≤ r.pending.length := by
  intro card r
  generalize hn : r.pending.length = n
  induction n using Nat.strong_induction_on generalizing card r with
  | _ n ih =>
    subst hn
    rw [NextLoop]
    split
    · rename_i r1 h1
      have := parseProperty_le r
      rw [h1] at this
      simpa using this
    · rename_i e r1 hne h2
      have := parseProperty_le r
      rw [h2] at this
      simpa using this
    · rename_i name prop r1 h1
      have e1 : r1.pending.length < r.pending.length := parseProperty_ok_lt r h1
      split
      · split
        · simp
          omega
        · simp
          omega
      · have := ih r1.pending.length (by omega) ⟨assocAppend card.m name prop⟩ r1 rfl
        omega

/-- Next, translated from the Go method: the first property must be a BEGIN
marker with the single value VCARD (else expected beginning of card, at the
line recorded before the property), then the loop collects properties until
the END marker. -/
def Next (r : UnfoldingReader) : (Except PErr Card) × UnfoldingReader :=
  match parseProperty r with
  | (.error e, r1) => (.error e, r1)
  | (.ok (name, prop), r1) =>
    if name = strBEGIN ∧ isVCardMarkerProp prop then NextLoop ⟨[]⟩ r1
    else (.error (.perr r.line "expected beginning of card"), r1)

theorem Next_ok_lt (r : UnfoldingReader) {card : Card} {r' : UnfoldingReader}
    (h : Next r = (.ok card, r')) : r'.pending.length < r.pending.length := by
  rw [Next] at h
  split at h
  · exact absurd h (by simp)
  · rename_i name prop r1 h1
    have e1 : r1.pending.length < r.pending.length := parseProperty_ok_lt r h1
    split at h
    · have := NextLoop_le ⟨[]⟩ r1
      rw [h] at this
      simp at this
      omega
    · exact absurd h (by simp)

/-- The loop of ParseAll, translated from the Go function: repeatedly call
Next, treating end of input as normal termination and any other error as
failure, returning the cards parsed before it alongside the error. -/
def ParseAllLoop (cards : List Card) (r : UnfoldingReader) :
    List Card × Option PErr :=
  match h1 : Next r with
  | (.error .eof, _) => (cards, none)
  | (.error e, _) => (cards, some e)
  | (.ok card, r1) => ParseAllLoop (cards ++ [card]) r1
termination_by r.pending.length
decreasing_by
  exact Next_ok_lt r h1

/-- ParseAll, translated from the Go function, on the raw input bytes. -/
def ParseAll (input : List Nat) : List Card × Option PErr :=
  ParseAllLoop [] (NewUnfoldingReader input)

theorem writeValue_nil : writeValue [] = [65533] := by decide

theorem propLine_empty_value (name : List Nat) :
    propLine name ⟨[], [], [[]]⟩ = name ++ [58, 65533, 10] := by
  simp [propLine, writeValues, writeValue, writeValueGo, fmtChar]

theorem pending_new (s : List Nat) : (NewUnfoldingReader s).pending = s := rfl

theorem line_new (s : List Nat) : (NewUnfoldingReader s).line = 1 := rfl

theorem pending_set_peeked {r : UnfoldingReader} (h : r.peeked = none) (b : Nat) :
    ({ r with peeked := some b } : UnfoldingReader).pending = b :: r.pending := by
  rcases r with ⟨input, line, unread, peeked⟩
  simp at h
  simp [UnfoldingReader.pending, h]

theorem UnfoldingReader.PeekByte_nil {r : UnfoldingReader} (h : r.pending = []) :
    r.PeekByte = none := by
  rw [UnfoldingReader.PeekByte, UnfoldingReader.ReadByte_nil h]

/-- Peeking at a byte other than a carriage return or line feed leaves the
pending stream unchanged and succeeds with that byte. -/
theorem UnfoldingReader.PeekByte_other {r : UnfoldingReader} {b : Nat} {t : List Nat}
    (h : r.pending = b :: t) (h13 : b ≠ 13) (h10 : b ≠ 10) :
    ∃ r', r.PeekByte = some (b, r') ∧ r'.pending = b :: t := by
  obtain ⟨r1, hrb, hp1, hpk1⟩ := UnfoldingReader.ReadByte_other h h13 h10
  refine ⟨{ r1 with peeked := some b }, ?_, ?_⟩
  · rw [UnfoldingReader.PeekByte, hrb]
  · rw [pending_set_peeked hpk1, hp1]

/-- Peeking at a carriage-return+line-feed terminator not followed by
folding whitespace yields the normalized line feed, with the terminator
consumed from the pending stream. -/
theorem UnfoldingReader.PeekByte_crlf_other {r : UnfoldingReader} {c : Nat} {t : List Nat}
    (h : r.pending = 13 :: 10 :: c :: t) (hc : ¬(c = 32 ∨ c = 9)) :
    ∃ r', r.PeekByte = some (10, r') ∧ r'.pending = 10 :: c :: t := by
  obtain ⟨r1, hrb, hp1, hpk1⟩ := UnfoldingReader.ReadByte_crlf_other h hc
  refine ⟨{ r1 with peeked := some 10 }, ?_, ?_⟩
  · rw [UnfoldingReader.PeekByte, hrb]
  · rw [pending_set_peeked hpk1, hp1]

/-- Peeking at a bare line feed not followed by folding whitespace. -/
theorem UnfoldingReader.PeekByte_lf_other {r : UnfoldingReader} {c : Nat} {t : List Nat}
    (h : r.pending = 10 :: c :: t) (hc : ¬(c = 32 ∨ c = 9)) :
    ∃ r', r.PeekByte = some (10, r') ∧ r'.pending = 10 :: c :: t := by
  obtain ⟨r1, hrb, hp1, hpk1⟩ := UnfoldingReader.ReadByte_lf_other h hc
  refine ⟨{ r1 with peeked := some 10 }, ?_, ?_⟩
  · rw [UnfoldingReader.PeekByte, hrb]
  · rw [pending_set_peeked hpk1, hp1]

/-- demandByte on a pending byte other than a carriage return or line feed. -/
theorem demandByte_other {r : UnfoldingReader} {b : Nat} {t : List Nat}
    (h : r.pending = b :: t) (h13 : b ≠ 13) (h10 : b ≠ 10) :
    ∃ r', demandByte r = (.ok b, r') ∧ r'.pending = t := by
  obtain ⟨r1, hrb, hp1, hpk1⟩ := UnfoldingReader.ReadByte_other h h13 h10
  exact ⟨r1, by rw [demandByte, hrb], hp1⟩

/-- A name byte is neither a carriage return, a line feed nor folding
whitespace. -/
theorem isNameByte_facts {b : Nat} (h : isNameByte b) :
    b ≠ 13 ∧ b ≠ 10 ∧ ¬(b = 32 ∨ b = 9) := by
  simp [isNameByte] at h
  omega

/-- Running the parseName loop over a maximal run of name bytes followed by
a stop byte: the accumulated bytes are the upper-cased name bytes, and the
stop byte stays pending. -/
theorem parseNameLoop_run (missing : String) :
    ∀ (nm bs : List Nat) (line : Nat) (r : UnfoldingReader) (s : Nat) (t : List Nat),
      r.pending = nm ++ s :: t → (∀ b ∈ nm, isNameByte b) →
      ¬isNameByte s → s ≠ 13 → s ≠ 10 → bs ++ toUpperRunes nm ≠ [] →
      ∃ r', parseNameLoop missing bs line r = (.ok (bs ++ toUpperRunes nm), r') ∧
        r'.pending = s :: t := by
  intro nm
  induction nm with
  | nil =>
    intro bs line r s t hp hnm hs h13 h10 hne
    obtain ⟨r1, hpk, hp1⟩ := UnfoldingReader.PeekByte_other (by simpa using hp) h13 h10
    refine ⟨r1, ?_, hp1⟩
    rw [parseNameLoop]
    split
    · rename_i heq
      rw [heq] at hpk
      exact absurd hpk (by simp)
    · rename_i b1 r1a heq
      rw [heq] at hpk
      simp only [Option.some.injEq, Prod.mk.injEq] at hpk
      obtain ⟨rfl, rfl⟩ := hpk
      rw [if_neg (by simpa using hs), if_neg (by simpa [toUpperRunes] using hne)]
      simp [toUpperRunes]
  | cons b nm ih =>
    intro bs line r s t hp hnm hs h13 h10 hne
    have hb : isNameByte b := hnm b (by simp)
    obtain ⟨hb13, hb10, _⟩ := isNameByte_facts hb
    obtain ⟨r1, hpk, hp1⟩ := UnfoldingReader.PeekByte_other (by simpa using hp) hb13 hb10
    obtain ⟨r2, hrb, hp2, hpk2⟩ := UnfoldingReader.ReadByte_other hp1 hb13 hb10
    obtain ⟨r3, hrun, hp3⟩ := ih (bs ++ [if 97 ≤ b ∧ b ≤ 122 then b - 32 else b])
      r2.line r2 s t (by simpa using hp2) (fun x hx => hnm x (by simp [hx]))
      hs h13 h10 (by simp)
    refine ⟨r3, ?_, hp3⟩
    rw [parseNameLoop]
    split
    · rename_i heq
      rw [heq] at hpk
      exact absurd hpk (by simp)
    · rename_i b1 r1a heq
      rw [heq] at hpk
      simp only [Option.some.injEq, Prod.mk.injEq] at hpk
      obtain ⟨rfl, rfl⟩ := hpk
      rw [if_pos hb]
      split
      · rename_i heq2
        rw [heq2] at hrb
        exact absurd hrb (by simp)
      · rename_i b2 r2a heq2
        rw [heq2] at hrb
        simp only [Option.some.injEq, Prod.mk.injEq] at hrb
        obtain ⟨rfl, rfl⟩ := hrb
        rw [hrun]
        simp [toUpperRunes]

/-- parseName over a name run. -/
theorem parseName_run (missing : String) {nm : List Nat} {r : UnfoldingReader}
    {s : Nat} {t : List Nat} (hp : r.pending = nm ++ s :: t)
    (hnm : ∀ b ∈ nm, isNameByte b) (hs : ¬isNameByte s) (h13 : s ≠ 13)
    (h10 : s ≠ 10) (hne : nm ≠ []) :
    ∃ r', parseName missing r = (.ok (toUpperRunes nm), r') ∧
      r'.pending = s :: t := by
  obtain ⟨r', hrun, hp'⟩ := parseNameLoop_run missing nm [] r.line r s t hp hnm hs h13 h10
    (by simpa [toUpperRunes] using hne)
  exact ⟨r', by rw [parseName, hrun]; simp, hp'⟩

theorem isValueChar_facts {b : Nat} (h : isValueChar b) : b ≠ 13 ∧ b ≠ 10 := by
  simp [isValueChar] at h
  omega

/-- The parsePropertyValue loop at end of input yields the accumulator. -/
theorem ppvl_eof {r : UnfoldingReader} (h : r.pending = []) (bs : List Nat) :
    parsePropertyValueLoop bs r = (.ok bs, r) := by
  rw [parsePropertyValueLoop]
  split
  · rfl
  · rename_i b1 r1 heq
    rw [UnfoldingReader.PeekByte_nil h] at heq
    exact absurd heq (by simp)

/-- The parsePropertyValue loop consumes a run of plain value bytes (value
characters other than the backslash) and appends them unchanged. -/
theorem ppvl_plain :
    ∀ (plain bs : List Nat) (r : UnfoldingReader) (t : List Nat),
      r.pending = plain ++ t → (∀ b ∈ plain, isValueChar b ∧ b ≠ 92) →
      ∃ r', parsePropertyValueLoop bs r = parsePropertyValueLoop (bs ++ plain) r' ∧
        r'.pending = t := by
  intro plain
  induction plain with
  | nil =>
    intro bs r t hp hpl
    exact ⟨r, by simp, by simpa using hp⟩
  | cons b plain ih =>
    intro bs r t hp hpl
    obtain ⟨hbv, hb92⟩ := hpl b (by simp)
    obtain ⟨hb13, hb10⟩ := isValueChar_facts hbv
    obtain ⟨r1, hpk, hp1⟩ := UnfoldingReader.PeekByte_other (by simpa using hp) hb13 hb10
    obtain ⟨r2, hrb, hp2, hpk2⟩ := UnfoldingReader.ReadByte_other hp1 hb13 hb10
    obtain ⟨r3, hrun, hp3⟩ := ih (bs ++ [b]) r2 t (by simpa using hp2)
      (fun x hx => hpl x (by simp [hx]))
    refine ⟨r3, ?_, hp3⟩
    rw [parsePropertyValueLoop]
    split
    · rename_i heq
      rw [heq] at hpk
      exact absurd hpk (by simp)
    · rename_i b1 r1a heq
      rw [heq] at hpk
      simp only [Option.some.injEq, Prod.mk.injEq] at hpk
      obtain ⟨rfl, rfl⟩ := hpk
      rw [if_pos hbv]
      split
      · rename_i heq2
        rw [heq2] at hrb
        exact absurd hrb (by simp)
      · rename_i b2 r2a heq2
        rw [heq2] at hrb
        simp only [Option.some.injEq, Prod.mk.injEq] at hrb
        obtain ⟨rfl, rfl⟩ := hrb
        rw [if_neg (by simpa using hb92)]
        rw [hrun]
        simp

/-- The parsePropertyValue loop stops before a line terminator: the
carriage-return+line-feed is normalized by the reader to a line feed, which
is not a value character, so the value ends with the line feed pending. -/
theorem ppvl_stop_crlf {r : UnfoldingReader} {c : Nat} {t : List Nat}
    (h : r.pending = 13 :: 10 :: c :: t) (hc : ¬(c = 32 ∨ c = 9)) (bs : List Nat) :
    ∃ r', parsePropertyValueLoop bs r = (.ok bs, r') ∧ r'.pending = 10 :: c :: t := by
  obtain ⟨r1, hpk, hp1⟩ := UnfoldingReader.PeekByte_crlf_other h hc
  refine ⟨r1, ?_, hp1⟩
  rw [parsePropertyValueLoop]
  split
  · rename_i heq
    rw [heq] at hpk
    exact absurd hpk (by simp)
  · rename_i b1 r1a heq
    rw [heq] at hpk
    simp only [Option.some.injEq, Prod.mk.injEq] at hpk
    obtain ⟨rfl, rfl⟩ := hpk
    rw [if_neg (by simp [isValueChar])]

/-- One escape step of the parsePropertyValue loop: a comma, backslash or
colon after the backslash is appended as itself. -/
theorem ppvl_esc_raw {r : UnfoldingReader} {e : Nat} {t : List Nat}
    (h : r.pending = 92 :: e :: t) (he : e = 44 ∨ e = 92 ∨ e = 58) (bs : List Nat) :
    ∃ r', parsePropertyValueLoop bs r = parsePropertyValueLoop (bs ++ [e]) r' ∧
      r'.pending = t := by
  obtain ⟨r1, hpk, hp1⟩ := UnfoldingReader.PeekByte_other h (by omega) (by omega)
  obtain ⟨r2, hrb, hp2, hpk2⟩ := UnfoldingReader.ReadByte_other hp1 (by omega) (by omega)
  obtain ⟨r3, hrb2, hp3, hpk3⟩ := UnfoldingReader.ReadByte_other hp2
    (by omega) (by omega)
  refine ⟨r3, ?_, hp3⟩
  rw [parsePropertyValueLoop]
  split
  · rename_i heq
    rw [heq] at hpk
    exact absurd hpk (by simp)
  · rename_i b1 r1a heq
    rw [heq] at hpk
    simp only [Option.some.injEq, Prod.mk.injEq] at hpk
    obtain ⟨rfl, rfl⟩ := hpk
    rw [if_pos (by simp [isValueChar])]
    split
    · rename_i heq2
      rw [heq2] at hrb
      exact absurd hrb (by simp)
    · rename_i b2 r2a heq2
      rw [heq2] at hrb
      simp only [Option.some.injEq, Prod.mk.injEq] at hrb
      obtain ⟨rfl, rfl⟩ := hrb
      rw [if_pos rfl]
      split
      · rename_i heq3
        rw [heq3] at hrb2
        exact absurd hrb2 (by simp)
      · rename_i b3 r3a heq3
        rw [heq3] at hrb2
        simp only [Option.some.injEq, Prod.mk.injEq] at hrb2
        obtain ⟨rfl, rfl⟩ := hrb2
        rw [if_pos he]

/-- One escape step: a backslash followed by the letter n decodes to a line
feed. -/
theorem ppvl_esc_n {r : UnfoldingReader} {t : List Nat}
    (h : r.pending = 92 :: 110 :: t) (bs : List Nat) :
    ∃ r', parsePropertyValueLoop bs r = parsePropertyValueLoop (bs ++ [10]) r' ∧
      r'.pending = t := by
  obtain ⟨r1, hpk, hp1⟩ := UnfoldingReader.PeekByte_other h (by omega) (by omega)
  obtain ⟨r2, hrb, hp2, hpk2⟩ := UnfoldingReader.ReadByte_other hp1 (by omega) (by omega)
  obtain ⟨r3, hrb2, hp3, hpk3⟩ := UnfoldingReader.ReadByte_other hp2 (by omega) (by omega)
  refine ⟨r3, ?_, hp3⟩
  rw [parsePropertyValueLoop]
  split
  · rename_i heq
    rw [heq] at hpk
    exact absurd hpk (by simp)
  · rename_i b1 r1a heq
    rw [heq] at hpk
    simp only [Option.some.injEq, Prod.mk.injEq] at hpk
    obtain ⟨rfl, rfl⟩ := hpk
    rw [if_pos (by simp [isValueChar])]
    split
    · rename_i heq2
      rw [heq2] at hrb
      exact absurd hrb (by simp)
    · rename_i b2 r2a heq2
      rw [heq2] at hrb
      simp only [Option.some.injEq, Prod.mk.injEq] at hrb
      obtain ⟨rfl, rfl⟩ := hrb
      rw [if_pos rfl]
      split
      · rename_i heq3
        rw [heq3] at hrb2
        exact absurd hrb2 (by simp)
      · rename_i b3 r3a heq3
        rw [heq3] at hrb2
        simp only [Option.some.injEq, Prod.mk.injEq] at hrb2
        obtain ⟨rfl, rfl⟩ := hrb2
        rw [if_neg (by omega), if_pos rfl]

/-- One escape step: a backslash followed by a semicolon decodes to the
two-byte sequence backslash semicolon. -/
theorem ppvl_esc_semi {r : UnfoldingReader} {t : List Nat}
    (h : r.pending = 92 :: 59 :: t) (bs : List Nat) :
    ∃ r', parsePropertyValueLoop bs r = parsePropertyValueLoop (bs ++ [92, 59]) r' ∧
      r'.pending = t := by
  obtain ⟨r1, hpk, hp1⟩ := UnfoldingReader.PeekByte_other h (by omega) (by omega)
  obtain ⟨r2, hrb, hp2, hpk2⟩ := UnfoldingReader.ReadByte_other hp1 (by omega) (by omega)
  obtain ⟨r3, hrb2, hp3, hpk3⟩ := UnfoldingReader.ReadByte_other hp2 (by omega) (by omega)
  refine ⟨r3, ?_, hp3⟩
  rw [parsePropertyValueLoop]
  split
  · rename_i heq
    rw [heq] at hpk
    exact absurd hpk (by simp)
  · rename_i b1 r1a heq
    rw [heq] at hpk
    simp only [Option.some.injEq, Prod.mk.injEq] at hpk
    obtain ⟨rfl, rfl⟩ := hpk
    rw [if_pos (by simp [isValueChar])]
    split
    · rename_i heq2
      rw [heq2] at hrb
      exact absurd hrb (by simp)
    · rename_i b2 r2a heq2
      rw [heq2] at hrb
      simp only [Option.some.injEq, Prod.mk.injEq] at hrb
      obtain ⟨rfl, rfl⟩ := hrb
      rw [if_pos rfl]
      split
      · rename_i heq3
        rw [heq3] at hrb2
        exact absurd hrb2 (by simp)
      · rename_i b3 r3a heq3
        rw [heq3] at hrb2
        simp only [Option.some.injEq, Prod.mk.injEq] at hrb2
        obtain ⟨rfl, rfl⟩ := hrb2
        rw [if_neg (by omega), if_neg (by omega), if_pos rfl]

/-- One escape step: a backslash followed by any byte other than comma,
backslash, colon, n or semicolon fails with the cannot-be-escaped error. -/
theorem ppvl_esc_bad {r : UnfoldingReader} {e : Nat} {t : List Nat}
    (h : r.pending = 92 :: e :: t)
    (he : ¬(e = 44 ∨ e = 92 ∨ e = 58)) (hn : e ≠ 110) (hsemi : e ≠ 59)
    (h13 : e ≠ 13) (h10 : e ≠ 10) (bs : List Nat) :
    ∃ ln r', parsePropertyValueLoop bs r = (.error (.perr ln "cannot be escaped"), r') ∧
      r'.pending = t := by
  obtain ⟨r1, hpk, hp1⟩ := UnfoldingReader.PeekByte_other h (by omega) (by omega)
  obtain ⟨r2, hrb, hp2, hpk2⟩ := UnfoldingReader.ReadByte_other hp1 (by omega) (by omega)
  obtain ⟨r3, hrb2, hp3, hpk3⟩ := UnfoldingReader.ReadByte_other hp2 h13 h10
  refine ⟨r2.line, r3, ?_, hp3⟩
  rw [parsePropertyValueLoop]
  split
  · rename_i heq
    rw [heq] at hpk
    exact absurd hpk (by simp)
  · rename_i b1 r1a heq
    rw [heq] at hpk
    simp only [Option.some.injEq, Prod.mk.injEq] at hpk
    obtain ⟨rfl, rfl⟩ := hpk
    rw [if_pos (by simp [isValueChar])]
    split
    · rename_i heq2
      rw [heq2] at hrb
      exact absurd hrb (by simp)
    · rename_i b2 r2a heq2
      rw [heq2] at hrb
      simp only [Option.some.injEq, Prod.mk.injEq] at hrb
      obtain ⟨rfl, rfl⟩ := hrb
      rw [if_pos rfl]
      split
      · rename_i heq3
        rw [heq3] at hrb2
        exact absurd hrb2 (by simp)
      · rename_i b3 r3a heq3
        rw [heq3] at hrb2
        simp only [Option.some.injEq, Prod.mk.injEq] at hrb2
        obtain ⟨rfl, rfl⟩ := hrb2
        rw [if_neg he, if_neg hn, if_neg hsemi]

/-- C4 (documenting a code bug): the escape dispatch of parsePropertyValue
accepts a backslash before comma, backslash, colon, n and semicolon and
rejects everything else, whereas the claim (with the specification and the
repository's own failure test, which demands the error ':' cannot be
escaped for the input PROP:escape\: on line 2) allows only comma,
backslash, n and semicolon: the colon escape \: is accepted by the code and
decodes to a bare colon instead of failing. The remaining conjuncts confirm
the four specified escapes and the rejection of any other escaped byte on a
representative. -/
theorem c4_colon_escape_accepted :
    (∃ r', parsePropertyValue
        (NewUnfoldingReader [101, 115, 99, 97, 112, 101, 92, 58]) =
        (.ok [101, 115, 99, 97, 112, 101, 58], r')) ∧
    (∃ r', parsePropertyValue (NewUnfoldingReader [92, 44]) = (.ok [44], r')) ∧
    (∃ r', parsePropertyValue (NewUnfoldingReader [92, 92]) = (.ok [92], r')) ∧
    (∃ r', parsePropertyValue (NewUnfoldingReader [92, 110]) = (.ok [10], r')) ∧
    (∃ r', parsePropertyValue (NewUnfoldingReader [92, 59]) = (.ok [92, 59], r')) ∧
    (∃ ln r', parsePropertyValue (NewUnfoldingReader [92, 120]) =
        (.error (.perr ln "cannot be escaped"), r')) := by
  refine ⟨?_, ?_, ?_, ?_, ?_, ?_⟩
  · obtain ⟨r1, h1, hp1⟩ := ppvl_plain [101, 115, 99, 97, 112, 101] []
      (NewUnfoldingReader [101, 115, 99, 97, 112, 101, 92, 58]) [92, 58]
      (by rfl) (by decide)
    obtain ⟨r2, h2, hp2⟩ := ppvl_esc_raw hp1 (by omega) ([] ++ [101, 115, 99, 97, 112, 101])
    refine ⟨r2, ?_⟩
    rw [parsePropertyValue, h1, h2, ppvl_eof hp2]
    rfl
  · obtain ⟨r1, h1, hp1⟩ := ppvl_esc_raw (r := NewUnfoldingReader [92, 44])
      (by rfl) (by omega) []
    refine ⟨r1, ?_⟩
    rw [parsePropertyValue, h1, ppvl_eof hp1]
    rfl
  · obtain ⟨r1, h1, hp1⟩ := ppvl_esc_raw (r := NewUnfoldingReader [92, 92])
      (by rfl) (by omega) []
    refine ⟨r1, ?_⟩
    rw [parsePropertyValue, h1, ppvl_eof hp1]
    rfl
  · obtain ⟨r1, h1, hp1⟩ := ppvl_esc_n (r := NewUnfoldingReader [92, 110])
      (by rfl) []
    refine ⟨r1, ?_⟩
    rw [parsePropertyValue, h1, ppvl_eof hp1]
    rfl
  · obtain ⟨r1, h1, hp1⟩ := ppvl_esc_semi (r := NewUnfoldingReader [92, 59])
      (by rfl) []
    refine ⟨r1, ?_⟩
    rw [parsePropertyValue, h1, ppvl_eof hp1]
    rfl
  · obtain ⟨ln, r1, h1, hp1⟩ := ppvl_esc_bad (r := NewUnfoldingReader [92, 120])
      (by rfl) (by omega) (by omega) (by omega) (by omega) (by omega) []
    exact ⟨ln, r1, by rw [parsePropertyValue, h1]⟩
/-- Bytes of the UTF-8 encoding of a code point other than comma, backslash
and the control characters are plain value bytes. -/
theorem utf8EncodeChar_plain {c : Nat} (h9 : c = 9 ∨ 32 ≤ c) (h44 : c ≠ 44)
    (h92 : c ≠ 92) : ∀ b ∈ utf8EncodeChar c, isValueChar b ∧ b ≠ 92 := by
  intro b hb
  rw [utf8EncodeChar] at hb
  by_cases h1 : c < 128
  · rw [if_pos h1] at hb
    simp at hb
    subst hb
    exact ⟨by simp [isValueChar]; omega, by omega⟩
  · rw [if_neg h1] at hb
    by_cases h2 : c < 2048
    · rw [if_pos h2] at hb
      simp at hb
      rcases hb with rfl | rfl
      · exact ⟨by simp [isValueChar]; omega, by omega⟩
      · exact ⟨by simp [isValueChar]; omega, by omega⟩
    · rw [if_neg h2] at hb
      by_cases h3 : c < 65536
      · rw [if_pos h3] at hb
        simp at hb
        rcases hb with rfl | rfl | rfl
        · exact ⟨by simp [isValueChar]; omega, by omega⟩
        · exact ⟨by simp [isValueChar]; omega, by omega⟩
        · exact ⟨by simp [isValueChar]; omega, by omega⟩
      · rw [if_neg h3] at hb
        simp at hb
        rcases hb with rfl | rfl | rfl | rfl
        · exact ⟨by simp [isValueChar]; omega, by omega⟩
        · exact ⟨by simp [isValueChar]; omega, by omega⟩
        · exact ⟨by simp [isValueChar]; omega, by omega⟩
        · exact ⟨by simp [isValueChar]; omega, by omega⟩

/-- Decoding the final emission of writeValue: with no code point left to
range over, the lagging code point is emitted and decodes to its own UTF-8
bytes. -/
theorem decode_writeValueGo_base (last : Int) (bs : List Nat) (r : UnfoldingReader)
    (hp : r.pending = utf8Encode (writeValueGo last []))
    (hlast : last = 9 ∨ last = 10 ∨
      (32 ≤ last ∧ (last < 55296 ∨ (57344 ≤ last ∧ last ≤ 1114111)))) :
    ∃ r', parsePropertyValueLoop bs r =
      (.ok (bs ++ utf8EncodeChar last.toNat), r') ∧ r'.pending = [] := by
  by_cases h92 : last = 92
  · subst h92
    have he : utf8Encode (writeValueGo 92 []) = [92, 92] := by decide
    rw [he] at hp
    obtain ⟨r1, h1, hp1⟩ := ppvl_esc_raw hp (by omega) bs
    refine ⟨r1, ?_, hp1⟩
    rw [h1, ppvl_eof hp1]
    rfl
  · by_cases h44 : last = 44
    · subst h44
      have he : utf8Encode (writeValueGo 44 []) = [92, 44] := by decide
      rw [he] at hp
      obtain ⟨r1, h1, hp1⟩ := ppvl_esc_raw hp (by omega) bs
      refine ⟨r1, ?_, hp1⟩
      rw [h1, ppvl_eof hp1]
      rfl
    · by_cases h10 : last = 10
      · subst h10
        have he : utf8Encode (writeValueGo 10 []) = [92, 110] := by decide
        rw [he] at hp
        obtain ⟨r1, h1, hp1⟩ := ppvl_esc_n hp bs
        refine ⟨r1, ?_, hp1⟩
        rw [h1, ppvl_eof hp1]
        rfl
      · have hval : (0 ≤ last ∧ last < 55296) ∨ (57344 ≤ last ∧ last ≤ 1114111) := by
          omega
        have he : writeValueGo last [] = [last.toNat] := by
          simp only [writeValueGo]
          rw [if_neg h92, if_neg h44, if_neg h10, fmtChar, if_pos hval]
        rw [he] at hp
        have hp' : r.pending = utf8EncodeChar last.toNat ++ [] := by
          rw [hp]
          simp [utf8Encode]
        obtain ⟨r1, h1, hp1⟩ := ppvl_plain (utf8EncodeChar last.toNat) bs r [] hp'
          (utf8EncodeChar_plain (by omega) (by omega) (by omega))
        refine ⟨r1, ?_, hp1⟩
        rw [h1, ppvl_eof hp1]

/-- The two defining equations of writeValueGo, restated for rewriting. -/
theorem writeValueGo_nil (last : Int) :
    writeValueGo last [] =
      if last = 92 then [92, 92]
      else if last = 44 then [92, 44]
      else if last = 10 then [92, 110]
      else fmtChar last := rfl

theorem writeValueGo_cons (last : Int) (rv : Nat) (rest : List Nat) :
    writeValueGo last (rv :: rest) =
      (if last = -1 then []
       else if last = 92 ∧ (rv : Int) ≠ 59 then [92, 92]
       else if last = 44 then [92, 44]
       else if last = 10 then [92, 110]
       else fmtChar last) ++ writeValueGo (rv : Int) rest := rfl

/-- Running the parsePropertyValue loop over the encoder output reproduces
the UTF-8 bytes of the lagging code point and of the remaining code points.
The induction steps over two code points at once when a backslash is
followed by a semicolon, since the encoder leaves that backslash unescaped
and the parser decodes the resulting two-byte sequence in one step. -/
theorem decode_writeValueGo :
    ∀ (n : Nat) (v : List Nat) (last : Int) (bs : List Nat) (r : UnfoldingReader),
      v.length ≤ n →
      r.pending = utf8Encode (writeValueGo last v) →
      (last = -1 ∨ last = 9 ∨ last = 10 ∨
        (32 ≤ last ∧ (last < 55296 ∨ (57344 ≤ last ∧ last ≤ 1114111)))) →
      (∀ x ∈ v, x = 9 ∨ x = 10 ∨
        (32 ≤ x ∧ (x < 55296 ∨ (57344 ≤ x ∧ x ≤ 1114111)))) →
      ¬(last = -1 ∧ v = []) →
      ∃ r', parsePropertyValueLoop bs r =
        (.ok (bs ++ (if last = -1 then [] else utf8EncodeChar last.toNat) ++
          utf8Encode v), r') ∧ r'.pending = [] := by
  intro n
  induction n with
  | zero =>
    intro v last bs r hlen hp hlast hv hne
    have hv0 : v = [] := by
      cases v with
      | nil => rfl
      | cons a t => simp at hlen
    subst hv0
    have hl : last ≠ -1 := fun h => hne ⟨h, rfl⟩
    have hlast' : last = 9 ∨ last = 10 ∨
        (32 ≤ last ∧ (last < 55296 ∨ (57344 ≤ last ∧ last ≤ 1114111))) := by
      rcases hlast with h | h
      · exact absurd h hl
      · exact h
    obtain ⟨r1, h1, hp1⟩ := decode_writeValueGo_base last bs r hp hlast'
    refine ⟨r1, ?_, hp1⟩
    rw [h1, if_neg hl]
    simp [utf8Encode]
  | succ n ih =>
    intro v last bs r hlen hp hlast hv hne
    cases v with
    | nil =>
      have hl : last ≠ -1 := fun h => hne ⟨h, rfl⟩
      have hlast' : last = 9 ∨ last = 10 ∨
          (32 ≤ last ∧ (last < 55296 ∨ (57344 ≤ last ∧ last ≤ 1114111))) := by
        rcases hlast with h | h
        · exact absurd h hl
        · exact h
      obtain ⟨r1, h1, hp1⟩ := decode_writeValueGo_base last bs r hp hlast'
      refine ⟨r1, ?_, hp1⟩
      rw [h1, if_neg hl]
      simp [utf8Encode]
    | cons rv rest =>
      have hrv : rv = 9 ∨ rv = 10 ∨
          (32 ≤ rv ∧ (rv < 55296 ∨ (57344 ≤ rv ∧ rv ≤ 1114111))) := hv rv (by simp)
      have hrest : ∀ x ∈ rest, x = 9 ∨ x = 10 ∨
          (32 ≤ x ∧ (x < 55296 ∨ (57344 ≤ x ∧ x ≤ 1114111))) :=
        fun x hx => hv x (by simp [hx])
      have hrvlast : ((rv : Int) = -1 ∨ (rv : Int) = 9 ∨ (rv : Int) = 10 ∨
          (32 ≤ (rv : Int) ∧ ((rv : Int) < 55296 ∨
            (57344 ≤ (rv : Int) ∧ (rv : Int) ≤ 1114111)))) := by
        rcases hrv with h | h | h
        · omega
        · omega
        · omega
      have hcast : ((rv : Int)).toNat = rv := Int.toNat_natCast rv
      have hnerv : ¬((rv : Int) = -1 ∧ rest = []) := by
        intro h
        have := h.1
        omega
      have hlen' : rest.length ≤ n := by
        simp at hlen
        omega
      by_cases hm1 : last = -1
      · subst hm1
        have he : writeValueGo (-1) (rv :: rest) = writeValueGo (rv : Int) rest := by
          rw [writeValueGo_cons, if_pos rfl]
          simp
        rw [he] at hp
        obtain ⟨r1, h1, hp1⟩ := ih rest (rv : Int) bs r hlen' hp hrvlast hrest hnerv
        refine ⟨r1, ?_, hp1⟩
        rw [h1, if_pos rfl, if_neg (by omega), utf8Encode_cons, hcast]
        simp
      · have hlast' : last = 9 ∨ last = 10 ∨
            (32 ≤ last ∧ (last < 55296 ∨ (57344 ≤ last ∧ last ≤ 1114111))) := by
          rcases hlast with h | h
          · exact absurd h hm1
          · exact h
        by_cases h92 : last = 92
        · subst h92
          by_cases h59 : rv = 59
          · subst h59
            have he : writeValueGo 92 (59 :: rest) = [92] ++ writeValueGo 59 rest := by
              rw [writeValueGo_cons, if_neg (by norm_num),
                if_neg (by norm_num), if_neg (by norm_num), if_neg (by norm_num)]
              norm_num [fmtChar]
              decide
            rw [he, utf8Encode_append] at hp
            cases rest with
            | nil =>
              have he2 : utf8Encode [92] ++ utf8Encode (writeValueGo 59 []) =
                  92 :: 59 :: [] := by decide
              rw [he2] at hp
              obtain ⟨r1, h1, hp1⟩ := ppvl_esc_semi hp bs
              refine ⟨r1, ?_, hp1⟩
              rw [h1, ppvl_eof hp1, if_neg (by norm_num)]
              have hc92 : utf8EncodeChar ((92 : Int)).toNat = [92] := by decide
              have he59 : utf8Encode [59] = [59] := by decide
              rw [hc92, he59]
              simp
            | cons rv2 rest2 =>
              have hrv2 : rv2 = 9 ∨ rv2 = 10 ∨
                  (32 ≤ rv2 ∧ (rv2 < 55296 ∨ (57344 ≤ rv2 ∧ rv2 ≤ 1114111))) :=
                hrest rv2 (by simp)
              have hrvlast2 : ((rv2 : Int) = -1 ∨ (rv2 : Int) = 9 ∨ (rv2 : Int) = 10 ∨
                  (32 ≤ (rv2 : Int) ∧ ((rv2 : Int) < 55296 ∨
                    (57344 ≤ (rv2 : Int) ∧ (rv2 : Int) ≤ 1114111)))) := by
                rcases hrv2 with h | h | h
                · omega
                · omega
                · omega
              have hcast2 : ((rv2 : Int)).toNat = rv2 := Int.toNat_natCast rv2
              have he3 : writeValueGo 59 (rv2 :: rest2) =
                  [59] ++ writeValueGo (rv2 : Int) rest2 := by
                rw [writeValueGo_cons, if_neg (by norm_num), if_neg (by norm_num),
                  if_neg (by norm_num), if_neg (by norm_num)]
                norm_num [fmtChar]
                decide
              rw [he3, utf8Encode_append] at hp
              have he4 : utf8Encode [92] = [92] := by decide
              have he5 : utf8Encode [59] = [59] := by decide
              rw [he4, he5] at hp
              have hp' : r.pending =
                  92 :: 59 :: utf8Encode (writeValueGo (rv2 : Int) rest2) := by
                rw [hp]
                rfl
              obtain ⟨r1, h1, hp1⟩ := ppvl_esc_semi hp' bs
              obtain ⟨r2, h2, hp2⟩ := ih rest2 (rv2 : Int) (bs ++ [92, 59]) r1
                (by simp at hlen; omega) hp1 hrvlast2
                (fun x hx => hrest x (by simp [hx]))
                (by intro h; have := h.1; omega)
              refine ⟨r2, ?_, hp2⟩
              rw [h1, h2, if_neg (by omega), if_neg (by norm_num), hcast2]
              have hc92 : utf8EncodeChar ((92 : Int)).toNat = [92] := by decide
              rw [hc92, utf8Encode_cons, utf8Encode_cons]
              have hc59 : utf8EncodeChar 59 = [59] := by decide
              rw [hc59]
              simp
          · have hrv59 : ((rv : Int)) ≠ 59 := by omega
            have he : writeValueGo 92 (rv :: rest) =
                [92, 92] ++ writeValueGo (rv : Int) rest := by
              rw [writeValueGo_cons, if_neg (by norm_num), if_pos ⟨rfl, hrv59⟩]
            rw [he, utf8Encode_append] at hp
            have he2 : utf8Encode [92, 92] = [92, 92] := by decide
            rw [he2] at hp
            have hp' : r.pending =
                92 :: 92 :: utf8Encode (writeValueGo (rv : Int) rest) := by
              rw [hp]
              rfl
            obtain ⟨r1, h1, hp1⟩ := ppvl_esc_raw hp' (by omega) bs
            obtain ⟨r2, h2, hp2⟩ := ih rest (rv : Int) (bs ++ [92]) r1
              hlen' hp1 hrvlast hrest hnerv
            refine ⟨r2, ?_, hp2⟩
            rw [h1, h2, if_neg (by omega), if_neg (by norm_num), hcast]
            have hc92 : utf8EncodeChar ((92 : Int)).toNat = [92] := by decide
            rw [hc92, utf8Encode_cons]
            simp
        · by_cases h44 : last = 44
          · subst h44
            have he : writeValueGo 44 (rv :: rest) =
                [92, 44] ++ writeValueGo (rv : Int) rest := by
              rw [writeValueGo_cons, if_neg (by norm_num),
                if_neg (by norm_num [h92]), if_pos rfl]
            rw [he, utf8Encode_append] at hp
            have he2 : utf8Encode [92, 44] = [92, 44] := by decide
            rw [he2] at hp
            have hp' : r.pending =
                92 :: 44 :: utf8Encode (writeValueGo (rv : Int) rest) := by
              rw [hp]
              rfl
            obtain ⟨r1, h1, hp1⟩ := ppvl_esc_raw hp' (by omega) bs
            obtain ⟨r2, h2, hp2⟩ := ih rest (rv : Int) (bs ++ [44]) r1
              hlen' hp1 hrvlast hrest hnerv
            refine ⟨r2, ?_, hp2⟩
            rw [h1, h2, if_neg (by omega), if_neg (by norm_num), hcast]
            have hc44 : utf8EncodeChar ((44 : Int)).toNat = [44] := by decide
            rw [hc44, utf8Encode_cons]
            simp
          · by_cases h10 : last = 10
            · subst h10
              have he : writeValueGo 10 (rv :: rest) =
                  [92, 110] ++ writeValueGo (rv : Int) rest := by
                rw [writeValueGo_cons, if_neg (by norm_num),
                  if_neg (by norm_num), if_neg (by norm_num), if_pos rfl]
              rw [he, utf8Encode_append] at hp
              have he2 : utf8Encode [92, 110] = [92, 110] := by decide
              rw [he2] at hp
              have hp' : r.pending =
                  92 :: 110 :: utf8Encode (writeValueGo (rv : Int) rest) := by
                rw [hp]
                rfl
              obtain ⟨r1, h1, hp1⟩ := ppvl_esc_n hp' bs
              obtain ⟨r2, h2, hp2⟩ := ih rest (rv : Int) (bs ++ [10]) r1
                hlen' hp1 hrvlast hrest hnerv
              refine ⟨r2, ?_, hp2⟩
              rw [h1, h2, if_neg (by omega), if_neg (by norm_num), hcast]
              have hc10 : utf8EncodeChar ((10 : Int)).toNat = [10] := by decide
              rw [hc10, utf8Encode_cons]
              simp
            · have hval : (0 ≤ last ∧ last < 55296) ∨
                  (57344 ≤ last ∧ last ≤ 1114111) := by omega
              have he : writeValueGo last (rv :: rest) =
                  [last.toNat] ++ writeValueGo (rv : Int) rest := by
                rw [writeValueGo_cons, if_neg hm1, if_neg (fun h => h92 h.1),
                  if_neg h44, if_neg h10, fmtChar, if_pos hval]
              rw [he, utf8Encode_append] at hp
              have hp' : r.pending = utf8EncodeChar last.toNat ++
                  utf8Encode (writeValueGo (rv : Int) rest) := by
                rw [hp]
                simp [utf8Encode]
              obtain ⟨r1, h1, hp1⟩ := ppvl_plain (utf8EncodeChar last.toNat) bs r
                (utf8Encode (writeValueGo (rv : Int) rest)) hp'
                (utf8EncodeChar_plain (by omega) (by omega) (by omega))
              obtain ⟨r2, h2, hp2⟩ := ih rest (rv : Int)
                (bs ++ utf8EncodeChar last.toNat) r1 hlen' hp1 hrvlast hrest hnerv
              refine ⟨r2, ?_, hp2⟩
              rw [h1, h2, if_neg (by omega), if_neg hm1, hcast, utf8Encode_cons]
              simp

/-- C3: for every non-empty property value (a string of code points each
of which is a horizontal tab, a newline or a character of at least space,
commas, backslashes and embedded newlines included), decoding the encoding
round-trips: feeding the escaped output of writeValue to parsePropertyValue
yields exactly the original value bytes, the backslash before a semicolon
staying unescaped on encode and the two-byte sequence backslash semicolon
decoding to itself. -/
theorem c3_value_roundtrip (v : List Nat) (hne : v ≠ [])
    (hv : ∀ x ∈ v, x = 9 ∨ x = 10 ∨
      (32 ≤ x ∧ (x < 55296 ∨ (57344 ≤ x ∧ x ≤ 1114111)))) :
    ∃ r', parsePropertyValue (NewUnfoldingReader (utf8Encode (writeValue v))) =
      (.ok (utf8Encode v), r') := by
  obtain ⟨r1, h1, hp1⟩ := decode_writeValueGo v.length v (-1) []
    (NewUnfoldingReader (utf8Encode (writeValue v))) le_rfl
    (by rw [pending_new, writeValue]) (Or.inl rfl) hv
    (by intro h; exact hne h.2)
  refine ⟨r1, ?_⟩
  rw [parsePropertyValue, h1, if_pos rfl]
  simp


theorem c3_value_roundtrip_witness :
    ([92, 59, 44, 10, 9, 97, 12354] : List Nat) ≠ [] ∧
    (∀ x ∈ ([92, 59, 44, 10, 9, 97, 12354] : List Nat), x = 9 ∨ x = 10 ∨
      (32 ≤ x ∧ (x < 55296 ∨ (57344 ≤ x ∧ x ≤ 1114111)))) ∧
    ∃ r', parsePropertyValue
        (NewUnfoldingReader (utf8Encode (writeValue [92, 59, 44, 10, 9, 97, 12354]))) =
      (.ok (utf8Encode [92, 59, 44, 10, 9, 97, 12354]), r') :=
  ⟨by decide, by decide,
    c3_value_roundtrip [92, 59, 44, 10, 9, 97, 12354] (by decide) (by decide)⟩


/-- parsePropertyValues over a single plain value ending at a line
terminator: one value is parsed and the loop stops at the line feed, which
is not a comma. -/
theorem parsePropertyValues_run_crlf {vv : List Nat} {c : Nat} {t : List Nat}
    {r : UnfoldingReader} (hp : r.pending = vv ++ 13 :: 10 :: c :: t)
    (hvv : ∀ b ∈ vv, isValueChar b ∧ b ≠ 92) (hc : ¬(c = 32 ∨ c = 9)) :
    ∃ r', parsePropertyValues r = (.ok [vv], r') ∧ r'.pending = 10 :: c :: t := by
  obtain ⟨r1, h1, hp1⟩ := ppvl_plain vv [] r (13 :: 10 :: c :: t) hp hvv
  obtain ⟨r2, h2, hp2⟩ := ppvl_stop_crlf hp1 hc ([] ++ vv)
  have hv : parsePropertyValue r = (.ok ([] ++ vv), r2) := by
    rw [parsePropertyValue, h1, h2]
  obtain ⟨r3, h3, hp3⟩ := UnfoldingReader.PeekByte_lf_other hp2 hc
  refine ⟨r3, ?_, hp3⟩
  rw [parsePropertyValues]
  split
  · rename_i e ra heq
    rw [heq] at hv
    exact absurd hv (by simp)
  · rename_i v ra heq
    rw [heq] at hv
    simp only [Prod.mk.injEq, Except.ok.injEq] at hv
    obtain ⟨rfl, rfl⟩ := hv
    rw [parsePropertyValuesLoop]
    split
    · rename_i heq2
      rw [heq2] at h3
      exact absurd h3 (by simp)
    · rename_i b1 r3a heq2
      rw [heq2] at h3
      simp only [Option.some.injEq, Prod.mk.injEq] at h3
      obtain ⟨rfl, rfl⟩ := h3
      rw [if_pos (by omega)]
      simp

/-- parsePropertyValues over a single plain value running to end of input. -/
theorem parsePropertyValues_run_eof {vv : List Nat} {r : UnfoldingReader}
    (hp : r.pending = vv) (hvv : ∀ b ∈ vv, isValueChar b ∧ b ≠ 92) :
    ∃ r', parsePropertyValues r = (.ok [vv], r') ∧ r'.pending = [] := by
  obtain ⟨r1, h1, hp1⟩ := ppvl_plain vv [] r [] (by simpa using hp) hvv
  have h2 := ppvl_eof hp1 ([] ++ vv)
  have hv : parsePropertyValue r = (.ok ([] ++ vv), r1) := by
    rw [parsePropertyValue, h1, h2]
  refine ⟨r1, ?_, hp1⟩
  rw [parsePropertyValues]
  split
  · rename_i e ra heq
    rw [heq] at hv
    exact absurd hv (by simp)
  · rename_i v ra heq
    rw [heq] at hv
    simp only [Prod.mk.injEq, Except.ok.injEq] at hv
    obtain ⟨rfl, rfl⟩ := hv
    rw [parsePropertyValuesLoop]
    split
    · simp
    · rename_i b1 r1a heq2
      rw [UnfoldingReader.PeekByte_nil hp1] at heq2
      exact absurd heq2 (by simp)

/-- The colon stage of parseProperty on a colon followed by a plain value
and a line terminator: the values are parsed and the terminating line feed
is consumed. -/
theorem parsePropertyColon_run_crlf {vv : List Nat} {c : Nat} {t : List Nat}
    {r : UnfoldingReader} (hp : r.pending = vv ++ 13 :: 10 :: c :: t)
    (hvv : ∀ b ∈ vv, isValueChar b ∧ b ≠ 92) (hc : ¬(c = 32 ∨ c = 9))
    (name group : List Nat) (params : List (List Nat × List (List Nat))) (line : Nat) :
    ∃ r', parsePropertyColon name group params line 58 r =
      (.ok (name, ⟨group, params, [vv]⟩), r') ∧ r'.pending = c :: t := by
  obtain ⟨r1, h1, hp1⟩ := parsePropertyValues_run_crlf hp hvv hc
  obtain ⟨r2, h2, hp2, hpk2⟩ := UnfoldingReader.ReadByte_lf_other hp1 hc
  refine ⟨r2, ?_, hp2⟩
  rw [parsePropertyColon, if_neg (by omega)]
  split
  · rename_i e ra heq
    rw [heq] at h1
    exact absurd h1 (by simp)
  · rename_i v ra heq
    rw [heq] at h1
    simp only [Prod.mk.injEq, Except.ok.injEq] at h1
    obtain ⟨rfl, rfl⟩ := h1
    split
    · rename_i heq2
      rw [heq2] at h2
      exact absurd h2 (by simp)
    · rename_i b2 r2a heq2
      rw [heq2] at h2
      simp only [Option.some.injEq, Prod.mk.injEq] at h2
      obtain ⟨rfl, rfl⟩ := h2
      rw [if_neg (by omega)]

/-- The colon stage of parseProperty on a colon followed by a plain value
running to end of input: the property ends at EOF. -/
theorem parsePropertyColon_run_eof {vv : List Nat} {r : UnfoldingReader}
    (hp : r.pending = vv) (hvv : ∀ b ∈ vv, isValueChar b ∧ b ≠ 92)
    (name group : List Nat) (params : List (List Nat × List (List Nat))) (line : Nat) :
    ∃ r', parsePropertyColon name group params line 58 r =
      (.ok (name, ⟨group, params, [vv]⟩), r') ∧ r'.pending = [] := by
  obtain ⟨r1, h1, hp1⟩ := parsePropertyValues_run_eof hp hvv
  refine ⟨r1, ?_, hp1⟩
  rw [parsePropertyColon, if_neg (by omega)]
  split
  · rename_i e ra heq
    rw [heq] at h1
    exact absurd h1 (by simp)
  · rename_i v ra heq
    rw [heq] at h1
    simp only [Prod.mk.injEq, Except.ok.injEq] at h1
    obtain ⟨rfl, rfl⟩ := h1
    split
    · rfl
    · rename_i b2 r2a heq2
      rw [UnfoldingReader.ReadByte_nil hp1] at heq2
      exact absurd heq2 (by simp)

/-- The parameter stage of parseProperty is skipped on any byte other than
a semicolon. -/
theorem parsePropertyParams_nosemi (name group : List Nat) (line : Nat) {b : Nat}
    (hb : b ≠ 59) (r : UnfoldingReader) :
    parsePropertyParams name group line b r =
      parsePropertyColon name group [] line b r := by
  rw [parsePropertyParams, if_neg hb]

/-- parseProperty on a groupless, parameterless property line ending in a
line terminator followed by a non-whitespace byte: the upper-cased name and
the single value, with the terminator consumed. -/
theorem parseProperty_run_simple_crlf {nm vv : List Nat} {c : Nat} {t : List Nat}
    {r : UnfoldingReader}
    (hp : r.pending = nm ++ 58 :: (vv ++ 13 :: 10 :: c :: t))
    (hnm : ∀ b ∈ nm, isNameByte b) (hnmne : nm ≠ [])
    (hvv : ∀ b ∈ vv, isValueChar b ∧ b ≠ 92) (hc : ¬(c = 32 ∨ c = 9)) :
    ∃ r', parseProperty r = (.ok (toUpperRunes nm, ⟨[], [], [vv]⟩), r') ∧
      r'.pending = c :: t := by
  obtain ⟨r1, h1, hp1⟩ := parseName_run "expected property name" hp hnm
    (by decide) (by omega) (by omega) hnmne
  obtain ⟨r2, h2, hp2⟩ := demandByte_other hp1 (by omega) (by omega)
  obtain ⟨r3, h3, hp3⟩ := parsePropertyColon_run_crlf hp2 hvv hc
    (toUpperRunes nm) [] [] r1.line
  refine ⟨r3, ?_, hp3⟩
  rw [parseProperty]
  split
  · rename_i e ra heq
    rw [heq] at h1
    exact absurd h1 (by simp)
  · rename_i nma r1a heq
    rw [heq] at h1
    simp only [Prod.mk.injEq, Except.ok.injEq] at h1
    obtain ⟨rfl, rfl⟩ := h1
    split
    · rename_i e ra heq2
      rw [heq2] at h2
      exact absurd h2 (by simp)
    · rename_i ba r2a heq2
      rw [heq2] at h2
      simp only [Prod.mk.injEq, Except.ok.injEq] at h2
      obtain ⟨rfl, rfl⟩ := h2
      rw [if_neg (by omega), parsePropertyParams_nosemi _ _ _ (by omega), h3]

/-- parseProperty on a groupless, parameterless property line running to
end of input. -/
theorem parseProperty_run_simple_eof {nm vv : List Nat} {r : UnfoldingReader}
    (hp : r.pending = nm ++ 58 :: vv)
    (hnm : ∀ b ∈ nm, isNameByte b) (hnmne : nm ≠ [])
    (hvv : ∀ b ∈ vv, isValueChar b ∧ b ≠ 92) :
    ∃ r', parseProperty r = (.ok (toUpperRunes nm, ⟨[], [], [vv]⟩), r') ∧
      r'.pending = [] := by
  obtain ⟨r1, h1, hp1⟩ := parseName_run "expected property name" hp hnm
    (by decide) (by omega) (by omega) hnmne
  obtain ⟨r2, h2, hp2⟩ := demandByte_other hp1 (by omega) (by omega)
  obtain ⟨r3, h3, hp3⟩ := parsePropertyColon_run_eof hp2 hvv
    (toUpperRunes nm) [] [] r1.line
  refine ⟨r3, ?_, hp3⟩
  rw [parseProperty]
  split
  · rename_i e ra heq
    rw [heq] at h1
    exact absurd h1 (by simp)
  · rename_i nma r1a heq
    rw [heq] at h1
    simp only [Prod.mk.injEq, Except.ok.injEq] at h1
    obtain ⟨rfl, rfl⟩ := h1
    split
    · rename_i e ra heq2
      rw [heq2] at h2
      exact absurd h2 (by simp)
    · rename_i ba r2a heq2
      rw [heq2] at h2
      simp only [Prod.mk.injEq, Except.ok.injEq] at h2
      obtain ⟨rfl, rfl⟩ := h2
      rw [if_neg (by omega), parsePropertyParams_nosemi _ _ _ (by omega), h3]


/-- Next on the stream PROP:VALUE, then a line terminator, then END:VCARD:
the first property is not a BEGIN marker, so Next fails on line 1 with
expected beginning of card. -/
theorem Next_run_prop_first :
    ∃ r', Next (NewUnfoldingReader
        [80, 82, 79, 80, 58, 86, 65, 76, 85, 69, 13, 10,
         69, 78, 68, 58, 86, 67, 65, 82, 68]) =
      (.error (.perr 1 "expected beginning of card"), r') := by
  have hp : (NewUnfoldingReader
      [80, 82, 79, 80, 58, 86, 65, 76, 85, 69, 13, 10,
       69, 78, 68, 58, 86, 67, 65, 82, 68]).pending =
      [80, 82, 79, 80] ++ 58 :: ([86, 65, 76, 85, 69] ++ 13 :: 10 :: 69 ::
        [78, 68, 58, 86, 67, 65, 82, 68]) := rfl
  obtain ⟨r1, h1, hp1⟩ := parseProperty_run_simple_crlf hp (by decide) (by decide)
    (by decide) (by decide)
  refine ⟨r1, ?_⟩
  rw [Next]
  split
  · rename_i e ra heq
    rw [heq] at h1
    exact absurd h1 (by simp)
  · rename_i name prop r1a heq
    rw [heq] at h1
    simp only [Prod.mk.injEq, Except.ok.injEq] at h1
    obtain ⟨⟨rfl, rfl⟩, rfl⟩ := h1
    rw [if_neg (by decide)]
    rfl

/-- The sequence of cards Next yields from a starting reader state, with
the state it leaves behind. -/
inductive NextSeq : UnfoldingReader → List Card → UnfoldingReader → Prop where
  | nil (r : UnfoldingReader) : NextSeq r [] r
  | cons {r r1 r2 : UnfoldingReader} {c : Card} {cs : List Card} :
      Next r = (.ok c, r1) → NextSeq r1 cs r2 → NextSeq r (c :: cs) r2

/-- The ParseAll loop first accumulates every card of a Next sequence and
then, when Next fails with an error other than end of input, returns the
accumulated cards alongside that error. -/
theorem ParseAllLoop_seq {r r2 : UnfoldingReader} {cs : List Card}
    (hseq : NextSeq r cs r2) :
    ∀ {e : PErr} {r3 : UnfoldingReader}, Next r2 = (.error e, r3) → e ≠ .eof →
    ∀ acc, ParseAllLoop acc r = (acc ++ cs, some e) := by
  induction hseq with
  | nil r =>
    intro e r3 herr hne acc
    rw [ParseAllLoop]
    split
    · rename_i ra heq
      rw [heq] at herr
      simp only [Prod.mk.injEq, Except.error.injEq] at herr
      exact absurd herr.1.symm hne
    · rename_i e1 ra hne1 heq
      rw [heq] at herr
      simp only [Prod.mk.injEq, Except.error.injEq] at herr
      obtain ⟨rfl, rfl⟩ := herr
      simp
    · rename_i card r1a heq
      rw [heq] at herr
      exact absurd herr (by simp)
  | cons hnext hseq2 ih =>
    intro e r3 herr hne acc
    rw [ParseAllLoop]
    split
    · rename_i ra heq
      rw [heq] at hnext
      exact absurd hnext (by simp)
    · rename_i e1 ra hne1 heq
      rw [heq] at hnext
      exact absurd hnext (by simp)
    · rename_i card r1a heq
      rw [heq] at hnext
      simp only [Prod.mk.injEq, Except.ok.injEq] at hnext
      obtain ⟨rfl, rfl⟩ := hnext
      rw [ih herr hne (acc ++ [card])]
      simp

/-- C9: for every input on which Next first yields a sequence of cards and
then fails with an error other than end of input, ParseAll returns exactly
those cards, in order, together with that error: records parsed before the
failure point are never discarded. The witness instantiates the theorem on
the input PROP:VALUE, line terminator, END:VCARD, whose first Next call
fails at once, so ParseAll yields no cards and the error expected beginning
of card on line 1. -/
theorem c9_parseall_preserves_prefix (s : List Nat) (cs : List Card)
    (r2 r3 : UnfoldingReader) (e : PErr)
    (hseq : NextSeq (NewUnfoldingReader s) cs r2)
    (herr : Next r2 = (.error e, r3)) (hne : e ≠ .eof) :
    ParseAll s = (cs, some e) := by
  rw [ParseAll, ParseAllLoop_seq hseq herr hne []]
  simp

theorem c9_parseall_preserves_prefix_witness :
    ParseAll [80, 82, 79, 80, 58, 86, 65, 76, 85, 69, 13, 10,
        69, 78, 68, 58, 86, 67, 65, 82, 68] =
      ([], some (.perr 1 "expected beginning of card")) := by
  obtain ⟨r3, h⟩ := Next_run_prop_first
  exact c9_parseall_preserves_prefix _ [] _ r3 _ (NextSeq.nil _) h (by simp)


/-- C10 (implicit): a property occurrence whose values list is the single
empty string never serializes to a bare NAME: line: writeValue on the empty
string emits exactly one U+FFFD replacement character (the %c rendering of
the sentinel rune(-1), code point 65533) rather than zero bytes, so the
serialized line is the name, a colon, the replacement character and the
newline, and parsing the serialized value back yields a non-empty value:
the empty value does not survive a serialize-then-parse round trip. -/
theorem c10_empty_value_replacement :
    writeValue [] = [65533] ∧
    writeValues [[]] = [65533] ∧
    (∀ name : List Nat, propLine name ⟨[], [], [[]]⟩ = name ++ [58, 65533, 10]) ∧
    (∀ name : List Nat, propLine name ⟨[], [], [[]]⟩ ≠ name ++ [58, 10]) ∧
    (∃ r' v, parsePropertyValue (NewUnfoldingReader (utf8Encode (writeValue []))) =
      (.ok v, r') ∧ v ≠ []) := by
  refine ⟨by decide, by decide, propLine_empty_value, ?_, ?_⟩
  · intro name h
    rw [propLine_empty_value] at h
    simp at h
  · have hp : (NewUnfoldingReader (utf8Encode (writeValue []))).pending =
        [239, 191, 189] ++ [] := by decide
    obtain ⟨r1, h1, hp1⟩ := ppvl_plain [239, 191, 189] []
      (NewUnfoldingReader (utf8Encode (writeValue []))) [] hp (by decide)
    refine ⟨r1, [] ++ [239, 191, 189], ?_, by simp⟩
    rw [parsePropertyValue, h1, ppvl_eof hp1]


theorem toUpperRunes_idem (s : List Nat) :
    toUpperRunes (toUpperRunes s) = toUpperRunes s := by
  simp only [toUpperRunes, List.map_map]
  apply List.map_congr_left
  intro b hb
  simp only [Function.comp]
  by_cases h : 97 ≤ b ∧ b ≤ 122
  · rw [if_pos h, if_neg (by omega)]
  · rw [if_neg h, if_neg h]

theorem isSafeChar_facts {b : Nat} (h : isSafeChar b) :
    b ≠ 13 ∧ b ≠ 10 ∧ b ≠ 34 := by
  simp [isSafeChar] at h
  omega

/-- Running the unquoted-parameter-value loop over a maximal run of safe
bytes followed by a stop byte: the bytes are accumulated verbatim and no
error is reported. -/
theorem parseUnquotedParameterValueLoop_run :
    ∀ (pv bs : List Nat) (r : UnfoldingReader) (s : Nat) (t : List Nat),
      r.pending = pv ++ s :: t → (∀ b ∈ pv, isSafeChar b) →
      ¬isSafeChar s → s ≠ 13 → s ≠ 10 →
      ∃ r', parseUnquotedParameterValueLoop bs r = ((bs ++ pv, none), r') ∧
        r'.pending = s :: t := by
  intro pv
  induction pv with
  | nil =>
    intro bs r s t hp hpv hs h13 h10
    obtain ⟨r1, hpk, hp1⟩ := UnfoldingReader.PeekByte_other (by simpa using hp) h13 h10
    refine ⟨r1, ?_, hp1⟩
    rw [parseUnquotedParameterValueLoop]
    split
    · rename_i heq
      rw [heq] at hpk
      exact absurd hpk (by simp)
    · rename_i b1 r1a heq
      rw [heq] at hpk
      simp only [Option.some.injEq, Prod.mk.injEq] at hpk
      obtain ⟨rfl, rfl⟩ := hpk
      rw [if_neg (by simpa using hs)]
      simp
  | cons b pv ih =>
    intro bs r s t hp hpv hs h13 h10
    have hb : isSafeChar b := hpv b (by simp)
    obtain ⟨hb13, hb10, _⟩ := isSafeChar_facts hb
    obtain ⟨r1, hpk, hp1⟩ := UnfoldingReader.PeekByte_other (by simpa using hp) hb13 hb10
    obtain ⟨r2, hrb, hp2, hpk2⟩ := UnfoldingReader.ReadByte_other hp1 hb13 hb10
    obtain ⟨r3, hrun, hp3⟩ := ih (bs ++ [b]) r2 s t (by simpa using hp2)
      (fun x hx => hpv x (by simp [hx])) hs h13 h10
    refine ⟨r3, ?_, hp3⟩
    rw [parseUnquotedParameterValueLoop]
    split
    · rename_i heq
      rw [heq] at hpk
      exact absurd hpk (by simp)
    · rename_i b1 r1a heq
      rw [heq] at hpk
      simp only [Option.some.injEq, Prod.mk.injEq] at hpk
      obtain ⟨rfl, rfl⟩ := hpk
      rw [if_pos hb]
      split
      · rename_i heq2
        rw [heq2] at hrb
        exact absurd hrb (by simp)
      · rename_i b2 r2a heq2
        rw [heq2] at hrb
        simp only [Option.some.injEq, Prod.mk.injEq] at hrb
        obtain ⟨rfl, rfl⟩ := hrb
        rw [hrun]
        simp

/-- parseParameterValue over an unquoted run of safe bytes ending before a
stop byte that is not a quote. -/
theorem parseParameterValue_run {pv : List Nat} {s : Nat} {t : List Nat}
    {r : UnfoldingReader} (hp : r.pending = pv ++ s :: t)
    (hpv : ∀ b ∈ pv, isSafeChar b) (hs : ¬isSafeChar s) (h13 : s ≠ 13)
    (h10 : s ≠ 10) (h34 : s ≠ 34) :
    ∃ r', parseParameterValue r = ((pv, none), r') ∧ r'.pending = s :: t := by
  cases pv with
  | nil =>
    obtain ⟨r1, hpk, hp1⟩ := UnfoldingReader.PeekByte_other (by simpa using hp) h13 h10
    obtain ⟨r2, hrun, hp2⟩ := parseUnquotedParameterValueLoop_run [] [] r1 s t hp1
      (by simp) hs h13 h10
    refine ⟨r2, ?_, hp2⟩
    rw [parseParameterValue]
    split
    · rename_i heq
      rw [heq] at hpk
      exact absurd hpk (by simp)
    · rename_i b1 r1a heq
      rw [heq] at hpk
      simp only [Option.some.injEq, Prod.mk.injEq] at hpk
      obtain ⟨rfl, rfl⟩ := hpk
      rw [if_neg h34, parseUnquotedParameterValue, hrun]
      rfl
  | cons b pv' =>
    have hb : isSafeChar b := hpv b (by simp)
    obtain ⟨hb13, hb10, hb34⟩ := isSafeChar_facts hb
    obtain ⟨r1, hpk, hp1⟩ := UnfoldingReader.PeekByte_other (by simpa using hp) hb13 hb10
    obtain ⟨r2, hrun, hp2⟩ := parseUnquotedParameterValueLoop_run (b :: pv') [] r1 s t
      (by simpa using hp1) hpv hs h13 h10
    refine ⟨r2, ?_, hp2⟩
    rw [parseParameterValue]
    split
    · rename_i heq
      rw [heq] at hpk
      exact absurd hpk (by simp)
    · rename_i b1 r1a heq
      rw [heq] at hpk
      simp only [Option.some.injEq, Prod.mk.injEq] at hpk
      obtain ⟨rfl, rfl⟩ := hpk
      rw [if_neg hb34, parseUnquotedParameterValue, hrun]
      simp

/-- parseParameter over a name, an equals sign and one unquoted value
stopping before a colon: the key is upper-cased, the value kept verbatim. -/
theorem parseParameter_run {kk pv : List Nat} {t : List Nat} {r : UnfoldingReader}
    (hp : r.pending = kk ++ 61 :: (pv ++ 58 :: t))
    (hkk : ∀ b ∈ kk, isNameByte b) (hkkne : kk ≠ [])
    (hpv : ∀ b ∈ pv, isSafeChar b) :
    ∃ r', parseParameter r = (.ok (toUpperRunes kk, [pv]), r') ∧
      r'.pending = 58 :: t := by
  obtain ⟨r1, h1, hp1⟩ := parseName_run "expected parameter name" hp hkk
    (by decide) (by omega) (by omega) hkkne
  obtain ⟨r2, h2, hp2, hpk2⟩ := UnfoldingReader.ReadByte_other hp1 (by omega) (by omega)
  obtain ⟨r3, h3, hp3⟩ := parseParameterValue_run hp2 hpv (by decide)
    (by omega) (by omega) (by omega)
  obtain ⟨r4, hpk4, hp4⟩ := UnfoldingReader.PeekByte_other hp3 (by omega) (by omega)
  refine ⟨r4, ?_, hp4⟩
  rw [parseParameter]
  split
  · rename_i e ra heq
    rw [heq] at h1
    exact absurd h1 (by simp)
  · rename_i key r1a heq
    rw [heq] at h1
    simp only [Prod.mk.injEq, Except.ok.injEq] at h1
    obtain ⟨rfl, rfl⟩ := h1
    split
    · rename_i heq2
      rw [heq2] at h2
      exact absurd h2 (by simp)
    · rename_i b2 r2a heq2
      rw [heq2] at h2
      simp only [Option.some.injEq, Prod.mk.injEq] at h2
      obtain ⟨rfl, rfl⟩ := h2
      rw [if_neg (by omega)]
      split
      · rename_i v e r3a heq3
        rw [heq3] at h3
        exact absurd h3 (by simp)
      · rename_i v r3a heq3
        rw [heq3] at h3
        simp only [Prod.mk.injEq] at h3
        obtain ⟨⟨rfl, _⟩, rfl⟩ := h3
        rw [parseParameterValsLoop]
        split
        · rename_i heq4
          rw [heq4] at hpk4
          exact absurd hpk4 (by simp)
        · rename_i b4 r4a heq4
          rw [heq4] at hpk4
          simp only [Option.some.injEq, Prod.mk.injEq] at hpk4
          obtain ⟨rfl, rfl⟩ := hpk4
          rw [if_pos (by omega)]
          rw [toUpperRunes_idem]
          simp

/-- parseParameters over a single parameter stopping before a colon. -/
theorem parseParameters_run {kk pv : List Nat} {t : List Nat} {r : UnfoldingReader}
    (hp : r.pending = kk ++ 61 :: (pv ++ 58 :: t))
    (hkk : ∀ b ∈ kk, isNameByte b) (hkkne : kk ≠ [])
    (hpv : ∀ b ∈ pv, isSafeChar b) :
    ∃ r', parseParameters r = (.ok [(toUpperRunes kk, [pv])], r') ∧
      r'.pending = 58 :: t := by
  obtain ⟨r1, h1, hp1⟩ := parseParameter_run hp hkk hkkne hpv
  obtain ⟨r2, hpk2, hp2⟩ := UnfoldingReader.PeekByte_other hp1 (by omega) (by omega)
  refine ⟨r2, ?_, hp2⟩
  rw [parseParameters]
  split
  · rename_i e ra heq
    rw [heq] at h1
    exact absurd h1 (by simp)
  · rename_i k v r1a heq
    rw [heq] at h1
    simp only [Prod.mk.injEq, Except.ok.injEq] at h1
    obtain ⟨⟨rfl, rfl⟩, rfl⟩ := h1
    rw [parseParametersLoop]
    split
    · rename_i params2 heq2
      simp only [Prod.mk.injEq] at heq2
      rw [heq2.2] at hpk2
      exact absurd hpk2 (by simp)
    · rename_i params2 b2 r2a heq2
      simp only [Prod.mk.injEq] at heq2
      obtain ⟨hpar, hpk⟩ := heq2
      rw [hpk] at hpk2
      simp only [Option.some.injEq, Prod.mk.injEq] at hpk2
      obtain ⟨rfl, rfl⟩ := hpk2
      rw [if_pos (by omega)]
      rw [← hpar]
      simp [addParam]


/-- parseProperty on a property line with a group, one parameter and one
value, ending in a line terminator followed by a non-whitespace byte: the
group, name and parameter key are upper-cased, the parameter value and the
property value kept verbatim. -/
theorem parseProperty_run_grouped {gg nn kk pv vv : List Nat} {c : Nat}
    {t : List Nat} {r : UnfoldingReader}
    (hp : r.pending = gg ++ 46 :: (nn ++ 59 :: (kk ++ 61 ::
      (pv ++ 58 :: (vv ++ 13 :: 10 :: c :: t)))))
    (hgg : ∀ b ∈ gg, isNameByte b) (hggne : gg ≠ [])
    (hnn : ∀ b ∈ nn, isNameByte b) (hnnne : nn ≠ [])
    (hkk : ∀ b ∈ kk, isNameByte b) (hkkne : kk ≠ [])
    (hpv : ∀ b ∈ pv, isSafeChar b)
    (hvv : ∀ b ∈ vv, isValueChar b ∧ b ≠ 92) (hc : ¬(c = 32 ∨ c = 9)) :
    ∃ r', parseProperty r = (.ok (toUpperRunes nn,
      ⟨toUpperRunes gg, [(toUpperRunes kk, [pv])], [vv]⟩), r') ∧
      r'.pending = c :: t := by
  obtain ⟨r1, h1, hp1⟩ := parseName_run "expected property name" hp hgg
    (by decide) (by omega) (by omega) hggne
  obtain ⟨r2, h2, hp2⟩ := demandByte_other hp1 (by omega) (by omega)
  obtain ⟨r3, h3, hp3⟩ := parseName_run "expected property name" hp2 hnn
    (by decide) (by omega) (by omega) hnnne
  obtain ⟨r4, h4, hp4⟩ := demandByte_other hp3 (by omega) (by omega)
  obtain ⟨r5, h5, hp5⟩ := parseParameters_run hp4 hkk hkkne hpv
  obtain ⟨r6, h6, hp6⟩ := demandByte_other hp5 (by omega) (by omega)
  obtain ⟨r7, h7, hp7⟩ := parsePropertyColon_run_crlf hp6 hvv hc
    (toUpperRunes nn) (toUpperRunes gg) [(toUpperRunes kk, [pv])] r5.line
  refine ⟨r7, ?_, hp7⟩
  rw [parseProperty]
  split
  · rename_i e ra heq
    rw [heq] at h1
    exact absurd h1 (by simp)
  · rename_i nma r1a heq
    rw [heq] at h1
    simp only [Prod.mk.injEq, Except.ok.injEq] at h1
    obtain ⟨rfl, rfl⟩ := h1
    split
    · rename_i e ra heq2
      rw [heq2] at h2
      exact absurd h2 (by simp)
    · rename_i ba r2a heq2
      rw [heq2] at h2
      simp only [Prod.mk.injEq, Except.ok.injEq] at h2
      obtain ⟨rfl, rfl⟩ := h2
      rw [if_pos rfl]
      split
      · rename_i e ra heq3
        rw [heq3] at h3
        exact absurd h3 (by simp)
      · rename_i nm2a r3a heq3
        rw [heq3] at h3
        simp only [Prod.mk.injEq, Except.ok.injEq] at h3
        obtain ⟨rfl, rfl⟩ := h3
        split
        · rename_i e ra heq4
          rw [heq4] at h4
          exact absurd h4 (by simp)
        · rename_i b4a r4a heq4
          rw [heq4] at h4
          simp only [Prod.mk.injEq, Except.ok.injEq] at h4
          obtain ⟨rfl, rfl⟩ := h4
          rw [parsePropertyParams, if_pos rfl]
          split
          · rename_i e ra heq5
            rw [heq5] at h5
            exact absurd h5 (by simp)
          · rename_i params r5a heq5
            rw [heq5] at h5
            simp only [Prod.mk.injEq, Except.ok.injEq] at h5
            obtain ⟨rfl, rfl⟩ := h5
            split
            · rename_i e ra heq6
              rw [heq6] at h6
              exact absurd h6 (by simp)
            · rename_i b6a r6a heq6
              rw [heq6] at h6
              simp only [Prod.mk.injEq, Except.ok.injEq] at h6
              obtain ⟨rfl, rfl⟩ := h6
              exact h7


/-- Next on a complete single-property record: a BEGIN marker line, one
property line with group, parameter and value, and an END marker line, each
name written in arbitrary case. The resulting card stores the upper-cased
property name, the upper-cased group, the upper-cased parameter key, and
the parameter value and property value exactly as written. -/
theorem Next_run_single_grouped_prop
    {bb vc gg nn kk pv vv ee vc2 : List Nat}
    (hbb : ∀ b ∈ bb, isNameByte b) (hbbne : bb ≠ [])
    (hbbU : toUpperRunes bb = strBEGIN)
    (hvc : ∀ b ∈ vc, isValueChar b ∧ b ≠ 92) (hvcU : toUpperRunes vc = strVCARD)
    (hgg : ∀ b ∈ gg, isNameByte b) (hggne : gg ≠ [])
    (hnn : ∀ b ∈ nn, isNameByte b) (hnnne : nn ≠ [])
    (hnnE : toUpperRunes nn ≠ strEND)
    (hkk : ∀ b ∈ kk, isNameByte b) (hkkne : kk ≠ [])
    (hpv : ∀ b ∈ pv, isSafeChar b)
    (hvv : ∀ b ∈ vv, isValueChar b ∧ b ≠ 92)
    (hee : ∀ b ∈ ee, isNameByte b) (heene : ee ≠ [])
    (heeU : toUpperRunes ee = strEND)
    (hvc2 : ∀ b ∈ vc2, isValueChar b ∧ b ≠ 92) (hvc2U : toUpperRunes vc2 = strVCARD) :
    ∃ r', Next (NewUnfoldingReader (bb ++ 58 :: (vc ++ 13 :: 10 ::
        (gg ++ 46 :: (nn ++ 59 :: (kk ++ 61 :: (pv ++ 58 :: (vv ++ 13 :: 10 ::
        (ee ++ 58 :: vc2))))))))) =
      (.ok ⟨[(toUpperRunes nn,
        [⟨toUpperRunes gg, [(toUpperRunes kk, [pv])], [vv]⟩])]⟩, r') := by
  obtain ⟨g0, gg', rfl⟩ : ∃ g0 gg', gg = g0 :: gg' := by
    cases gg with
    | nil => exact absurd rfl hggne
    | cons a b => exact ⟨a, b, rfl⟩
  obtain ⟨e0, ee', rfl⟩ : ∃ e0 ee', ee = e0 :: ee' := by
    cases ee with
    | nil => exact absurd rfl heene
    | cons a b => exact ⟨a, b, rfl⟩
  obtain ⟨hg13, hg10, hgws⟩ := isNameByte_facts (hgg g0 (by simp))
  obtain ⟨he13, he10, hews⟩ := isNameByte_facts (hee e0 (by simp))
  have hp0 : (NewUnfoldingReader (bb ++ 58 :: (vc ++ 13 :: 10 ::
      ((g0 :: gg') ++ 46 :: (nn ++ 59 :: (kk ++ 61 :: (pv ++ 58 :: (vv ++ 13 :: 10 ::
      ((e0 :: ee') ++ 58 :: vc2))))))))).pending =
      bb ++ 58 :: (vc ++ 13 :: 10 :: g0 :: (gg' ++ 46 :: (nn ++ 59 :: (kk ++ 61 ::
        (pv ++ 58 :: (vv ++ 13 :: 10 :: e0 :: (ee' ++ 58 :: vc2))))))) := by
    rw [pending_new]
    simp
  obtain ⟨rA, hA, hpA⟩ := parseProperty_run_simple_crlf hp0 hbb hbbne hvc hgws
  have hpA2 : rA.pending = (g0 :: gg') ++ 46 :: (nn ++ 59 :: (kk ++ 61 ::
      (pv ++ 58 :: (vv ++ 13 :: 10 :: e0 :: (ee' ++ 58 :: vc2))))) := by
    rw [hpA]
    simp
  obtain ⟨rB, hB, hpB⟩ := parseProperty_run_grouped hpA2 hgg hggne hnn hnnne
    hkk hkkne hpv hvv hews
  have hpB2 : rB.pending = (e0 :: ee') ++ 58 :: vc2 := by
    rw [hpB]
    simp
  obtain ⟨rC, hC, hpC⟩ := parseProperty_run_simple_eof hpB2 hee heene hvc2
  refine ⟨rC, ?_⟩
  rw [Next]
  split
  · rename_i e ra heq
    rw [heq] at hA
    exact absurd hA (by simp)
  · rename_i name prop rAa heq
    rw [heq] at hA
    simp only [Prod.mk.injEq, Except.ok.injEq] at hA
    obtain ⟨⟨rfl, rfl⟩, rfl⟩ := hA
    rw [if_pos ⟨hbbU, by simp [isVCardMarkerProp, hvcU]⟩]
    rw [NextLoop]
    split
    · rename_i ra heq2
      rw [heq2] at hB
      exact absurd hB (by simp)
    · rename_i e ra hne2 heq2
      rw [heq2] at hB
      exact absurd hB (by simp)
    · rename_i name2 prop2 rBa heq2
      rw [heq2] at hB
      simp only [Prod.mk.injEq, Except.ok.injEq] at hB
      obtain ⟨⟨rfl, rfl⟩, rfl⟩ := hB
      rw [if_neg hnnE]
      rw [NextLoop]
      split
      · rename_i ra heq3
        rw [heq3] at hC
        exact absurd hC (by simp)
      · rename_i e ra hne3 heq3
        rw [heq3] at hC
        exact absurd hC (by simp)
      · rename_i name3 prop3 rCa heq3
        rw [heq3] at hC
        simp only [Prod.mk.injEq, Except.ok.injEq] at hC
        obtain ⟨⟨rfl, rfl⟩, rfl⟩ := hC
        rw [if_pos heeU, if_pos (by simp [isVCardMarkerProp, hvc2U])]
        simp [assocAppend]


theorem toUpperRunes_ne_nil {s : List Nat} (h : s ≠ []) : toUpperRunes s ≠ [] := by
  simp [toUpperRunes, h]

theorem toUpperRunes_nameBytes {s : List Nat} (h : ∀ b ∈ s, isNameByte b) :
    ∀ b ∈ toUpperRunes s, isNameByte b := by
  intro b hb
  simp only [toUpperRunes, List.mem_map] at hb
  obtain ⟨a, ha, rfl⟩ := hb
  have := h a ha
  simp [isNameByte] at this
  by_cases hc : 97 ≤ a ∧ a ≤ 122
  · rw [if_pos hc]
    simp [isNameByte]
    omega
  · rw [if_neg hc]
    simp [isNameByte]
    omega

theorem toUpperRunes_valueBytes {s : List Nat} (h : ∀ b ∈ s, isValueChar b ∧ b ≠ 92) :
    ∀ b ∈ toUpperRunes s, isValueChar b ∧ b ≠ 92 := by
  intro b hb
  simp only [toUpperRunes, List.mem_map] at hb
  obtain ⟨a, ha, rfl⟩ := hb
  obtain ⟨h1, h2⟩ := h a ha
  simp [isValueChar] at h1
  by_cases hc : 97 ≤ a ∧ a ≤ 122
  · rw [if_pos hc]
    refine ⟨by simp [isValueChar]; omega, by omega⟩
  · rw [if_neg hc]
    refine ⟨by simp [isValueChar]; omega, by omega⟩

/-- C5 counterexample: parsing the record BEGIN:VCARD, then
group.PROP;KEY=x:v, then END:VCARD stores the group as GROUP, upper-cased,
not exactly as the input wrote it (group, lower-case): the claim that the
group name is stored exactly as written fails. -/
theorem c5_group_not_verbatim :
    (∃ r', Next (NewUnfoldingReader
        ([66, 69, 71, 73, 78] ++ 58 :: ([86, 67, 65, 82, 68] ++ 13 :: 10 ::
          ([103, 114, 111, 117, 112] ++ 46 :: ([80, 82, 79, 80] ++ 59 ::
            ([75, 69, 89] ++ 61 :: ([120] ++ 58 :: ([118] ++ 13 :: 10 ::
              ([69, 78, 68] ++ 58 :: [86, 67, 65, 82, 68]))))))))) =
      (.ok ⟨[([80, 82, 79, 80],
        [⟨[71, 82, 79, 85, 80], [([75, 69, 89], [[120]])], [[118]]⟩])]⟩, r')) ∧
    ([71, 82, 79, 85, 80] : List Nat) ≠ [103, 114, 111, 117, 112] := by
  constructor
  · obtain ⟨r', h⟩ := @Next_run_single_grouped_prop [66, 69, 71, 73, 78]
      [86, 67, 65, 82, 68] [103, 114, 111, 117, 112] [80, 82, 79, 80]
      [75, 69, 89] [120] [118] [69, 78, 68] [86, 67, 65, 82, 68]
      (by decide) (by decide) (by decide) (by decide) (by decide) (by decide)
      (by decide) (by decide) (by decide) (by decide) (by decide) (by decide)
      (by decide) (by decide) (by decide) (by decide) (by decide) (by decide)
      (by decide)
    exact ⟨r', h⟩
  · decide

/-- C5 (amended): parsing a single-property record whose BEGIN and END
markers, VCARD values, group, property name and parameter key are written
in arbitrary letter case yields the same Card as parsing the all-uppercase
equivalent of the stream; the property name, the parameter key AND the
group are stored upper-cased, while the parameter value and the property
value are stored exactly as written. -/
theorem c5_case_insensitive_group_uppercased
    (bb vc gg nn kk pv vv ee vc2 : List Nat)
    (hbb : ∀ b ∈ bb, isNameByte b) (hbbne : bb ≠ [])
    (hbbU : toUpperRunes bb = strBEGIN)
    (hvc : ∀ b ∈ vc, isValueChar b ∧ b ≠ 92) (hvcU : toUpperRunes vc = strVCARD)
    (hgg : ∀ b ∈ gg, isNameByte b) (hggne : gg ≠ [])
    (hnn : ∀ b ∈ nn, isNameByte b) (hnnne : nn ≠ [])
    (hnnE : toUpperRunes nn ≠ strEND)
    (hkk : ∀ b ∈ kk, isNameByte b) (hkkne : kk ≠ [])
    (hpv : ∀ b ∈ pv, isSafeChar b)
    (hvv : ∀ b ∈ vv, isValueChar b ∧ b ≠ 92)
    (hee : ∀ b ∈ ee, isNameByte b) (heene : ee ≠ [])
    (heeU : toUpperRunes ee = strEND)
    (hvc2 : ∀ b ∈ vc2, isValueChar b ∧ b ≠ 92) (hvc2U : toUpperRunes vc2 = strVCARD) :
    (∃ r', Next (NewUnfoldingReader (bb ++ 58 :: (vc ++ 13 :: 10 ::
        (gg ++ 46 :: (nn ++ 59 :: (kk ++ 61 :: (pv ++ 58 :: (vv ++ 13 :: 10 ::
        (ee ++ 58 :: vc2))))))))) =
      (.ok ⟨[(toUpperRunes nn,
        [⟨toUpperRunes gg, [(toUpperRunes kk, [pv])], [vv]⟩])]⟩, r')) ∧
    (∃ r', Next (NewUnfoldingReader (toUpperRunes bb ++ 58 :: (toUpperRunes vc ++
        13 :: 10 :: (toUpperRunes gg ++ 46 :: (toUpperRunes nn ++ 59 ::
        (toUpperRunes kk ++ 61 :: (pv ++ 58 :: (vv ++ 13 :: 10 ::
        (toUpperRunes ee ++ 58 :: toUpperRunes vc2))))))))) =
      (.ok ⟨[(toUpperRunes nn,
        [⟨toUpperRunes gg, [(toUpperRunes kk, [pv])], [vv]⟩])]⟩, r')) := by
  constructor
  · exact Next_run_single_grouped_prop hbb hbbne hbbU hvc hvcU hgg hggne
      hnn hnnne hnnE hkk hkkne hpv hvv hee heene heeU hvc2 hvc2U
  · obtain ⟨r', h⟩ := Next_run_single_grouped_prop
      (toUpperRunes_nameBytes hbb) (toUpperRunes_ne_nil hbbne)
      (by rw [toUpperRunes_idem]; exact hbbU)
      (toUpperRunes_valueBytes hvc) (by rw [toUpperRunes_idem]; exact hvcU)
      (toUpperRunes_nameBytes hgg) (toUpperRunes_ne_nil hggne)
      (toUpperRunes_nameBytes hnn) (toUpperRunes_ne_nil hnnne)
      (by rw [toUpperRunes_idem]; exact hnnE)
      (toUpperRunes_nameBytes hkk) (toUpperRunes_ne_nil hkkne)
      hpv hvv
      (toUpperRunes_nameBytes hee) (toUpperRunes_ne_nil heene)
      (by rw [toUpperRunes_idem]; exact heeU)
      (toUpperRunes_valueBytes hvc2) (by rw [toUpperRunes_idem]; exact hvc2U)
    rw [toUpperRunes_idem, toUpperRunes_idem, toUpperRunes_idem] at h
    exact ⟨r', h⟩

theorem c5_case_insensitive_group_uppercased_witness :
    (∃ r', Next (NewUnfoldingReader
        ([98, 101, 103, 105, 110] ++ 58 :: ([118, 99, 97, 114, 100] ++ 13 :: 10 ::
          ([103, 114, 111, 117, 112] ++ 46 :: ([112, 114, 111, 112] ++ 59 ::
            ([107, 101, 121] ++ 61 :: ([120] ++ 58 :: ([118] ++ 13 :: 10 ::
              ([101, 110, 100] ++ 58 :: [118, 99, 97, 114, 100]))))))))) =
      (.ok ⟨[([80, 82, 79, 80],
        [⟨[71, 82, 79, 85, 80], [([75, 69, 89], [[120]])], [[118]]⟩])]⟩, r')) ∧
    (∃ r', Next (NewUnfoldingReader
        ([66, 69, 71, 73, 78] ++ 58 :: ([86, 67, 65, 82, 68] ++ 13 :: 10 ::
          ([71, 82, 79, 85, 80] ++ 46 :: ([80, 82, 79, 80] ++ 59 ::
            ([75, 69, 89] ++ 61 :: ([120] ++ 58 :: ([118] ++ 13 :: 10 ::
              ([69, 78, 68] ++ 58 :: [86, 67, 65, 82, 68]))))))))) =
      (.ok ⟨[([80, 82, 79, 80],
        [⟨[71, 82, 79, 85, 80], [([75, 69, 89], [[120]])], [[118]]⟩])]⟩, r')) :=
  c5_case_insensitive_group_uppercased
    [98, 101, 103, 105, 110] [118, 99, 97, 114, 100] [103, 114, 111, 117, 112]
    [112, 114, 111, 112] [107, 101, 121] [120] [118] [101, 110, 100]
    [118, 99, 97, 114, 100]
    (by decide) (by decide) (by decide) (by decide) (by decide) (by decide)
    (by decide) (by decide) (by decide) (by decide) (by decide) (by decide)
    (by decide) (by decide) (by decide) (by decide) (by decide) (by decide)
    (by decide)

end VCard
